import Mathlib

/-!
# Time Tracker: record intervals, statistics, timeline layout and merge import

A shallow embedding of the record store of `DataManager` (src/SRC/data.js) with the
operations `updateRecord`, `detectConflicts`, `splitRecordToRemoveOverlap`, `exportData`
and `importDataMerge`, and of `getFilteredStats` and the layout part of
`renderTimelineColumn` (src/SRC/app.js).

Modelling decisions:

* An instant is the `Int` number of epoch milliseconds that
  `new Date(x).getTime()` yields for the stored ISO string `x`; the strings are
  written by `toISOString()`, which keeps the millisecond, so reading a stored
  time back is the identity on that number.
* The record store (`getRecords` / `saveRecords` over `localStorage`) is the list
  of records in stored order; a save replaces the list. The same holds for tags.
* `Math.round (d / 1000)` on an integer millisecond count `d` is
  `roundDiv1000 d = (d + 500) / 1000` with floor division, that is
  `floor (d / 1000 + 1 / 2)` (ties go up, as in JavaScript).
* `generateUUID ()` is random; the identifiers returned by its successive calls
  inside one operation are parameters (`uuid1`, `uuid2`).
* `record.tags` is an array of tag ids: a `List String` (a missing array reads as `[]`).
* The object `tagStats` of `getFilteredStats` is the list of its own entries, and a
  key that names a member of `Object.prototype` (`inheritedKey`) reads as that member
  where the object has no own entry. Its entries are described up to order, so the
  place that `Object.entries` gives to keys that are array indices does not matter.
* The objects `existingTagsByName` and `tagIdMapping` of `importDataMerge` are the
  maps of their own properties. The code reads them in this way on the inputs
  described by `MergeKeysOwn`, where no key names a member of `Object.prototype`.
* `Array.prototype.sort` is stable: it is the insertion sort of the comparator's order.
* Percentages and the block positions of `blockLeftWidth` are exact rationals. The right
  edge `blockRightEdge` follows the binary64 arithmetic of JavaScript numbers
  (`Binary64`, `roundRatio`).
* `String.prototype.toLowerCase` is a parameter of `importDataMerge`.
-/

namespace TimeTracker

/-- A record of the store: `{ id, description, tags, startTime, endTime, duration }`. -/
structure Record where
  id : String
  description : String
  tags : List String
  startTime : Int
  endTime : Int
  duration : Int
deriving DecidableEq, Repr

/-- The object pushed by `detectConflicts` for one overlapping record. -/
structure Conflict where
  record : Record
  overlapStart : Int
  overlapEnd : Int
  overlapDuration : Int
deriving DecidableEq, Repr

/-- The value of `Math.round (ms / 1000)` for an integer number of milliseconds. -/
def roundDiv1000 (ms : Int) : Int := (ms + 500) / 1000

/-- The callback of `records.forEach` in `detectConflicts` (data.js 120-140): one step
on the accumulated `conflicts` array. -/
def detectConflictsStep (recordId : Option String) (start end_ : Int)
    (conflicts : List Conflict) (record : Record) : List Conflict :=
  if some record.id = recordId then conflicts
  else
    let rStart := record.startTime
    let rEnd := record.endTime
    if start < rEnd ∧ end_ > rStart then
      let overlapStart := max start rStart
      let overlapEnd := min end_ rEnd
      let overlapDuration := roundDiv1000 (overlapEnd - overlapStart)
      conflicts ++ [{ record := record, overlapStart := overlapStart,
                      overlapEnd := overlapEnd, overlapDuration := overlapDuration }]
    else conflicts

/-- The function `detectConflicts (recordId, startTime, endTime)` of data.js 114-143, run on
the store snapshot `records`. `recordId` is `none` when the caller passes no id. -/
def detectConflicts (records : List Record) (recordId : Option String)
    (startTime endTime : Int) : List Conflict :=
  records.foldl (detectConflictsStep recordId startTime endTime) []

/-- The array `newRecords` built by the case analysis of `splitRecordToRemoveOverlap`
(data.js 160-198) for the edited `record` and the bounds of the conflicting record. -/
def splitNewRecords (record : Record) (cStart cEnd : Int) (uuid1 uuid2 : String) :
    List Record :=
  let start := record.startTime
  let end_ := record.endTime
  if cStart > start ∧ cEnd < end_ then
    [ { record with id := uuid1, endTime := cStart,
                    duration := roundDiv1000 (cStart - start) },
      { record with id := uuid2, startTime := cEnd,
                    duration := roundDiv1000 (end_ - cEnd) } ]
  else if cStart ≤ start ∧ cEnd > start ∧ cEnd < end_ then
    [ { record with id := uuid1, startTime := cEnd,
                    duration := roundDiv1000 (end_ - cEnd) } ]
  else if cStart > start ∧ cStart < end_ ∧ cEnd ≥ end_ then
    [ { record with id := uuid1, endTime := cStart,
                    duration := roundDiv1000 (cStart - start) } ]
  else []

/-- The function `splitRecordToRemoveOverlap (recordId, conflictRecordId)` of data.js
146-205 on the store `records`. The first component is the returned value (`none` for
`null`), the second the store after the call. -/
def splitRecordToRemoveOverlap (records : List Record) (uuid1 uuid2 : String)
    (recordId conflictRecordId : String) : Option (List Record) × List Record :=
  match records.find? (fun r => r.id == recordId),
        records.find? (fun r => r.id == conflictRecordId) with
  | some record, some conflictRecord =>
    let cStart := conflictRecord.startTime
    let cEnd := conflictRecord.endTime
    let filtered := records.filter (fun r => r.id != recordId)
    let newRecords := splitNewRecords record cStart cEnd uuid1 uuid2
    let validRecords := newRecords.filter (fun r => decide (r.duration > 0))
    (some validRecords, filtered ++ validRecords)
  | _, _ => (none, records)

/-- The instant `h:m` of the first day, in epoch milliseconds. -/
def hm (h m : Int) : Int := (h * 60 + m) * 60000

/-- The conflict object built for a stored record that passes the overlap test. -/
def conflictOf (start end_ : Int) (r : Record) : Conflict :=
  { record := r
    overlapStart := max start r.startTime
    overlapEnd := min end_ r.endTime
    overlapDuration := roundDiv1000 (min end_ r.endTime - max start r.startTime) }

/-- The test that decides whether a stored record produces a conflict. -/
def reported (recordId : Option String) (start end_ : Int) (r : Record) : Bool :=
  decide (some r.id ≠ recordId ∧ start < r.endTime ∧ end_ > r.startTime)

/-- The overlap test of `detectConflicts` (data.js 127), `start < rEnd && end > rStart`,
for the intervals `[a0, a1)` and `[b0, b1)`. -/
def overlap (a0 a1 b0 b1 : Int) : Bool := decide (a0 < b1 ∧ a1 > b0)

/-- A tag of the store: `{ id, name, color, isExcluded }` (a missing `isExcluded` reads as
`false`). -/
structure Tag where
  id : String
  name : String
  color : String
  isExcluded : Bool
deriving DecidableEq, Repr

/-- An entry of `byTag` in `getFilteredStats`. `tag = none` stands for the placeholder
object `{ name: '未知', color: '#666' }` used when no tag has the id. -/
structure TagStat where
  tag : Option Tag
  duration : Int
  percent : ℚ
deriving DecidableEq

/-- The object returned by `getFilteredStats`: `{ total, byTag }`. -/
structure FilteredStats where
  total : Int
  byTag : List TagStat

/-- The set `excludedTagIds` of `getFilteredStats` (app.js 926-929), as the list of its
members. -/
def excludedTagIds (tags : List Tag) (manuallyExcludedTags : List String) : List String :=
  (tags.filter (fun t => t.isExcluded)).map (fun t => t.id) ++ manuallyExcludedTags

/-- The names of the members of `Object.prototype`, which every object literal `{}`
inherits: reading such a key on an object that has no own property of that name yields
the inherited member (a function, or the prototype object for `__proto__`), which is
truthy. -/
def objectPrototypeKeys : List String :=
  ["constructor", "__defineGetter__", "__defineSetter__", "hasOwnProperty",
   "__lookupGetter__", "__lookupSetter__", "isPrototypeOf", "propertyIsEnumerable",
   "toString", "valueOf", "__proto__", "toLocaleString"]

/-- Whether reading the key `key` on an object literal without an own property of that
name yields a member inherited from `Object.prototype`. -/
def inheritedKey (key : String) : Bool := objectPrototypeKeys.contains key

/-- The inner statement of `getFilteredStats` (app.js 946-949) on the object `tagStats`,
kept as the list of its own entries in insertion order. With an own entry,
`tagStats[tagId]` is that entry and the duration is added to it. Without one, if `tagId`
names a member of `Object.prototype` then `tagStats[tagId]` is that member, which is
truthy: no entry is created and the addition lands on the member, so the own entries
(all that `Object.entries` lists) stay as they are. Otherwise the entry is created with
duration 0 and the duration is added to it. -/
def bumpTagStats (tagStats : List (String × Int)) (tagId : String) (duration : Int) :
    List (String × Int) :=
  if tagStats.any (fun e => e.1 == tagId) then
    tagStats.map (fun e => if e.1 == tagId then (e.1, e.2 + duration) else e)
  else if inheritedKey tagId then tagStats
  else tagStats ++ [(tagId, 0 + duration)]

/-- The callback of `records.forEach` in `getFilteredStats` (app.js 935-951) on the pair
`(total, tagStats)`. -/
def getFilteredStatsStep (excluded : List String) (acc : Int × List (String × Int))
    (record : Record) : Int × List (String × Int) :=
  let recordTags := record.tags
  let hasExcludedTag := recordTags.any (fun tagId => excluded.contains tagId)
  let total := if !hasExcludedTag then acc.1 + record.duration else acc.1
  (total, recordTags.foldl (fun ts tagId => bumpTagStats ts tagId record.duration) acc.2)

/-- The order of `.sort ((a, b) => b.duration - a.duration)`: `a` may stand before `b`. -/
def byDurationDesc (a b : TagStat) : Prop := a.duration ≥ b.duration

instance : DecidableRel byDurationDesc := fun a b => Int.decLe b.duration a.duration

instance : IsTotal TagStat byDurationDesc := ⟨fun a b => Int.le_total b.duration a.duration⟩

instance : IsTrans TagStat byDurationDesc :=
  ⟨fun _ _ _ hab hbc => Int.le_trans hbc hab⟩

/-- The entry of `byTag` built for one entry of `tagStats` (app.js 956-963). -/
def tagStatOf (tags : List Tag) (total : Int) (tagId : String) (duration : Int) : TagStat :=
  { tag := tags.find? (fun t => t.id == tagId)
    duration := duration
    percent := if total > 0 then ((duration : ℚ) / (total : ℚ)) * 100 else 0 }

/-- The function `getFilteredStats (records)` of app.js 922-967, with the tag list of the
store and `state.manuallyExcludedTags` as arguments. The stable sort of JavaScript is the
insertion sort for `byDurationDesc`; percentages are exact rationals. -/
def getFilteredStats (tags : List Tag) (manuallyExcludedTags : List String)
    (records : List Record) : FilteredStats :=
  let excluded := excludedTagIds tags manuallyExcludedTags
  let acc := records.foldl (getFilteredStatsStep excluded) (0, [])
  let total := acc.1
  let tagStats := acc.2
  let byTag :=
    ((tagStats.filter (fun e => !excluded.contains e.1)).map
      (fun e => tagStatOf tags total e.1 e.2)).insertionSort byDurationDesc
  { total := total, byTag := byTag }

/-- The `(tagId, duration)` additions made by the loop of `getFilteredStats`, in the order
in which they are made: one per tag occurrence of each record. -/
def tagPairs (records : List Record) : List (String × Int) :=
  records.flatMap (fun r => r.tags.map (fun k => (k, r.duration)))

/-- The sum of the durations added under the key `k`. -/
def tagSum (pairs : List (String × Int)) (k : String) : Int :=
  ((pairs.filter (fun e => e.1 == k)).map (fun e => e.2)).sum

/-- The state of the object `tagStats` after the additions `pairs`: one own entry per key
that was added and does not name a member of `Object.prototype`, holding the sum added
under that key. -/
def TagStatsInv (tagStats pairs : List (String × Int)) : Prop :=
  (tagStats.map Prod.fst).Nodup ∧
  (∀ k, k ∈ tagStats.map Prod.fst ↔ (k ∈ pairs.map Prod.fst ∧ inheritedKey k = false)) ∧
  (∀ e ∈ tagStats, e.2 = tagSum pairs e.1)

/-- An element of `columnRecords` in `renderTimelineColumn` (app.js 1328-1332): the record
with its interval clipped to the half-day window, and the fields written later by the
layout (`none` while the property is still undefined). -/
structure ColumnRecord where
  record : Record
  clippedStart : Int
  clippedEnd : Int
  column : Option Nat
  maxColumn : Option Nat
  totalColumnsInSlot : Option Nat
deriving DecidableEq, Repr

/-- The callback of `records.map` in `renderTimelineColumn` (app.js 1318-1333); `none` is
the `null` that the following `filter` drops. -/
def clipRecord (columnStart columnEnd : Int) (record : Record) : Option ColumnRecord :=
  let start := record.startTime
  let end_ := record.endTime
  let clippedStart := max start columnStart
  let clippedEnd := min end_ columnEnd
  if clippedEnd ≤ clippedStart then none
  else some { record := record, clippedStart := clippedStart, clippedEnd := clippedEnd,
              column := none, maxColumn := none, totalColumnsInSlot := none }

/-- The order of `.sort ((a, b) => a.clippedStart - b.clippedStart)`: `a` may stand before
`b`. -/
def byClippedStart (a b : ColumnRecord) : Prop := a.clippedStart ≤ b.clippedStart

instance : DecidableRel byClippedStart := fun a b => Int.decLe a.clippedStart b.clippedStart

instance : IsTotal ColumnRecord byClippedStart :=
  ⟨fun a b => Int.le_total a.clippedStart b.clippedStart⟩

instance : IsTrans ColumnRecord byClippedStart := ⟨fun _ _ _ hab hbc => Int.le_trans hab hbc⟩

/-- The overlap test of the layout (app.js 1341 and 1356):
`!(other.clippedEnd <= record.clippedStart || other.clippedStart >= record.clippedEnd)`. -/
def overlapsInColumn (other record : ColumnRecord) : Bool :=
  !(decide (other.clippedEnd ≤ record.clippedStart) ||
    decide (other.clippedStart ≥ record.clippedEnd))

/-- The loop `while (usedColumns.includes (col)) col++` (app.js 1349) started at `col`, with
a bound on the number of tests. -/
def whileIncludes (usedColumns : List Nat) : Nat → Nat → Nat
  | 0, col => col
  | fuel + 1, col =>
    if usedColumns.contains col then whileIncludes usedColumns fuel (col + 1) else col

/-- The column chosen by `let col = 0; while (usedColumns.includes (col)) col++`. The loop
leaves at the latest after `usedColumns.length` increments, so the bound is never reached
(`firstFreeColumn_spec`). -/
def firstFreeColumn (usedColumns : List Nat) : Nat :=
  whileIncludes usedColumns (usedColumns.length + 1) 0

/-- The first `sortedRecords.forEach` of `renderTimelineColumn` (app.js 1338-1352). The
array is `done ++ record :: rest` with `record` the element being visited: the elements
of `done` have been visited, and the others of the array are `done ++ rest`. -/
def assignColumns (done : List ColumnRecord) : List ColumnRecord → List ColumnRecord
  | [] => done
  | record :: rest =>
    let overlapping := (done ++ rest).filter (fun other => overlapsInColumn other record)
    let usedColumns := overlapping.filterMap (fun o => o.column)
    let col := firstFreeColumn usedColumns
    let maxColumn := (overlapping.map (fun o => o.column.getD 0)).foldl max col
    assignColumns
      (done ++ [{ record with column := some col, maxColumn := some maxColumn }]) rest

/-- The second `sortedRecords.forEach` of `renderTimelineColumn` (app.js 1354-1359). -/
def countColumnsInSlot (sortedRecords : List ColumnRecord) : List ColumnRecord :=
  sortedRecords.map (fun record =>
    let overlapping := sortedRecords.filter (fun other => overlapsInColumn other record)
    { record with totalColumnsInSlot := some overlapping.length })

/-- The layout computed by `renderTimelineColumn` (app.js 1318-1359) for the window
`[columnStart, columnEnd)`: the array `sortedRecords` after the two passes, from which the
blocks are drawn. The stable sort of JavaScript is the insertion sort for
`byClippedStart`. -/
def renderTimelineColumn (records : List Record) (columnStart columnEnd : Int) :
    List ColumnRecord :=
  let columnRecords := records.filterMap (clipRecord columnStart columnEnd)
  let sortedRecords := columnRecords.insertionSort byClippedStart
  countColumnsInSlot (assignColumns [] sortedRecords)

/-- The horizontal placement of a block (app.js 1389-1392) as `(left, width)`, in percent
of the lane, as exact rationals; `none` if a field were still undefined. -/
def blockLeftWidth (record : ColumnRecord) : Option (ℚ × ℚ) :=
  match record.column, record.totalColumnsInSlot with
  | some column, some totalCols =>
    let colWidth : ℚ := 100 / (totalCols : ℚ)
    let left := (column : ℚ) * colWidth
    let width := colWidth - 1
    some (left, width)
  | _, _ => none

/-- A finite non-negative JavaScript number (IEEE 754 binary64) as its significand and
exponent: the value is `mant * 2 ^ exp` with `2 ^ 52 ≤ mant < 2 ^ 53`, and `mant = 0` for
zero. The range of the exponent (overflow, subnormal numbers) is not modelled. -/
structure Binary64 where
  mant : Nat
  exp : Int
deriving DecidableEq, Repr

/-- The numerator of the value of a number written as a quotient of naturals. -/
def Binary64.num (x : Binary64) : Nat :=
  if 0 ≤ x.exp then x.mant * 2 ^ x.exp.toNat else x.mant

/-- The denominator of the value of a number written as a quotient of naturals. -/
def Binary64.den (x : Binary64) : Nat :=
  if 0 ≤ x.exp then 1 else 2 ^ (-x.exp).toNat

/-- The value of a number as an exact rational. -/
def Binary64.toRat (x : Binary64) : ℚ := (x.mant : ℚ) * (2 : ℚ) ^ x.exp

/-- The number of binary digits of `n` (0 for 0), for `n` below `2 ^ fuel`. -/
def bitLength : Nat → Nat → Nat
  | 0, _ => 0
  | fuel + 1, n => if n = 0 then 0 else bitLength fuel (n / 2) + 1

/-- The quotient `num / den` divided by `2 ^ e`, as a numerator and a denominator. -/
def scaleRatio (num den : Nat) (e : Int) : Nat × Nat :=
  if 0 ≤ e then (num, den * 2 ^ e.toNat) else (num * 2 ^ (-e).toNat, den)

/-- The rounding of IEEE 754 (to nearest, ties to even) of the exact quotient `num / den`
to a 53-bit significand. The exponent `e` is the one for which `num / den / 2 ^ e` lies in
`[2 ^ 52, 2 ^ 53)`: with `e0` taken from the digit counts the scaled quotient lies between
`2 ^ 52` and `2 ^ 54`, so `e` is `e0` or `e0 + 1`. The integer part `q` of the scaled
quotient is rounded by its remainder `r`. The bound 4096 on the digit counts covers the
quotients, products and sums of two finite binary64 numbers. -/
def roundRatio (num den : Nat) : Binary64 :=
  let e0 : Int := (bitLength 4096 num : Int) - (bitLength 4096 den : Int) - 53
  let e := if (scaleRatio num den e0).1 / (scaleRatio num den e0).2 < 2 ^ 53 then e0 else e0 + 1
  let n := (scaleRatio num den e).1
  let d := (scaleRatio num den e).2
  let q := n / d
  let r := n % d
  let m := if 2 * r > d ∨ (2 * r = d ∧ q % 2 = 1) then q + 1 else q
  if m = 2 ^ 53 then ⟨2 ^ 52, e + 1⟩ else ⟨m, e⟩

/-- The number that JavaScript holds for the non-negative integer `n`. -/
def Binary64.ofNat (n : Nat) : Binary64 := roundRatio n 1

/-- The operator `/` of JavaScript on two numbers, the divisor not zero: the exact quotient,
rounded. -/
def Binary64.div (x y : Binary64) : Binary64 := roundRatio (x.num * y.den) (x.den * y.num)

/-- The operator `*` of JavaScript on two numbers: the exact product, rounded. -/
def Binary64.mul (x y : Binary64) : Binary64 := roundRatio (x.num * y.num) (x.den * y.den)

/-- The operator `+` of JavaScript on two numbers: the exact sum, rounded. -/
def Binary64.add (x y : Binary64) : Binary64 :=
  roundRatio (x.num * y.den + y.num * x.den) (x.den * y.den)

/-- The right edge `left + colWidth` of the column of a block, with the numbers
`colWidth = 100 / totalCols` and `left = record.column * colWidth` that app.js 1389-1391
computes, in the binary64 arithmetic of JavaScript; `none` if a field were still
undefined. -/
def blockRightEdge (record : ColumnRecord) : Option Binary64 :=
  match record.column, record.totalColumnsInSlot with
  | some column, some totalCols =>
    let colWidth := Binary64.div (Binary64.ofNat 100) (Binary64.ofNat totalCols)
    let left := Binary64.mul (Binary64.ofNat column) colWidth
    some (Binary64.add left colWidth)
  | _, _ => none

/-- The array `sortedRecords` of `renderTimelineColumn` before the two passes
(app.js 1318-1336). -/
def sortedColumnRecords (records : List Record) (columnStart columnEnd : Int) :
    List ColumnRecord :=
  (records.filterMap (clipRecord columnStart columnEnd)).insertionSort byClippedStart

/-- The document written by `exportData` and read back by `parseImportData`:
`{ exportTime, version, dateRange: { start, end }, tags, records }`. -/
structure ExportDocument where
  exportTime : Int
  version : String
  dateRangeStart : Int
  dateRangeEnd : Int
  tags : List Tag
  records : List Record
deriving DecidableEq, Repr

/-- The function `getRecordsByDateRange (startDate, endDate)` of data.js 324-335 on the
store `records`. The local-calendar operations `setHours (0, 0, 0, 0)` and
`setHours (23, 59, 59, 999)` are the parameters `dayStart` and `dayEnd`. -/
def getRecordsByDateRange (records : List Record) (dayStart dayEnd : Int → Int)
    (startDate endDate : Int) : List Record :=
  let start := dayStart startDate
  let end_ := dayEnd endDate
  records.filter (fun record =>
    let recordDate := record.startTime
    decide (recordDate ≥ start ∧ recordDate ≤ end_))

/-- The object built by `exportData (startDate, endDate)` (data.js 443-459) from the store;
`now` is the instant of the call. `JSON.stringify` followed by `JSON.parse` gives the same
document back. -/
def exportData (records : List Record) (tags : List Tag) (dayStart dayEnd : Int → Int)
    (now startDate endDate : Int) : ExportDocument :=
  { exportTime := now
    version := "1.0"
    dateRangeStart := startDate
    dateRangeEnd := endDate
    tags := tags
    records := getRecordsByDateRange records dayStart dayEnd startDate endDate }

/-- The assignment `obj[key] = value` on an object used as a map from strings, kept as the
function from a key to the value of its own property. For the key `__proto__` the
assignment of JavaScript creates no own property; `MergeKeysOwn` keeps that key away. -/
def setKey {α : Type} (obj : String → Option α) (key : String) (value : α) :
    String → Option α :=
  fun k => if k = key then some value else obj k

/-- The variables of `importDataMerge` that the loop over `importData.tags` updates. -/
structure MergeTagState where
  existingTags : List Tag
  existingTagsByName : String → Option Tag
  tagIdMapping : String → Option String
  addedTags : Nat

/-- The object `existingTagsByName` built by `existingTags.forEach` in `importDataMerge`
(data.js 514-517); `toLowerCase` is `String.prototype.toLowerCase`. -/
def tagsByName (toLowerCase : String → String) (existingTags : List Tag) :
    String → Option Tag :=
  existingTags.foldl (fun obj t => setKey obj (toLowerCase t.name) t) (fun _ => none)

/-- The callback of `importData.tags.forEach` in `importDataMerge` (data.js 523-535), with
`existingTagsByName[...]` read among the own properties of the object. When the lower-cased
name is no own key and names a member of `Object.prototype`, the code reads that member
instead, which is truthy and has no `id`; `MergeKeysOwn` keeps such names away. -/
def mergeTagStep (toLowerCase : String → String) (st : MergeTagState) (importTag : Tag) :
    MergeTagState :=
  match st.existingTagsByName (toLowerCase importTag.name) with
  | some existingTag =>
    { st with tagIdMapping := setKey st.tagIdMapping importTag.id existingTag.id }
  | none =>
    { existingTags := st.existingTags ++ [importTag]
      existingTagsByName := setKey st.existingTagsByName (toLowerCase importTag.name) importTag
      tagIdMapping := setKey st.tagIdMapping importTag.id importTag.id
      addedTags := st.addedTags + 1 }

/-- The expression `tagIdMapping[tagId] || tagId` (data.js 544), with `tagIdMapping[tagId]`
read among the own properties of the object: a missing entry and the empty string are
falsy. When `tagId` is no own key and names a member of `Object.prototype`, the code
yields that member instead of a tag id; `MergeKeysOwn` keeps such ids away. -/
def mappedTagId (tagIdMapping : String → Option String) (tagId : String) : String :=
  match tagIdMapping tagId with
  | some mapped => if mapped = "" then tagId else mapped
  | none => tagId

/-- The callback of `importData.records.forEach` in `importDataMerge` (data.js 539-549) on
the pair `(existingRecords, addedRecords)`. -/
def mergeRecordStep (existingRecordIds : List String) (tagIdMapping : String → Option String)
    (acc : List Record × Nat) (record : Record) : List Record × Nat :=
  if !(existingRecordIds.contains record.id) then
    let updatedRecord :=
      { record with tags := record.tags.map (fun tagId => mappedTagId tagIdMapping tagId) }
    (acc.1 ++ [updatedRecord], acc.2 + 1)
  else acc

/-- The outcome of `importDataMerge`: the returned counts and the two lists saved to the
store. -/
structure MergeResult where
  addedRecords : Nat
  addedTags : Nat
  records : List Record
  tags : List Tag
deriving DecidableEq, Repr

/-- The state of the tag loop of `importDataMerge` after all imported tags. -/
def mergeTags (toLowerCase : String → String) (existingTags importTags : List Tag) :
    MergeTagState :=
  importTags.foldl (mergeTagStep toLowerCase)
    { existingTags := existingTags
      existingTagsByName := tagsByName toLowerCase existingTags
      tagIdMapping := fun _ => none
      addedTags := 0 }

/-- The function `importDataMerge (importData)` of data.js 508-558 on the store
`(existingRecords, existingTags)`. -/
def importDataMerge (toLowerCase : String → String) (existingRecords : List Record)
    (existingTags : List Tag) (importData : ExportDocument) : MergeResult :=
  let existingRecordIds := existingRecords.map (fun r => r.id)
  let st := mergeTags toLowerCase existingTags importData.tags
  let acc := importData.records.foldl (mergeRecordStep existingRecordIds st.tagIdMapping)
    (existingRecords, 0)
  { addedRecords := acc.2, addedTags := st.addedTags, records := acc.1,
    tags := st.existingTags }

/-- The inputs of `importDataMerge` on which the objects `existingTagsByName` and
`tagIdMapping` are read and written through own properties only, and on which the `||` of
data.js 544 never meets an empty id: no lower-cased tag name, no imported tag id and no tag
id of an imported record names a member of `Object.prototype`, and no tag id is the empty
string. -/
def MergeKeysOwn (toLowerCase : String → String) (existingTags : List Tag)
    (importData : ExportDocument) : Prop :=
  (∀ s ∈ existingTags, inheritedKey (toLowerCase s.name) = false ∧ s.id ≠ "") ∧
  (∀ p ∈ importData.tags,
    inheritedKey (toLowerCase p.name) = false ∧ inheritedKey p.id = false ∧ p.id ≠ "") ∧
  (∀ r ∈ importData.records, ∀ t ∈ r.tags, inheritedKey t = false)

/-- The lower-casing of the letters `A` to `Z`, on which `toLowerCase` agrees for strings
of such letters; used in the examples. -/
def asciiLower (s : String) : String := ⟨s.data.map Char.toLower⟩

/-- The `updates` object passed to `updateRecord`: each property of a record may be
present (`some`) or absent (`none`). A present `startTime` or `endTime` is an ISO string,
which is truthy. -/
structure RecordUpdates where
  id : Option String
  description : Option String
  tags : Option (List String)
  startTime : Option Int
  endTime : Option Int
  duration : Option Int
deriving DecidableEq, Repr

/-- The object `{ ...record, ...updates }` (data.js 94). -/
def mergeUpdates (record : Record) (updates : RecordUpdates) : Record :=
  { id := updates.id.getD record.id
    description := updates.description.getD record.description
    tags := updates.tags.getD record.tags
    startTime := updates.startTime.getD record.startTime
    endTime := updates.endTime.getD record.endTime
    duration := updates.duration.getD record.duration }

/-- The function `updateRecord (id, updates)` of data.js 90-105 on the store `records`.
The first component is the returned value (`none` for `null`), the second the store after
the call. The element `records[index]` at the index given by `findIndex` is the one that
`find` returns (`getElem?_findIdx?`). -/
def updateRecord (records : List Record) (id : String) (updates : RecordUpdates) :
    Option Record × List Record :=
  match records.findIdx? (fun r => r.id == id), records.find? (fun r => r.id == id) with
  | some index, some old =>
    let merged := mergeUpdates old updates
    let merged :=
      if updates.startTime.isSome || updates.endTime.isSome then
        let start := merged.startTime
        let end_ := merged.endTime
        { merged with duration := roundDiv1000 (end_ - start) }
      else merged
    (some merged, records.set index merged)
  | _, _ => (none, records)

/-- The state of the tag loop of `importDataMerge` over the stored tags `S` and the imported
tags `I`: the tag list is `S` followed by the tags added so far, which are imported tags,
`addedTags` counts them, the lower-cased names are pairwise distinct, and the names
registered in `existingTagsByName` are those of the list. -/
def MergeTagsInv (lower : String → String) (S I : List Tag) (st : MergeTagState) : Prop :=
  (st.existingTags.map (fun t => lower t.name)).Nodup ∧
  (∀ k, (∃ x, st.existingTagsByName k = some x) ↔
    k ∈ st.existingTags.map (fun t => lower t.name)) ∧
  ∃ added, st.existingTags = S ++ added ∧ st.addedTags = added.length ∧
    ∀ t ∈ added, t ∈ I

/-- The number of laid-out records whose clipped interval `[clippedStart, clippedEnd)`
holds the instant `t`. -/
def sharingInstant (layout : List ColumnRecord) (t : Int) : Nat :=
  layout.countP (fun o => decide (o.clippedStart ≤ t ∧ t < o.clippedEnd))

/-- The number of distinct values of `column` in a layout. -/
def distinctColumns (layout : List ColumnRecord) : Nat :=
  (layout.map (fun r => r.column)).dedup.length

/-! ## Auxiliary facts -/

/-- The integer formula of `roundDiv1000` is rounding to the nearest integer with ties
going up: `floor (ms / 1000 + 1 / 2)` over the rationals. -/
theorem roundDiv1000_eq_floor (ms : Int) :
    roundDiv1000 ms = ⌊(ms : ℚ) / 1000 + 1 / 2⌋ := by
  have h : (ms : ℚ) / 1000 + 1 / 2 = ((ms + 500 : Int) : ℚ) / ((1000 : Nat) : ℚ) := by
    push_cast
    ring
  rw [h, Rat.floor_intCast_div_natCast]
  rfl

/-- The rounded number of seconds is positive exactly from half a second on. -/
theorem roundDiv1000_pos_iff (ms : Int) : 0 < roundDiv1000 ms ↔ 500 ≤ ms := by
  unfold roundDiv1000
  omega

/-- On whole seconds `roundDiv1000` is the exact quotient. -/
theorem roundDiv1000_of_dvd (ms : Int) (h : 1000 ∣ ms) : roundDiv1000 ms = ms / 1000 := by
  unfold roundDiv1000
  omega

theorem detectConflictsStep_eq (recordId : Option String) (s e : Int)
    (acc : List Conflict) (r : Record) :
    detectConflictsStep recordId s e acc r =
      acc ++ (if reported recordId s e r then [conflictOf s e r] else []) := by
  unfold detectConflictsStep reported conflictOf
  by_cases hid : some r.id = recordId
  · simp [hid]
  · by_cases hov : s < r.endTime ∧ e > r.startTime
    · simp [hid, hov]
    · simp only [hid, hov, if_false, and_false, decide_False, List.append_nil]
      simp

theorem foldl_detectConflictsStep (recordId : Option String) (s e : Int)
    (records : List Record) (acc : List Conflict) :
    records.foldl (detectConflictsStep recordId s e) acc =
      acc ++ (records.filter (reported recordId s e)).map (conflictOf s e) := by
  induction records generalizing acc with
  | nil => simp
  | cons r rs ih =>
    rw [List.foldl_cons, ih, detectConflictsStep_eq]
    by_cases h : reported recordId s e r = true
    · simp [h]
    · simp [h]

theorem detectConflicts_eq (records : List Record) (recordId : Option String) (s e : Int) :
    detectConflicts records recordId s e =
      (records.filter (reported recordId s e)).map (conflictOf s e) := by
  unfold detectConflicts
  rw [foldl_detectConflictsStep]
  simp

/-! ## Claims -/

/-- C1: `detectConflicts` returns, in store order, exactly one conflict for each stored
record whose id is not the excluded one and whose interval passes
`start < r.end ∧ end > r.start`; that conflict carries the record,
`overlapStart = max start r.start`, `overlapEnd = min end r.end` and
`overlapDuration = round ((overlapEnd - overlapStart) / 1000)`, the rounding being
`floor (x + 1/2)`. The result is a function of the snapshot and the arguments only. -/
theorem detectConflicts_spec (records : List Record) (recordId : Option String)
    (start end_ : Int) :
    detectConflicts records recordId start end_ =
      (records.filter
        (fun r => decide (some r.id ≠ recordId ∧ start < r.endTime ∧ end_ > r.startTime))).map
        (fun r => { record := r
                    overlapStart := max start r.startTime
                    overlapEnd := min end_ r.endTime
                    overlapDuration :=
                      ⌊((min end_ r.endTime - max start r.startTime : Int) : ℚ) / 1000 + 1 / 2⌋ }) := by
  rw [detectConflicts_eq]
  apply congrArg₂ List.map
  · funext r
    simp only [conflictOf, roundDiv1000_eq_floor]
  · rfl

/-- Both ids found: the returned list and the store after the call. -/
theorem splitRecordToRemoveOverlap_found (records : List Record) (uuid1 uuid2 : String)
    (recordId conflictRecordId : String) (record conflictRecord : Record)
    (h1 : records.find? (fun r => r.id == recordId) = some record)
    (h2 : records.find? (fun r => r.id == conflictRecordId) = some conflictRecord) :
    splitRecordToRemoveOverlap records uuid1 uuid2 recordId conflictRecordId =
      (some ((splitNewRecords record conflictRecord.startTime conflictRecord.endTime
                uuid1 uuid2).filter (fun r => decide (r.duration > 0))),
       records.filter (fun r => r.id != recordId) ++
         (splitNewRecords record conflictRecord.startTime conflictRecord.endTime
                uuid1 uuid2).filter (fun r => decide (r.duration > 0))) := by
  unfold splitRecordToRemoveOverlap
  rw [h1, h2]

/-- Every element of `newRecords` is the edited record cut at the conflicting start (a
left fragment) or at the conflicting end (a right fragment). -/
theorem splitNewRecords_mem (record : Record) (cStart cEnd : Int) (uuid1 uuid2 : String)
    (f : Record) (hf : f ∈ splitNewRecords record cStart cEnd uuid1 uuid2) :
    (∃ u, (u = uuid1 ∨ u = uuid2) ∧
        f = { record with id := u, endTime := cStart,
                          duration := roundDiv1000 (cStart - record.startTime) }) ∨
    (∃ u, (u = uuid1 ∨ u = uuid2) ∧
        f = { record with id := u, startTime := cEnd,
                          duration := roundDiv1000 (record.endTime - cEnd) }) := by
  unfold splitNewRecords at hf
  simp only at hf
  split_ifs at hf
  · simp only [List.mem_cons, List.mem_singleton, List.not_mem_nil, or_false] at hf
    rcases hf with h | h
    · exact Or.inl ⟨uuid1, Or.inl rfl, h⟩
    · exact Or.inr ⟨uuid2, Or.inr rfl, h⟩
  · simp only [List.mem_singleton] at hf
    exact Or.inr ⟨uuid1, Or.inl rfl, hf⟩
  · simp only [List.mem_singleton] at hf
    exact Or.inl ⟨uuid1, Or.inl rfl, hf⟩
  · simp at hf

/-- C2: when both ids are found, no record returned by `splitRecordToRemoveOverlap`
overlaps the conflicting record `[cs, ce)`: for every replacement `f`,
not (`f.start < ce` and `f.end > cs`); hence `detectConflicts` run on a replacement's
interval, over any store, never reports the conflicting record. -/
theorem split_replacements_do_not_overlap (records : List Record) (uuid1 uuid2 : String)
    (editedId conflictId : String) (record conflictRecord : Record)
    (h1 : records.find? (fun r => r.id == editedId) = some record)
    (h2 : records.find? (fun r => r.id == conflictId) = some conflictRecord) :
    ∃ fs, (splitRecordToRemoveOverlap records uuid1 uuid2 editedId conflictId).1 = some fs ∧
      ∀ f ∈ fs,
        ¬ (f.startTime < conflictRecord.endTime ∧ f.endTime > conflictRecord.startTime) ∧
        ∀ (store : List Record) (excluded : Option String),
          ∀ c ∈ detectConflicts store excluded f.startTime f.endTime,
            c.record ≠ conflictRecord := by
  rw [splitRecordToRemoveOverlap_found records uuid1 uuid2 editedId conflictId record
    conflictRecord h1 h2]
  refine ⟨_, rfl, ?_⟩
  intro f hf
  have hno : ¬ (f.startTime < conflictRecord.endTime ∧
      f.endTime > conflictRecord.startTime) := by
    rcases splitNewRecords_mem _ _ _ _ _ f (List.mem_of_mem_filter hf) with
      ⟨u, _, h⟩ | ⟨u, _, h⟩
    · subst h
      simp
    · subst h
      simp
  refine ⟨hno, ?_⟩
  intro store excluded c hc hrec
  rw [detectConflicts_eq, List.mem_map] at hc
  obtain ⟨r, hr, hcr⟩ := hc
  have hrep : reported excluded f.startTime f.endTime r = true := (List.mem_filter.mp hr).2
  have hcr2 : c.record = r := by
    rw [← hcr]
    rfl
  rw [hcr2] at hrec
  subst hrec
  unfold reported at hrep
  rw [decide_eq_true_eq] at hrep
  exact hno ⟨hrep.2.1, hrep.2.2⟩

/-- C2, on the store of the containment example: both fragments of `[09:00, 12:00)` stay
clear of `[10:00, 11:00)`. -/
theorem split_replacements_do_not_overlap_witness :
    ∃ fs, (splitRecordToRemoveOverlap
        [⟨"a", "x", ["t"], hm 9 0, hm 12 0, 10800⟩, ⟨"b", "", [], hm 10 0, hm 11 0, 3600⟩]
        "u1" "u2" "a" "b").1 = some fs ∧
      ∀ f ∈ fs,
        ¬ (f.startTime < hm 11 0 ∧ f.endTime > hm 10 0) ∧
        ∀ (store : List Record) (excluded : Option String),
          ∀ c ∈ detectConflicts store excluded f.startTime f.endTime,
            c.record ≠ ⟨"b", "", [], hm 10 0, hm 11 0, 3600⟩ :=
  split_replacements_do_not_overlap
    [⟨"a", "x", ["t"], hm 9 0, hm 12 0, 10800⟩, ⟨"b", "", [], hm 10 0, hm 11 0, 3600⟩]
    "u1" "u2" "a" "b" ⟨"a", "x", ["t"], hm 9 0, hm 12 0, 10800⟩
    ⟨"b", "", [], hm 10 0, hm 11 0, 3600⟩ (by decide) (by decide)

/-- C3 (containment): when the conflicting record `[cs, ce)` has `cs > s` and `ce < e` for
the edited record `[s, e)`, `splitRecordToRemoveOverlap` returns the fragments `[s, cs)` and
`[ce, e)` in that order, with the original description and tags, the newly generated ids and
durations `round ((cs - s) / 1000)` and `round ((e - ce) / 1000)`, a fragment being left out
only when its duration is not positive; when the four instants are whole seconds both
fragments are returned. -/
theorem split_containment (records : List Record) (uuid1 uuid2 : String)
    (editedId conflictId : String) (record conflictRecord : Record)
    (h1 : records.find? (fun r => r.id == editedId) = some record)
    (h2 : records.find? (fun r => r.id == conflictId) = some conflictRecord)
    (hc : conflictRecord.startTime > record.startTime ∧
          conflictRecord.endTime < record.endTime) :
    (splitRecordToRemoveOverlap records uuid1 uuid2 editedId conflictId).1 =
      some (List.filter (fun f => decide (f.duration > 0))
        [ ⟨uuid1, record.description, record.tags, record.startTime, conflictRecord.startTime,
            roundDiv1000 (conflictRecord.startTime - record.startTime)⟩,
          ⟨uuid2, record.description, record.tags, conflictRecord.endTime, record.endTime,
            roundDiv1000 (record.endTime - conflictRecord.endTime)⟩ ]) ∧
    (1000 ∣ record.startTime ∧ 1000 ∣ record.endTime ∧
      1000 ∣ conflictRecord.startTime ∧ 1000 ∣ conflictRecord.endTime →
      (splitRecordToRemoveOverlap records uuid1 uuid2 editedId conflictId).1 =
        some [ ⟨uuid1, record.description, record.tags, record.startTime,
                 conflictRecord.startTime,
                 (conflictRecord.startTime - record.startTime) / 1000⟩,
               ⟨uuid2, record.description, record.tags, conflictRecord.endTime,
                 record.endTime,
                 (record.endTime - conflictRecord.endTime) / 1000⟩ ]) := by
  rw [splitRecordToRemoveOverlap_found records uuid1 uuid2 editedId conflictId record
    conflictRecord h1 h2]
  have hnew : splitNewRecords record conflictRecord.startTime conflictRecord.endTime
      uuid1 uuid2 =
      [ ⟨uuid1, record.description, record.tags, record.startTime, conflictRecord.startTime,
          roundDiv1000 (conflictRecord.startTime - record.startTime)⟩,
        ⟨uuid2, record.description, record.tags, conflictRecord.endTime, record.endTime,
          roundDiv1000 (record.endTime - conflictRecord.endTime)⟩ ] := by
    unfold splitNewRecords
    simp only [hc, and_self, if_true]
  rw [hnew]
  refine ⟨rfl, ?_⟩
  rintro ⟨hs, he, hcs, hce⟩
  have d1 : 1000 ∣ conflictRecord.startTime - record.startTime := Int.dvd_sub hcs hs
  have d2 : 1000 ∣ record.endTime - conflictRecord.endTime := Int.dvd_sub he hce
  have p1 : 0 < roundDiv1000 (conflictRecord.startTime - record.startTime) := by
    rw [roundDiv1000_pos_iff]
    omega
  have p2 : 0 < roundDiv1000 (record.endTime - conflictRecord.endTime) := by
    rw [roundDiv1000_pos_iff]
    omega
  simp only [List.filter, gt_iff_lt, p1, p2, decide_True]
  rw [roundDiv1000_of_dvd _ d1, roundDiv1000_of_dvd _ d2]

/-- C3 on the example of the specification: `[09:00, 12:00)` edited against
`[10:00, 11:00)` gives `[09:00, 10:00)` and `[11:00, 12:00)`, 3600 s each. -/
theorem split_containment_witness :
    (splitRecordToRemoveOverlap
        [⟨"a", "x", ["t"], hm 9 0, hm 12 0, 10800⟩, ⟨"b", "", [], hm 10 0, hm 11 0, 3600⟩]
        "u1" "u2" "a" "b").1 =
      some [ ⟨"u1", "x", ["t"], hm 9 0, hm 10 0, 3600⟩,
             ⟨"u2", "x", ["t"], hm 11 0, hm 12 0, 3600⟩ ] :=
  (split_containment
    [⟨"a", "x", ["t"], hm 9 0, hm 12 0, 10800⟩, ⟨"b", "", [], hm 10 0, hm 11 0, 3600⟩]
    "u1" "u2" "a" "b" ⟨"a", "x", ["t"], hm 9 0, hm 12 0, 10800⟩
    ⟨"b", "", [], hm 10 0, hm 11 0, 3600⟩ (by decide) (by decide) (by decide)).2 (by decide)

/-- C4 (full cover): for an edited record `[s, e)` and a conflicting record `[cs, ce)`
that overlaps it (`s < ce` and `e > cs`; `s < e` is not even needed), the containment, left-clip and right-clip conditions all fail
exactly when `cs ≤ s` and `ce ≥ e`; in that case `splitRecordToRemoveOverlap` returns the
empty list and the store no longer holds the edited record nor any record with its id; and
exactly one of the four cases holds. -/
theorem split_full_cover (records : List Record) (uuid1 uuid2 : String)
    (editedId conflictId : String) (record conflictRecord : Record)
    (h1 : records.find? (fun r => r.id == editedId) = some record)
    (h2 : records.find? (fun r => r.id == conflictId) = some conflictRecord)
    (hov : record.startTime < conflictRecord.endTime ∧
           record.endTime > conflictRecord.startTime) :
    ((¬ (conflictRecord.startTime > record.startTime ∧
          conflictRecord.endTime < record.endTime) ∧
      ¬ (conflictRecord.startTime ≤ record.startTime ∧
          conflictRecord.endTime > record.startTime ∧
          conflictRecord.endTime < record.endTime) ∧
      ¬ (conflictRecord.startTime > record.startTime ∧
          conflictRecord.startTime < record.endTime ∧
          conflictRecord.endTime ≥ record.endTime)) ↔
      (conflictRecord.startTime ≤ record.startTime ∧
        conflictRecord.endTime ≥ record.endTime)) ∧
    ((conflictRecord.startTime ≤ record.startTime ∧
        conflictRecord.endTime ≥ record.endTime) →
      (splitRecordToRemoveOverlap records uuid1 uuid2 editedId conflictId).1 = some [] ∧
      record ∉ (splitRecordToRemoveOverlap records uuid1 uuid2 editedId conflictId).2 ∧
      ∀ r ∈ (splitRecordToRemoveOverlap records uuid1 uuid2 editedId conflictId).2,
        r.id ≠ editedId) ∧
    (((conflictRecord.startTime > record.startTime ∧
          conflictRecord.endTime < record.endTime) ∧
        ¬ (conflictRecord.startTime ≤ record.startTime ∧
          conflictRecord.endTime > record.startTime ∧
          conflictRecord.endTime < record.endTime) ∧
        ¬ (conflictRecord.startTime > record.startTime ∧
          conflictRecord.startTime < record.endTime ∧
          conflictRecord.endTime ≥ record.endTime) ∧
        ¬ (conflictRecord.startTime ≤ record.startTime ∧
          conflictRecord.endTime ≥ record.endTime)) ∨
      (¬ (conflictRecord.startTime > record.startTime ∧
          conflictRecord.endTime < record.endTime) ∧
        (conflictRecord.startTime ≤ record.startTime ∧
          conflictRecord.endTime > record.startTime ∧
          conflictRecord.endTime < record.endTime) ∧
        ¬ (conflictRecord.startTime > record.startTime ∧
          conflictRecord.startTime < record.endTime ∧
          conflictRecord.endTime ≥ record.endTime) ∧
        ¬ (conflictRecord.startTime ≤ record.startTime ∧
          conflictRecord.endTime ≥ record.endTime)) ∨
      (¬ (conflictRecord.startTime > record.startTime ∧
          conflictRecord.endTime < record.endTime) ∧
        ¬ (conflictRecord.startTime ≤ record.startTime ∧
          conflictRecord.endTime > record.startTime ∧
          conflictRecord.endTime < record.endTime) ∧
        (conflictRecord.startTime > record.startTime ∧
          conflictRecord.startTime < record.endTime ∧
          conflictRecord.endTime ≥ record.endTime) ∧
        ¬ (conflictRecord.startTime ≤ record.startTime ∧
          conflictRecord.endTime ≥ record.endTime)) ∨
      (¬ (conflictRecord.startTime > record.startTime ∧
          conflictRecord.endTime < record.endTime) ∧
        ¬ (conflictRecord.startTime ≤ record.startTime ∧
          conflictRecord.endTime > record.startTime ∧
          conflictRecord.endTime < record.endTime) ∧
        ¬ (conflictRecord.startTime > record.startTime ∧
          conflictRecord.startTime < record.endTime ∧
          conflictRecord.endTime ≥ record.endTime) ∧
        (conflictRecord.startTime ≤ record.startTime ∧
          conflictRecord.endTime ≥ record.endTime))) := by
  refine ⟨by omega, ?_, by omega⟩
  intro hfull
  rw [splitRecordToRemoveOverlap_found records uuid1 uuid2 editedId conflictId record
    conflictRecord h1 h2]
  have hnew : splitNewRecords record conflictRecord.startTime conflictRecord.endTime
      uuid1 uuid2 = [] := by
    unfold splitNewRecords
    have c1 : ¬ (conflictRecord.startTime > record.startTime ∧
        conflictRecord.endTime < record.endTime) := by omega
    have c2 : ¬ (conflictRecord.startTime ≤ record.startTime ∧
        conflictRecord.endTime > record.startTime ∧
        conflictRecord.endTime < record.endTime) := by omega
    have c3 : ¬ (conflictRecord.startTime > record.startTime ∧
        conflictRecord.startTime < record.endTime ∧
        conflictRecord.endTime ≥ record.endTime) := by omega
    simp only [c1, c2, c3, if_false]
  rw [hnew]
  have hid : ∀ r ∈ List.filter (fun r => r.id != editedId) records ++
      List.filter (fun r => decide (r.duration > 0)) [], r.id ≠ editedId := by
    intro r hr
    simp only [List.filter_nil, List.append_nil, List.mem_filter, bne_iff_ne] at hr
    exact hr.2
  refine ⟨rfl, ?_, hid⟩
  intro hmem
  have hrid : record.id = editedId := by
    have := List.find?_some h1
    simpa using this
  exact hid record hmem hrid

/-- C4 on the example of the specification: `[10:00, 10:30)` edited against
`[09:00, 12:00)` returns the empty list and leaves only the conflicting record. -/
theorem split_full_cover_witness :
    (splitRecordToRemoveOverlap
        [⟨"a", "x", ["t"], hm 10 0, hm 10 30, 1800⟩, ⟨"b", "", [], hm 9 0, hm 12 0, 10800⟩]
        "u1" "u2" "a" "b").1 = some [] ∧
    (⟨"a", "x", ["t"], hm 10 0, hm 10 30, 1800⟩ : Record) ∉
      (splitRecordToRemoveOverlap
        [⟨"a", "x", ["t"], hm 10 0, hm 10 30, 1800⟩, ⟨"b", "", [], hm 9 0, hm 12 0, 10800⟩]
        "u1" "u2" "a" "b").2 ∧
    ∀ r ∈ (splitRecordToRemoveOverlap
        [⟨"a", "x", ["t"], hm 10 0, hm 10 30, 1800⟩, ⟨"b", "", [], hm 9 0, hm 12 0, 10800⟩]
        "u1" "u2" "a" "b").2, r.id ≠ "a" :=
  (split_full_cover
    [⟨"a", "x", ["t"], hm 10 0, hm 10 30, 1800⟩, ⟨"b", "", [], hm 9 0, hm 12 0, 10800⟩]
    "u1" "u2" "a" "b" ⟨"a", "x", ["t"], hm 10 0, hm 10 30, 1800⟩
    ⟨"b", "", [], hm 9 0, hm 12 0, 10800⟩ (by decide) (by decide)
    (by decide)).2.1 (by decide)

/-- C5 (left-clip): when `cs ≤ s`, `ce > s` and `ce < e`, `splitRecordToRemoveOverlap`
returns the single record `[ce, e)` with the original description and tags, the newly
generated id and duration `round ((e - ce) / 1000)`, left out only when that duration is
not positive. -/
theorem split_left_clip (records : List Record) (uuid1 uuid2 : String)
    (editedId conflictId : String) (record conflictRecord : Record)
    (h1 : records.find? (fun r => r.id == editedId) = some record)
    (h2 : records.find? (fun r => r.id == conflictId) = some conflictRecord)
    (hc : conflictRecord.startTime ≤ record.startTime ∧
          conflictRecord.endTime > record.startTime ∧
          conflictRecord.endTime < record.endTime) :
    (splitRecordToRemoveOverlap records uuid1 uuid2 editedId conflictId).1 =
      some (List.filter (fun f => decide (f.duration > 0))
        [ ⟨uuid1, record.description, record.tags, conflictRecord.endTime, record.endTime,
            roundDiv1000 (record.endTime - conflictRecord.endTime)⟩ ]) := by
  rw [splitRecordToRemoveOverlap_found records uuid1 uuid2 editedId conflictId record
    conflictRecord h1 h2]
  have c1 : ¬ (conflictRecord.startTime > record.startTime ∧
      conflictRecord.endTime < record.endTime) := by omega
  have hnew : splitNewRecords record conflictRecord.startTime conflictRecord.endTime
      uuid1 uuid2 =
      [ ⟨uuid1, record.description, record.tags, conflictRecord.endTime, record.endTime,
          roundDiv1000 (record.endTime - conflictRecord.endTime)⟩ ] := by
    unfold splitNewRecords
    simp only []
    rw [if_neg c1, if_pos hc]
  rw [hnew]

/-- C5 on a concrete store: `[10:00, 12:00)` edited against `[09:00, 11:00)` leaves
`[11:00, 12:00)`, 3600 s. -/
theorem split_left_clip_witness :
    (splitRecordToRemoveOverlap
        [⟨"a", "x", ["t"], hm 10 0, hm 12 0, 7200⟩, ⟨"b", "", [], hm 9 0, hm 11 0, 7200⟩]
        "u1" "u2" "a" "b").1 =
      some [ ⟨"u1", "x", ["t"], hm 11 0, hm 12 0, 3600⟩ ] :=
  split_left_clip
    [⟨"a", "x", ["t"], hm 10 0, hm 12 0, 7200⟩, ⟨"b", "", [], hm 9 0, hm 11 0, 7200⟩]
    "u1" "u2" "a" "b" ⟨"a", "x", ["t"], hm 10 0, hm 12 0, 7200⟩
    ⟨"b", "", [], hm 9 0, hm 11 0, 7200⟩ (by decide) (by decide) (by decide)

/-- C6 (right-clip): when `cs > s`, `cs < e` and `ce ≥ e`, `splitRecordToRemoveOverlap`
returns the single record `[s, cs)` with the original description and tags, the newly
generated id and duration `round ((cs - s) / 1000)`, left out only when that duration is
not positive. -/
theorem split_right_clip (records : List Record) (uuid1 uuid2 : String)
    (editedId conflictId : String) (record conflictRecord : Record)
    (h1 : records.find? (fun r => r.id == editedId) = some record)
    (h2 : records.find? (fun r => r.id == conflictId) = some conflictRecord)
    (hc : conflictRecord.startTime > record.startTime ∧
          conflictRecord.startTime < record.endTime ∧
          conflictRecord.endTime ≥ record.endTime) :
    (splitRecordToRemoveOverlap records uuid1 uuid2 editedId conflictId).1 =
      some (List.filter (fun f => decide (f.duration > 0))
        [ ⟨uuid1, record.description, record.tags, record.startTime, conflictRecord.startTime,
            roundDiv1000 (conflictRecord.startTime - record.startTime)⟩ ]) := by
  rw [splitRecordToRemoveOverlap_found records uuid1 uuid2 editedId conflictId record
    conflictRecord h1 h2]
  have c1 : ¬ (conflictRecord.startTime > record.startTime ∧
      conflictRecord.endTime < record.endTime) := by omega
  have c2 : ¬ (conflictRecord.startTime ≤ record.startTime ∧
      conflictRecord.endTime > record.startTime ∧
      conflictRecord.endTime < record.endTime) := by omega
  have hnew : splitNewRecords record conflictRecord.startTime conflictRecord.endTime
      uuid1 uuid2 =
      [ ⟨uuid1, record.description, record.tags, record.startTime, conflictRecord.startTime,
          roundDiv1000 (conflictRecord.startTime - record.startTime)⟩ ] := by
    unfold splitNewRecords
    simp only []
    rw [if_neg c1, if_neg c2, if_pos hc]
  rw [hnew]

/-- C6 on a concrete store: `[09:00, 11:00)` edited against `[10:00, 12:00)` leaves
`[09:00, 10:00)`, 3600 s. -/
theorem split_right_clip_witness :
    (splitRecordToRemoveOverlap
        [⟨"a", "x", ["t"], hm 9 0, hm 11 0, 7200⟩, ⟨"b", "", [], hm 10 0, hm 12 0, 7200⟩]
        "u1" "u2" "a" "b").1 =
      some [ ⟨"u1", "x", ["t"], hm 9 0, hm 10 0, 3600⟩ ] :=
  split_right_clip
    [⟨"a", "x", ["t"], hm 9 0, hm 11 0, 7200⟩, ⟨"b", "", [], hm 10 0, hm 12 0, 7200⟩]
    "u1" "u2" "a" "b" ⟨"a", "x", ["t"], hm 9 0, hm 11 0, 7200⟩
    ⟨"b", "", [], hm 10 0, hm 12 0, 7200⟩ (by decide) (by decide) (by decide)

/-- C7: when both ids are found and differ, the store after
`splitRecordToRemoveOverlap` is the previous records whose id is not `editedId`, in their
previous order, followed by the returned records; the conflicting record is still in the
store, unchanged and still the record found under `conflictId`; and, the generated ids being
different from `editedId`, no record with id `editedId` remains. -/
theorem split_store_frame (records : List Record) (uuid1 uuid2 : String)
    (editedId conflictId : String) (record conflictRecord : Record)
    (h1 : records.find? (fun r => r.id == editedId) = some record)
    (h2 : records.find? (fun r => r.id == conflictId) = some conflictRecord)
    (hne : editedId ≠ conflictId) :
    ∃ fs, (splitRecordToRemoveOverlap records uuid1 uuid2 editedId conflictId).1 = some fs ∧
      (splitRecordToRemoveOverlap records uuid1 uuid2 editedId conflictId).2 =
        records.filter (fun r => decide (r.id ≠ editedId)) ++ fs ∧
      conflictRecord ∈ (splitRecordToRemoveOverlap records uuid1 uuid2 editedId conflictId).2 ∧
      (splitRecordToRemoveOverlap records uuid1 uuid2 editedId conflictId).2.find?
        (fun r => r.id == conflictId) = some conflictRecord ∧
      (uuid1 ≠ editedId → uuid2 ≠ editedId →
        ∀ r ∈ (splitRecordToRemoveOverlap records uuid1 uuid2 editedId conflictId).2,
          r.id ≠ editedId) := by
  rw [splitRecordToRemoveOverlap_found records uuid1 uuid2 editedId conflictId record
    conflictRecord h1 h2]
  have hfun : (fun r : Record => r.id != editedId) = (fun r => decide (r.id ≠ editedId)) := by
    funext r
    by_cases h : r.id = editedId <;> simp [h]
  have hfind : (records.filter (fun r => r.id != editedId)).find?
      (fun r => r.id == conflictId) = some conflictRecord := by
    rw [List.find?_filter]
    have hq : (fun r : Record =>
          decide ((r.id != editedId) = true ∧ (r.id == conflictId) = true)) =
        (fun r => r.id == conflictId) := by
      funext r
      by_cases h : r.id = conflictId
      · have : r.id ≠ editedId := fun h' => hne (h'.symm.trans h)
        simp [h, this, Ne.symm hne]
      · simp [h]
    rw [hq, h2]
  refine ⟨_, rfl, ?_, ?_, ?_, ?_⟩
  · simp only [hfun]
  · exact List.mem_append_left _ (List.mem_of_find?_eq_some hfind)
  · simp only [List.find?_append, hfind, Option.or_some]
  · intro hu1 hu2 r hr
    rcases List.mem_append.mp hr with hr | hr
    · simpa using (List.mem_filter.mp hr).2
    · rcases splitNewRecords_mem _ _ _ _ _ r (List.mem_of_mem_filter hr) with
        ⟨u, hu, h⟩ | ⟨u, hu, h⟩
      · subst h
        rcases hu with hu | hu <;> subst hu <;> assumption
      · subst h
        rcases hu with hu | hu <;> subst hu <;> assumption

/-- C7 on a concrete store of three records: the untouched records keep their order, the
two fragments follow, and the conflicting record stays. -/
theorem split_store_frame_witness :
    ∃ fs, (splitRecordToRemoveOverlap
        [⟨"z", "", [], hm 1 0, hm 2 0, 3600⟩, ⟨"a", "x", ["t"], hm 9 0, hm 12 0, 10800⟩,
         ⟨"b", "", [], hm 10 0, hm 11 0, 3600⟩] "u1" "u2" "a" "b").1 = some fs ∧
      (splitRecordToRemoveOverlap
        [⟨"z", "", [], hm 1 0, hm 2 0, 3600⟩, ⟨"a", "x", ["t"], hm 9 0, hm 12 0, 10800⟩,
         ⟨"b", "", [], hm 10 0, hm 11 0, 3600⟩] "u1" "u2" "a" "b").2 =
        [⟨"z", "", [], hm 1 0, hm 2 0, 3600⟩, ⟨"b", "", [], hm 10 0, hm 11 0, 3600⟩] ++ fs :=
  match split_store_frame
    [⟨"z", "", [], hm 1 0, hm 2 0, 3600⟩, ⟨"a", "x", ["t"], hm 9 0, hm 12 0, 10800⟩,
     ⟨"b", "", [], hm 10 0, hm 11 0, 3600⟩] "u1" "u2" "a" "b"
    ⟨"a", "x", ["t"], hm 9 0, hm 12 0, 10800⟩ ⟨"b", "", [], hm 10 0, hm 11 0, 3600⟩
    (by decide) (by decide) (by decide) with
  | ⟨fs, hfs, hstore, _⟩ => ⟨fs, hfs, hstore⟩

/-- C8: if `editedId` or `conflictId` is the id of no stored record,
`splitRecordToRemoveOverlap` returns `null` and the store is exactly what it was. -/
theorem split_not_found (records : List Record) (uuid1 uuid2 : String)
    (editedId conflictId : String)
    (h : (∀ r ∈ records, r.id ≠ editedId) ∨ (∀ r ∈ records, r.id ≠ conflictId)) :
    splitRecordToRemoveOverlap records uuid1 uuid2 editedId conflictId = (none, records) := by
  unfold splitRecordToRemoveOverlap
  split
  · next record conflictRecord h1 h2 =>
    exfalso
    rcases h with h | h
    · have hm1 := List.mem_of_find?_eq_some h1
      have hid := List.find?_some h1
      exact h record hm1 (by simpa using hid)
    · have hm2 := List.mem_of_find?_eq_some h2
      have hid := List.find?_some h2
      exact h conflictRecord hm2 (by simpa using hid)
  · rfl

/-- C8 on a concrete store: an unknown conflicting id changes nothing. -/
theorem split_not_found_witness :
    splitRecordToRemoveOverlap
        [⟨"a", "x", ["t"], hm 9 0, hm 12 0, 10800⟩, ⟨"b", "", [], hm 10 0, hm 11 0, 3600⟩]
        "u1" "u2" "a" "c" =
      (none, [⟨"a", "x", ["t"], hm 9 0, hm 12 0, 10800⟩,
              ⟨"b", "", [], hm 10 0, hm 11 0, 3600⟩]) :=
  split_not_found
    [⟨"a", "x", ["t"], hm 9 0, hm 12 0, 10800⟩, ⟨"b", "", [], hm 10 0, hm 11 0, 3600⟩]
    "u1" "u2" "a" "c" (Or.inr (by decide))

/-- C9: every record returned by `splitRecordToRemoveOverlap`, which is also a record of the
store after the call, has `duration > 0`, `endTime` strictly after `startTime`, and
`duration = round ((endTime - startTime) / 1000)` for its own times. -/
theorem split_fragment_invariants (records : List Record) (uuid1 uuid2 : String)
    (editedId conflictId : String) (fs : List Record)
    (h : (splitRecordToRemoveOverlap records uuid1 uuid2 editedId conflictId).1 = some fs) :
    ∀ f ∈ fs,
      f ∈ (splitRecordToRemoveOverlap records uuid1 uuid2 editedId conflictId).2 ∧
      f.duration > 0 ∧ f.endTime > f.startTime ∧
      f.duration = roundDiv1000 (f.endTime - f.startTime) := by
  unfold splitRecordToRemoveOverlap at h ⊢
  split at h
  · next record conflictRecord h1 h2 =>
    simp only [Option.some.injEq] at h
    subst h
    intro f hf
    have hpos : f.duration > 0 := by simpa using (List.mem_filter.mp hf).2
    refine ⟨List.mem_append_right _ hf, hpos, ?_⟩
    rcases splitNewRecords_mem _ _ _ _ _ f (List.mem_of_mem_filter hf) with
      ⟨u, _, hfe⟩ | ⟨u, _, hfe⟩
    · subst hfe
      simp only [gt_iff_lt] at hpos ⊢
      rw [roundDiv1000_pos_iff] at hpos
      exact ⟨by omega, trivial⟩
    · subst hfe
      simp only [gt_iff_lt] at hpos ⊢
      rw [roundDiv1000_pos_iff] at hpos
      exact ⟨by omega, trivial⟩
  · simp at h

/-- C9 on the containment example: the returned fragment `[09:00, 10:00)` is in the store
after the call and satisfies the invariants. -/
theorem split_fragment_invariants_witness :
    (⟨"u1", "x", ["t"], hm 9 0, hm 10 0, 3600⟩ : Record) ∈
      (splitRecordToRemoveOverlap
        [⟨"a", "x", ["t"], hm 9 0, hm 12 0, 10800⟩, ⟨"b", "", [], hm 10 0, hm 11 0, 3600⟩]
        "u1" "u2" "a" "b").2 ∧
    (3600 : Int) > 0 ∧ hm 10 0 > hm 9 0 ∧ (3600 : Int) = roundDiv1000 (hm 10 0 - hm 9 0) :=
  split_fragment_invariants
    [⟨"a", "x", ["t"], hm 9 0, hm 12 0, 10800⟩, ⟨"b", "", [], hm 10 0, hm 11 0, 3600⟩]
    "u1" "u2" "a" "b"
    [⟨"u1", "x", ["t"], hm 9 0, hm 10 0, 3600⟩, ⟨"u2", "x", ["t"], hm 11 0, hm 12 0, 3600⟩]
    (by decide) ⟨"u1", "x", ["t"], hm 9 0, hm 10 0, 3600⟩ (by decide)

/-- C10 (adjacency is not overlap): if the candidate's end equals `r.startTime` or the
candidate's start equals `r.endTime`, no conflict returned by `detectConflicts` is about
`r`, whatever the store and the excluded id; and on the store holding only `r` the result
is the empty list. -/
theorem detectConflicts_adjacent (records : List Record) (recordId : Option String)
    (start end_ : Int) (r : Record)
    (h : end_ = r.startTime ∨ start = r.endTime) :
    (∀ c ∈ detectConflicts records recordId start end_, c.record ≠ r) ∧
    detectConflicts [r] recordId start end_ = [] := by
  have hrep : reported recordId start end_ r = false := by
    unfold reported
    rw [decide_eq_false_iff_not]
    omega
  constructor
  · intro c hc hrec
    rw [detectConflicts_eq, List.mem_map] at hc
    obtain ⟨r', hr', hcr⟩ := hc
    have hcr2 : c.record = r' := by
      rw [← hcr]
      rfl
    rw [hcr2] at hrec
    subst hrec
    rw [(List.mem_filter.mp hr').2] at hrep
    exact Bool.noConfusion hrep
  · rw [detectConflicts_eq]
    simp [hrep]

/-- C10 on the example of the specification: the candidate `[10:00, 11:00)` against a
store holding only `[11:00, 12:00)` gives no conflict. -/
theorem detectConflicts_adjacent_witness :
    detectConflicts [⟨"a", "", [], hm 11 0, hm 12 0, 3600⟩] none (hm 10 0) (hm 11 0) = [] :=
  (detectConflicts_adjacent [⟨"a", "", [], hm 11 0, hm 12 0, 3600⟩] none (hm 10 0) (hm 11 0)
    ⟨"a", "", [], hm 11 0, hm 12 0, 3600⟩ (Or.inl (by decide))).2

/-- A record is the subject of a returned conflict exactly when it is stored and passes the
test of the loop. -/
theorem exists_conflict_record_iff (records : List Record) (recordId : Option String)
    (s e : Int) (x : Record) :
    (∃ c ∈ detectConflicts records recordId s e, c.record = x) ↔
      (x ∈ records ∧ reported recordId s e x = true) := by
  rw [detectConflicts_eq]
  constructor
  · rintro ⟨c, hc, hx⟩
    obtain ⟨r, hr, hcr⟩ := List.mem_map.mp hc
    have : c.record = r := by
      rw [← hcr]
      rfl
    rw [this] at hx
    subst hx
    exact List.mem_filter.mp hr
  · rintro ⟨hm, hrep⟩
    exact ⟨conflictOf s e x, List.mem_map.mpr ⟨x, List.mem_filter.mpr ⟨hm, hrep⟩, rfl⟩, rfl⟩

/-- The test of the loop is the exclusion of the given id together with `overlap`. -/
theorem reported_eq_overlap (recordId : Option String) (s e : Int) (r : Record) :
    reported recordId s e r =
      (decide (some r.id ≠ recordId) && overlap s e r.startTime r.endTime) := by
  unfold reported overlap
  by_cases h1 : some r.id ≠ recordId <;>
    by_cases h2 : s < r.endTime ∧ e > r.startTime <;> simp [h1, h2]

/-- C11, as stated, fails: the zero-length candidate `[10:30, 10:30)` is reported against
the stored `[10:00, 11:00)` (with an overlap of 0 s), and the stored zero-length record
`[10:30, 10:30)` is reported for the candidate `[10:00, 11:00)`. -/
theorem zero_length_interval_reported :
    detectConflicts [⟨"a", "", [], hm 10 0, hm 11 0, 3600⟩] none (hm 10 30) (hm 10 30) =
      [⟨⟨"a", "", [], hm 10 0, hm 11 0, 3600⟩, hm 10 30, hm 10 30, 0⟩] ∧
    detectConflicts [⟨"z", "", [], hm 10 30, hm 10 30, 0⟩] none (hm 10 0) (hm 11 0) =
      [⟨⟨"z", "", [], hm 10 30, hm 10 30, 0⟩, hm 10 30, hm 10 30, 0⟩] := by
  decide

/-- C11, amended: a zero-length interval conflicts exactly when it lies strictly inside the
other interval. A candidate with start = end = `t` gets exactly the stored records, not
excluded, with `startTime < t < endTime`, each with `overlapStart = overlapEnd = t` and
`overlapDuration = 0`; and a stored record with `startTime = endTime` is reported for a
candidate `[start, end)` exactly when it is not excluded and `start < startTime < end`. -/
theorem detectConflicts_zero_length (records : List Record) (recordId : Option String)
    (t start end_ : Int) (r : Record) (hr : r.startTime = r.endTime) :
    detectConflicts records recordId t t =
      (records.filter
        (fun x => decide (some x.id ≠ recordId ∧ x.startTime < t ∧ t < x.endTime))).map
        (fun x => { record := x, overlapStart := t, overlapEnd := t, overlapDuration := 0 }) ∧
    ((∃ c ∈ detectConflicts records recordId start end_, c.record = r) ↔
      (r ∈ records ∧ some r.id ≠ recordId ∧ start < r.startTime ∧ r.startTime < end_)) := by
  constructor
  · rw [detectConflicts_eq]
    have hfilter : records.filter (reported recordId t t) =
        records.filter
          (fun x => decide (some x.id ≠ recordId ∧ x.startTime < t ∧ t < x.endTime)) := by
      apply List.filter_congr
      intro x _
      unfold reported
      apply decide_eq_decide.mpr
      constructor
      · rintro ⟨h1, h2, h3⟩
        exact ⟨h1, h3, h2⟩
      · rintro ⟨h1, h2, h3⟩
        exact ⟨h1, h3, h2⟩
    rw [← hfilter]
    apply List.map_congr_left
    intro x hx
    have hrep := (List.mem_filter.mp hx).2
    unfold reported at hrep
    rw [decide_eq_true_eq] at hrep
    obtain ⟨_, h2, h3⟩ := hrep
    unfold conflictOf
    have e1 : max t x.startTime = t := max_eq_left (le_of_lt h3)
    have e2 : min t x.endTime = t := min_eq_left (le_of_lt h2)
    rw [e1, e2]
    simp [roundDiv1000]
  · rw [exists_conflict_record_iff]
    unfold reported
    rw [decide_eq_true_eq, ← hr]

/-- C11, amended, on a concrete store: the zero-length record `[10:00, 10:00)` is not
reported for the candidate `[10:00, 11:00)` that starts on it. -/
theorem detectConflicts_zero_length_witness :
    ¬ (∃ c ∈ detectConflicts [⟨"z", "", [], hm 10 0, hm 10 0, 0⟩] none (hm 10 0) (hm 11 0),
        c.record = ⟨"z", "", [], hm 10 0, hm 10 0, 0⟩) :=
  fun h =>
    absurd (((detectConflicts_zero_length [⟨"z", "", [], hm 10 0, hm 10 0, 0⟩] none 0
      (hm 10 0) (hm 11 0) ⟨"z", "", [], hm 10 0, hm 10 0, 0⟩ rfl).2.mp h).2.2.1) (by decide)

/-- C12: the overlap test `a0 < b1 ∧ a1 > b0` is symmetric in the two intervals and holds
of a non-degenerate interval with itself; hence, for two stored records, `x` is reported
as a conflict of `y`'s interval (excluding `y`) exactly when `y` is reported as a conflict
of `x`'s interval (excluding `x`). -/
theorem overlap_symmetric_reflexive (records : List Record) (x y : Record)
    (hx : x ∈ records) (hy : y ∈ records) :
    (∀ a0 a1 b0 b1 : Int, overlap a0 a1 b0 b1 = overlap b0 b1 a0 a1) ∧
    (∀ a0 a1 : Int, a0 < a1 → overlap a0 a1 a0 a1 = true) ∧
    ((∃ c ∈ detectConflicts records (some y.id) y.startTime y.endTime, c.record = x) ↔
      (∃ c ∈ detectConflicts records (some x.id) x.startTime x.endTime, c.record = y)) := by
  have hsymm : ∀ a0 a1 b0 b1 : Int, overlap a0 a1 b0 b1 = overlap b0 b1 a0 a1 := by
    intro a0 a1 b0 b1
    unfold overlap
    apply decide_eq_decide.mpr
    constructor
    · rintro ⟨h1, h2⟩
      exact ⟨h2, h1⟩
    · rintro ⟨h1, h2⟩
      exact ⟨h2, h1⟩
  refine ⟨hsymm, ?_, ?_⟩
  · intro a0 a1 h
    unfold overlap
    exact decide_eq_true ⟨h, h⟩
  · rw [exists_conflict_record_iff, exists_conflict_record_iff, reported_eq_overlap,
      reported_eq_overlap, hsymm x.startTime x.endTime y.startTime y.endTime]
    have hid : decide (some x.id ≠ some y.id) = decide (some y.id ≠ some x.id) :=
      decide_eq_decide.mpr ⟨Ne.symm, Ne.symm⟩
    rw [hid]
    constructor
    · rintro ⟨_, h⟩
      exact ⟨hy, h⟩
    · rintro ⟨_, h⟩
      exact ⟨hx, h⟩

/-- C12 on a concrete store: `[09:00, 11:00)` and `[10:00, 12:00)` report each other. -/
theorem overlap_symmetric_reflexive_witness :
    (∃ c ∈ detectConflicts
        [⟨"a", "", [], hm 9 0, hm 11 0, 7200⟩, ⟨"b", "", [], hm 10 0, hm 12 0, 7200⟩]
        (some "b") (hm 10 0) (hm 12 0), c.record = ⟨"a", "", [], hm 9 0, hm 11 0, 7200⟩) ↔
    (∃ c ∈ detectConflicts
        [⟨"a", "", [], hm 9 0, hm 11 0, 7200⟩, ⟨"b", "", [], hm 10 0, hm 12 0, 7200⟩]
        (some "a") (hm 9 0) (hm 11 0), c.record = ⟨"b", "", [], hm 10 0, hm 12 0, 7200⟩) :=
  (overlap_symmetric_reflexive
    [⟨"a", "", [], hm 9 0, hm 11 0, 7200⟩, ⟨"b", "", [], hm 10 0, hm 12 0, 7200⟩]
    ⟨"a", "", [], hm 9 0, hm 11 0, 7200⟩ ⟨"b", "", [], hm 10 0, hm 12 0, 7200⟩
    (by decide) (by decide)).2.2

/-- Membership in the exclusion set of `getFilteredStats`. -/
theorem mem_excludedTagIds (tags : List Tag) (manual : List String) (k : String) :
    k ∈ excludedTagIds tags manual ↔
      (∃ t ∈ tags, t.isExcluded = true ∧ t.id = k) ∨ k ∈ manual := by
  unfold excludedTagIds
  simp only [List.mem_append, List.mem_map, List.mem_filter]
  constructor
  · rintro (⟨t, ⟨ht, he⟩, hid⟩ | h)
    · exact Or.inl ⟨t, ht, he, hid⟩
    · exact Or.inr h
  · rintro (⟨t, ht, he, hid⟩ | h)
    · exact Or.inl ⟨t, ⟨ht, he⟩, hid⟩
    · exact Or.inr h

/-- The running total after the loop of `getFilteredStats`. -/
theorem foldl_getFilteredStatsStep_total (excluded : List String) (records : List Record)
    (acc : Int × List (String × Int)) :
    (records.foldl (getFilteredStatsStep excluded) acc).1 =
      acc.1 + ((records.filter
        (fun r => decide (∀ k ∈ r.tags, k ∉ excluded))).map (fun r => r.duration)).sum := by
  induction records generalizing acc with
  | nil => simp
  | cons r rs ih =>
    rw [List.foldl_cons, ih]
    by_cases h : ∀ k ∈ r.tags, k ∉ excluded
    · have hany : (r.tags.any (fun tagId => excluded.contains tagId)) = false := by
        rw [List.any_eq_false]
        intro k hk
        simpa using h k hk
      simp only [getFilteredStatsStep, hany, Bool.not_false, if_true]
      rw [List.filter_cons_of_pos (by simpa using h)]
      simp only [List.map_cons, List.sum_cons]
      omega
    · have hany : (r.tags.any (fun tagId => excluded.contains tagId)) = true := by
        rw [List.any_eq_true]
        push_neg at h
        obtain ⟨k, hk, hke⟩ := h
        exact ⟨k, hk, by simpa using hke⟩
      simp only [getFilteredStatsStep, hany, Bool.not_true]
      rw [List.filter_cons_of_neg (by simpa using h)]
      simp

/-- C13: `getFilteredStats` returns as `total` the sum of `record.duration` over exactly the
records none of whose tag ids is in the exclusion set, the exclusion set being the ids of
the tags with `isExcluded = true` together with the manually excluded ids; a record with
a tag in that set adds nothing. -/
theorem getFilteredStats_total (tags : List Tag) (manuallyExcludedTags : List String)
    (records : List Record) :
    (∀ k, k ∈ excludedTagIds tags manuallyExcludedTags ↔
      ((∃ t ∈ tags, t.isExcluded = true ∧ t.id = k) ∨ k ∈ manuallyExcludedTags)) ∧
    (getFilteredStats tags manuallyExcludedTags records).total =
      ((records.filter
        (fun r => decide (∀ k ∈ r.tags, k ∉ excludedTagIds tags manuallyExcludedTags))).map
        (fun r => r.duration)).sum := by
  refine ⟨mem_excludedTagIds tags manuallyExcludedTags, ?_⟩
  unfold getFilteredStats
  simp only []
  rw [foldl_getFilteredStatsStep_total]
  simp

/-- The example of the specification for C13: `R1 {work, 3600}` and `R2 {game, 1800}` with
`game.isExcluded` give `total = 3600`. -/
theorem getFilteredStats_total_example :
    (getFilteredStats
      [⟨"work", "work", "#7dd3fc", false⟩, ⟨"game", "game", "#fb923c", true⟩] []
      [⟨"R1", "", ["work"], hm 9 0, hm 10 0, 3600⟩,
       ⟨"R2", "", ["game"], hm 10 0, hm 10 30, 1800⟩]).total = 3600 := by
  decide

theorem tagSum_append (p q : List (String × Int)) (k : String) :
    tagSum (p ++ q) k = tagSum p k + tagSum q k := by
  simp [tagSum]

theorem tagSum_eq_zero (p : List (String × Int)) (k : String) (h : k ∉ p.map Prod.fst) :
    tagSum p k = 0 := by
  unfold tagSum
  have : p.filter (fun e => e.1 == k) = [] := by
    rw [List.filter_eq_nil_iff]
    intro e he hk
    apply h
    rw [List.mem_map]
    exact ⟨e, he, by simpa using hk⟩
  rw [this]
  rfl

theorem tagSum_singleton (k x : String) (d : Int) :
    tagSum [(k, d)] x = if k = x then d else 0 := by
  unfold tagSum
  by_cases h : k = x
  · simp [h]
  · simp [h]

/-- One addition keeps the description of `tagStats`. -/
theorem bumpTagStats_inv (ts ps : List (String × Int)) (k : String) (d : Int)
    (h : TagStatsInv ts ps) : TagStatsInv (bumpTagStats ts k d) (ps ++ [(k, d)]) := by
  obtain ⟨hnd, hmem, hval⟩ := h
  unfold bumpTagStats
  by_cases hk : ts.any (fun e => e.1 == k) = true
  · rw [if_pos hk]
    have hkmem : k ∈ ts.map Prod.fst := by
      rw [List.any_eq_true] at hk
      obtain ⟨e, he, hek⟩ := hk
      rw [List.mem_map]
      exact ⟨e, he, by simpa using hek⟩
    have hkeys : (ts.map (fun e => if e.1 == k then (e.1, e.2 + d) else e)).map Prod.fst =
        ts.map Prod.fst := by
      rw [List.map_map]
      apply List.map_congr_left
      intro e _
      by_cases he : e.1 = k <;> simp [he]
    refine ⟨by rw [hkeys]; exact hnd, ?_, ?_⟩
    · intro x
      rw [hkeys, List.map_append, List.mem_append, hmem x]
      constructor
      · exact fun hx => ⟨Or.inl hx.1, hx.2⟩
      · rintro ⟨hx | hx, hi⟩
        · exact ⟨hx, hi⟩
        · simp only [List.map_cons, List.map_nil, List.mem_singleton] at hx
          rw [hx]
          exact (hmem k).mp hkmem
    · intro e' he'
      rw [List.mem_map] at he'
      obtain ⟨e, he, hee⟩ := he'
      rw [tagSum_append, tagSum_singleton]
      by_cases hek : e.1 = k
      · have : e' = (e.1, e.2 + d) := by rw [← hee]; simp [hek]
        rw [this]
        simp only []
        rw [if_pos hek.symm, hval e he]
      · have : e' = e := by rw [← hee]; simp [hek]
        rw [this, if_neg (Ne.symm hek), hval e he]
        omega
  · rw [if_neg hk]
    have hkmem : k ∉ ts.map Prod.fst := by
      intro hc
      apply hk
      rw [List.mem_map] at hc
      obtain ⟨e, he, hek⟩ := hc
      rw [List.any_eq_true]
      exact ⟨e, he, by simpa using hek⟩
    have hold : ∀ e ∈ ts, e.2 = tagSum (ps ++ [(k, d)]) e.1 := by
      intro e he
      rw [tagSum_append, tagSum_singleton]
      have hek : k ≠ e.1 := by
        intro hc
        apply hkmem
        rw [List.mem_map]
        exact ⟨e, he, hc.symm⟩
      rw [if_neg hek, hval e he]
      omega
    by_cases hi : inheritedKey k = true
    · rw [if_pos hi]
      refine ⟨hnd, ?_, hold⟩
      intro x
      rw [List.map_append, List.mem_append, hmem x]
      constructor
      · exact fun hx => ⟨Or.inl hx.1, hx.2⟩
      · rintro ⟨hx | hx, hix⟩
        · exact ⟨hx, hix⟩
        · simp only [List.map_cons, List.map_nil, List.mem_singleton] at hx
          rw [hx, hi] at hix
          exact absurd hix (by decide)
    · rw [if_neg hi]
      have hi' : inheritedKey k = false := by simpa using hi
      refine ⟨?_, ?_, ?_⟩
      · rw [List.map_append, List.nodup_append]
        refine ⟨hnd, by simp, ?_⟩
        intro x hx hx'
        simp only [List.map_cons, List.map_nil, List.mem_singleton] at hx'
        exact hkmem (hx' ▸ hx)
      · intro x
        simp only [List.map_append, List.mem_append, hmem x, List.map_cons, List.map_nil,
          List.mem_singleton]
        constructor
        · rintro (hx | hx)
          · exact ⟨Or.inl hx.1, hx.2⟩
          · exact ⟨Or.inr hx, by rw [hx]; exact hi'⟩
        · rintro ⟨hx | hx, hix⟩
          · exact Or.inl ⟨hx, hix⟩
          · exact Or.inr hx
      · intro e he
        rw [List.mem_append] at he
        rcases he with he | he
        · exact hold e he
        · simp only [List.mem_singleton] at he
          rw [he, tagSum_append, tagSum_singleton]
          simp only [if_true]
          rw [tagSum_eq_zero ps k (fun hc => hkmem ((hmem k).mpr ⟨hc, hi'⟩))]

/-- The additions of one record. -/
theorem foldl_bumpTagStats_inv (tagIds : List String) (d : Int) (ts ps : List (String × Int))
    (h : TagStatsInv ts ps) :
    TagStatsInv (tagIds.foldl (fun ts tagId => bumpTagStats ts tagId d) ts)
      (ps ++ tagIds.map (fun k => (k, d))) := by
  induction tagIds generalizing ts ps with
  | nil => simpa using h
  | cons k ks ih =>
    rw [List.foldl_cons]
    have := ih _ _ (bumpTagStats_inv ts ps k d h)
    simpa using this

/-- The object `tagStats` after the loop of `getFilteredStats`. -/
theorem foldl_getFilteredStatsStep_inv (excluded : List String) (records : List Record)
    (acc : Int × List (String × Int)) (ps : List (String × Int))
    (h : TagStatsInv acc.2 ps) :
    TagStatsInv (records.foldl (getFilteredStatsStep excluded) acc).2
      (ps ++ tagPairs records) := by
  induction records generalizing acc ps with
  | nil => simpa [tagPairs] using h
  | cons r rs ih =>
    rw [List.foldl_cons]
    have h1 : TagStatsInv (getFilteredStatsStep excluded acc r).2
        (ps ++ r.tags.map (fun k => (k, r.duration))) :=
      foldl_bumpTagStats_inv r.tags r.duration acc.2 ps h
    have := ih _ _ h1
    simpa [tagPairs, List.flatMap_cons] using this

theorem tagSum_map_pair (tagIds : List String) (d : Int) (k : String) :
    tagSum (tagIds.map (fun x => (x, d))) k = d * (tagIds.count k) := by
  induction tagIds with
  | nil => simp [tagSum]
  | cons x xs ih =>
    have hc : tagSum ((x :: xs).map (fun x => (x, d))) k =
        tagSum [(x, d)] k + tagSum (xs.map (fun x => (x, d))) k := by
      rw [← tagSum_append]
      rfl
    rw [hc, ih, tagSum_singleton, List.count_cons]
    by_cases h : x = k
    · simp [h]
      ring
    · simp [h]

/-- The sum held under a key counts a record once per occurrence of the key in its tags. -/
theorem tagSum_tagPairs (records : List Record) (k : String) :
    tagSum (tagPairs records) k =
      (records.map (fun r => r.duration * ((r.tags.count k : Nat) : Int))).sum := by
  induction records with
  | nil => simp [tagSum, tagPairs]
  | cons r rs ih =>
    have hc : tagPairs (r :: rs) = r.tags.map (fun x => (x, r.duration)) ++ tagPairs rs := by
      simp [tagPairs, List.flatMap_cons]
    rw [hc, tagSum_append, ih, tagSum_map_pair]
    simp

theorem mem_map_fst_tagPairs (records : List Record) (k : String) :
    k ∈ (tagPairs records).map Prod.fst ↔ ∃ r ∈ records, k ∈ r.tags := by
  unfold tagPairs
  simp only [List.mem_map, List.mem_flatMap]
  constructor
  · rintro ⟨e, ⟨r, hr, x, hx, hxe⟩, hk⟩
    refine ⟨r, hr, ?_⟩
    rw [← hk, ← hxe]
    exact hx
  · rintro ⟨r, hr, hk⟩
    exact ⟨(k, r.duration), ⟨r, hr, k, hk, rfl⟩, rfl⟩

/-- When no record lists a tag id twice, counting occurrences is summing over the records
that carry the tag. -/
theorem sum_count_eq_sum_filter (records : List Record) (k : String)
    (h : ∀ r ∈ records, r.tags.Nodup) :
    (records.map (fun r => r.duration * ((r.tags.count k : Nat) : Int))).sum =
      ((records.filter (fun r => decide (k ∈ r.tags))).map (fun r => r.duration)).sum := by
  induction records with
  | nil => simp
  | cons r rs ih =>
    have ih' := ih (fun x hx => h x (List.mem_cons_of_mem _ hx))
    have hnd : r.tags.Nodup := h r (List.mem_cons_self _ _)
    by_cases hk : k ∈ r.tags
    · rw [List.filter_cons_of_pos (by simpa using hk)]
      simp only [List.map_cons, List.sum_cons, ih']
      rw [List.count_eq_one_of_mem hnd hk]
      simp
    · rw [List.filter_cons_of_neg (by simpa using hk)]
      simp only [List.map_cons, List.sum_cons, ih']
      rw [List.count_eq_zero_of_not_mem hk]
      simp

/-- C14, as stated, fails: for the single record with tags `[a, a]` and duration 10 the
entry of `a` holds 20, while the durations of the records carrying `a` sum to 10; and for
the single record with the tag id `constructor`, which occurs and is not excluded, the
`byTag` list has no entry at all. -/
theorem byTag_counts_repeated_tag :
    (getFilteredStats [] [] [⟨"r", "", ["a", "a"], 0, 10000, 10⟩]).byTag.map
        (fun e => e.duration) = [20] ∧
    ((([⟨"r", "", ["a", "a"], 0, 10000, 10⟩] : List Record).filter
        (fun r => decide ("a" ∈ r.tags))).map (fun r => r.duration)).sum = 10 ∧
    (getFilteredStats [] [] [⟨"r", "", ["constructor"], 0, 10000, 10⟩]).byTag.map
        (fun e => e.duration) = [] ∧
    "constructor" ∉ excludedTagIds [] [] := by
  decide

/-- C14, amended: the entries of the `byTag` list of `getFilteredStats` belong to pairwise
distinct tag ids `ks`, each of which occurs in some record's tags and is not in the
exclusion set; every tag id that occurs in some record's tags, is not in the exclusion set
and does not name a member of `Object.prototype` is among them; the entry's `tag` is the
placeholder when no tag has the id; and the entry's duration is the sum, over all records,
of the record's duration once per occurrence of the id in the record's tags, records left
out of `total` included; when no record lists a tag id twice this is the sum of the
durations of the records carrying the tag. -/
theorem getFilteredStats_byTag (tags : List Tag) (manuallyExcludedTags : List String)
    (records : List Record) :
    ∃ ks : List String, ks.Nodup ∧
      (∀ k ∈ ks, (∃ r ∈ records, k ∈ r.tags) ∧
        k ∉ excludedTagIds tags manuallyExcludedTags) ∧
      (∀ k, inheritedKey k = false → (∃ r ∈ records, k ∈ r.tags) →
        k ∉ excludedTagIds tags manuallyExcludedTags → k ∈ ks) ∧
      List.Perm (getFilteredStats tags manuallyExcludedTags records).byTag
        (ks.map (fun k =>
          ({ tag := tags.find? (fun t => t.id == k)
             duration := (records.map
               (fun r => r.duration * ((r.tags.count k : Nat) : Int))).sum
             percent :=
               if (getFilteredStats tags manuallyExcludedTags records).total > 0 then
                 (((records.map
                    (fun r => r.duration * ((r.tags.count k : Nat) : Int))).sum : Int) : ℚ) /
                  (((getFilteredStats tags manuallyExcludedTags records).total : Int) : ℚ) * 100
               else 0 } : TagStat))) ∧
      (∀ k, (∀ t ∈ tags, t.id ≠ k) → tags.find? (fun t => t.id == k) = none) ∧
      ((∀ r ∈ records, r.tags.Nodup) → ∀ k,
        (records.map (fun r => r.duration * ((r.tags.count k : Nat) : Int))).sum =
          ((records.filter (fun r => decide (k ∈ r.tags))).map (fun r => r.duration)).sum) := by
  have hinv : TagStatsInv
      (records.foldl (getFilteredStatsStep (excludedTagIds tags manuallyExcludedTags))
        (0, [])).2 (tagPairs records) := by
    have h0 : TagStatsInv ((0, []) : Int × List (String × Int)).2 [] :=
      ⟨List.nodup_nil, fun k => by simp, fun e he => absurd he (List.not_mem_nil e)⟩
    simpa using foldl_getFilteredStatsStep_inv (excludedTagIds tags manuallyExcludedTags)
      records (0, []) [] h0
  obtain ⟨hnd, hmem, hval⟩ := hinv
  refine ⟨((records.foldl (getFilteredStatsStep (excludedTagIds tags manuallyExcludedTags))
      (0, [])).2.map Prod.fst).filter
      (fun k => !(excludedTagIds tags manuallyExcludedTags).contains k),
    hnd.filter _, ?_, ?_, ?_, ?_, ?_⟩
  · intro k hk
    rw [List.mem_filter, hmem k, mem_map_fst_tagPairs] at hk
    exact ⟨hk.1.1, by simpa using hk.2⟩
  · intro k hi hocc hex
    rw [List.mem_filter, hmem k, mem_map_fst_tagPairs]
    exact ⟨⟨hocc, hi⟩, by simpa using hex⟩
  · unfold getFilteredStats
    simp only []
    refine (List.perm_insertionSort _ _).trans (List.Perm.of_eq ?_)
    rw [List.filter_map, List.map_map]
    apply List.map_congr_left
    intro e he
    have he2 := hval e (List.mem_filter.mp he).1
    simp only [Function.comp, tagStatOf]
    rw [he2, tagSum_tagPairs]
  · intro k hk
    rw [List.find?_eq_none]
    intro t ht
    simpa using hk t ht
  · intro h k
    exact sum_count_eq_sum_filter records k h

/-- C14, amended, on the example of the specification with the excluded tag `game`: the
record `R2 {game, 1800}` carries both tags, so `work` holds 5400 although `total` is 3600,
and `game` has no entry. -/
theorem getFilteredStats_byTag_witness :
    (getFilteredStats
      [⟨"work", "work", "#7dd3fc", false⟩, ⟨"game", "game", "#fb923c", true⟩] []
      [⟨"R1", "", ["work"], hm 9 0, hm 10 0, 3600⟩,
       ⟨"R2", "", ["game", "work"], hm 10 0, hm 10 30, 1800⟩]).byTag.map
        (fun e => e.duration) = [5400] ∧
    ∃ ks : List String, ks.Nodup ∧ "work" ∈ ks ∧ "game" ∉ ks :=
  ⟨by decide,
   match getFilteredStats_byTag
      [⟨"work", "work", "#7dd3fc", false⟩, ⟨"game", "game", "#fb923c", true⟩] []
      [⟨"R1", "", ["work"], hm 9 0, hm 10 0, 3600⟩,
       ⟨"R2", "", ["game", "work"], hm 10 0, hm 10 30, 1800⟩] with
   | ⟨ks, hnd, hsub, hsup, _⟩ =>
     ⟨ks, hnd,
      hsup "work" (by decide)
        ⟨⟨"R1", "", ["work"], hm 9 0, hm 10 0, 3600⟩, by decide, by decide⟩ (by decide),
      fun hg => (hsub "game" hg).2 (by decide)⟩⟩

/-- C15: in the result of `getFilteredStats` every `byTag` entry has
`percent = duration / total * 100` when `total > 0` and `percent = 0` otherwise, and the
list is ordered by non-increasing duration. -/
theorem getFilteredStats_percent_sorted (tags : List Tag)
    (manuallyExcludedTags : List String) (records : List Record) :
    (∀ e ∈ (getFilteredStats tags manuallyExcludedTags records).byTag,
      e.percent =
        if (getFilteredStats tags manuallyExcludedTags records).total > 0 then
          (e.duration : ℚ) /
            ((getFilteredStats tags manuallyExcludedTags records).total : ℚ) * 100
        else 0) ∧
    List.Pairwise (fun a b : TagStat => b.duration ≤ a.duration)
      (getFilteredStats tags manuallyExcludedTags records).byTag := by
  constructor
  · intro e he
    unfold getFilteredStats at he ⊢
    simp only [] at he ⊢
    rw [(List.perm_insertionSort _ _).mem_iff, List.mem_map] at he
    obtain ⟨x, _, hx⟩ := he
    rw [← hx]
    rfl
  · unfold getFilteredStats
    simp only []
    exact List.sorted_insertionSort byDurationDesc _

/-- An example for C15: two tags with 3600 s and 1800 s out of a total of 5400 s come in
that order. -/
theorem getFilteredStats_sorted_example :
    (getFilteredStats
      [⟨"work", "work", "#7dd3fc", false⟩, ⟨"rest", "rest", "#34d399", false⟩] []
      [⟨"R2", "", ["rest"], hm 10 0, hm 10 30, 1800⟩,
       ⟨"R1", "", ["work"], hm 9 0, hm 10 0, 3600⟩]).byTag.map
        (fun e => (e.tag.map (fun t => t.name), e.duration)) =
      [(some "work", 3600), (some "rest", 1800)] := by
  decide

theorem length_filter_succ_le (l : List Nat) (col : Nat) :
    (l.filter (fun u => decide (col + 1 ≤ u))).length ≤
      (l.filter (fun u => decide (col ≤ u))).length := by
  induction l with
  | nil => simp
  | cons a l ih =>
    by_cases h1 : col + 1 ≤ a
    · have h2 : col ≤ a := by omega
      simp only [List.filter_cons, h1, h2, decide_True, if_true, List.length_cons]
      omega
    · by_cases h2 : col ≤ a
      · simp only [List.filter_cons, h1, h2, decide_True, decide_False, if_true,
          List.length_cons]
        simp only [Bool.false_eq_true, if_false]
        omega
      · simp only [List.filter_cons, h1, h2, decide_False]
        simp only [Bool.false_eq_true, if_false]
        exact ih

theorem length_filter_succ_lt (l : List Nat) (col : Nat) (h : col ∈ l) :
    (l.filter (fun u => decide (col + 1 ≤ u))).length <
      (l.filter (fun u => decide (col ≤ u))).length := by
  induction l with
  | nil => simp at h
  | cons a l ih =>
    by_cases ha : a = col
    · subst ha
      have h1 : ¬ (a + 1 ≤ a) := by omega
      simp only [List.filter_cons, h1, decide_False, le_refl, decide_True, if_true,
        List.length_cons]
      simp only [Bool.false_eq_true, if_false]
      have := length_filter_succ_le l a
      omega
    · have hl : col ∈ l := by
        rcases List.mem_cons.mp h with h | h
        · exact absurd h.symm ha
        · exact h
      have ih' := ih hl
      by_cases h1 : col + 1 ≤ a
      · have h2 : col ≤ a := by omega
        simp only [List.filter_cons, h1, h2, decide_True, if_true, List.length_cons]
        omega
      · have h2 : ¬ col ≤ a := by omega
        simp only [List.filter_cons, h1, h2, decide_False]
        simp only [Bool.false_eq_true, if_false]
        exact ih'

/-- With enough tests left, the loop stops on the first value from `col` on that is not
in `usedColumns`. -/
theorem whileIncludes_spec (usedColumns : List Nat) (fuel col : Nat)
    (h : (usedColumns.filter (fun u => decide (col ≤ u))).length < fuel) :
    whileIncludes usedColumns fuel col ∉ usedColumns ∧
    col ≤ whileIncludes usedColumns fuel col ∧
    ∀ c, col ≤ c → c < whileIncludes usedColumns fuel col → c ∈ usedColumns := by
  induction fuel generalizing col with
  | zero => omega
  | succ fuel ih =>
    unfold whileIncludes
    by_cases hc : col ∈ usedColumns
    · have hcon : usedColumns.contains col = true := by simpa using hc
      rw [if_pos hcon]
      have hlt := length_filter_succ_lt usedColumns col hc
      obtain ⟨h1, h2, h3⟩ := ih (col + 1) (by omega)
      refine ⟨h1, by omega, ?_⟩
      intro c hc1 hc2
      by_cases hcc : c = col
      · rw [hcc]
        exact hc
      · exact h3 c (by omega) hc2
    · have hcon : ¬ usedColumns.contains col = true := by simpa using hc
      rw [if_neg hcon]
      refine ⟨hc, le_refl _, ?_⟩
      intro c hc1 hc2
      omega

/-- The loop `while (usedColumns.includes (col)) col++` from 0 ends on the least column
that is not used. -/
theorem firstFreeColumn_spec (usedColumns : List Nat) :
    firstFreeColumn usedColumns ∉ usedColumns ∧
    ∀ c, c < firstFreeColumn usedColumns → c ∈ usedColumns := by
  have h := whileIncludes_spec usedColumns (usedColumns.length + 1) 0
    (Nat.lt_succ_of_le (List.length_filter_le _ _))
  exact ⟨h.1, fun c hc => h.2.2 c (Nat.zero_le c) hc⟩

theorem firstFreeColumn_range (m : Nat) : firstFreeColumn (List.range m) = m := by
  obtain ⟨h1, h2⟩ := firstFreeColumn_spec (List.range m)
  rw [List.mem_range] at h1
  by_contra hne
  have hlt : m < firstFreeColumn (List.range m) := by omega
  have := h2 m hlt
  rw [List.mem_range] at this
  omega

/-- The chosen column is at most the number of used columns. -/
theorem firstFreeColumn_le_length (usedColumns : List Nat) :
    firstFreeColumn usedColumns ≤ usedColumns.length := by
  obtain ⟨_, h2⟩ := firstFreeColumn_spec usedColumns
  have hsub : List.range (firstFreeColumn usedColumns) ⊆ usedColumns := by
    intro c hc
    exact h2 c (List.mem_range.mp hc)
  have := (List.nodup_range (firstFreeColumn usedColumns)).subperm hsub
  simpa using this.length_le

/-- The element written by one step of the first pass. -/
theorem assignColumns_cons (done rest : List ColumnRecord) (record : ColumnRecord) :
    assignColumns done (record :: rest) =
      assignColumns
        (done ++ [{ record with
          column := some (firstFreeColumn
            (((done ++ rest).filter (fun other => overlapsInColumn other record)).filterMap
              (fun o => o.column)))
          maxColumn := some
            ((((done ++ rest).filter (fun other => overlapsInColumn other record)).map
              (fun o => o.column.getD 0)).foldl max
              (firstFreeColumn
                (((done ++ rest).filter
                  (fun other => overlapsInColumn other record)).filterMap
                  (fun o => o.column)))) }]) rest := rfl

/-- The first pass leaves the visited elements where they are. -/
theorem assignColumns_prefix (rest done : List ColumnRecord) :
    ∃ t, assignColumns done rest = done ++ t ∧ t.length = rest.length := by
  induction rest generalizing done with
  | nil => exact ⟨[], by simp [assignColumns], rfl⟩
  | cons r rest ih =>
    rw [assignColumns_cons]
    obtain ⟨t, ht, hlen⟩ := ih (done ++ [_])
    rw [ht, List.append_assoc]
    exact ⟨_ :: t, rfl, by simp [hlen]⟩

theorem filterMap_column_of_none (l : List ColumnRecord) (p : ColumnRecord → Bool)
    (h : ∀ r ∈ l, r.column = none) : (l.filter p).filterMap (fun o => o.column) = [] := by
  rw [List.filterMap_eq_nil_iff]
  intro r hr
  exact h r (List.mem_of_mem_filter hr)

/-- The first pass, started on records without a column, gives every record the least
column not used by the records that stand before it and overlap it. -/
theorem assignColumns_column (rest done : List ColumnRecord)
    (hnone : ∀ r ∈ rest, r.column = none) (l₁ l₂ : List ColumnRecord) (x : ColumnRecord)
    (h : assignColumns done rest = l₁ ++ x :: l₂) (hlen : done.length ≤ l₁.length) :
    x.column = some (firstFreeColumn
      ((l₁.filter (fun o => overlapsInColumn o x)).filterMap (fun o => o.column))) := by
  induction rest generalizing done with
  | nil =>
    simp only [assignColumns] at h
    have := congrArg List.length h
    simp only [List.length_append, List.length_cons] at this
    omega
  | cons r rest ih =>
    have hnone' : ∀ r ∈ rest, r.column = none :=
      fun y hy => hnone y (List.mem_cons_of_mem _ hy)
    rw [assignColumns_cons] at h
    by_cases hl : done.length + 1 ≤ l₁.length
    · exact ih _ hnone' h (by simpa using hl)
    · have hleq : done.length = l₁.length := by omega
      obtain ⟨t, ht, _⟩ := assignColumns_prefix rest (done ++ [_])
      rw [ht, List.append_assoc] at h
      obtain ⟨hd, hx⟩ := List.append_inj h hleq
      simp only [List.singleton_append, List.cons.injEq] at hx
      rw [← hx.1, ← hd]
      simp only [List.filter_append, List.filterMap_append,
        filterMap_column_of_none rest _ hnone', List.append_nil]
      rfl

/-- The first pass changes neither the records, nor their clipped intervals, nor their
order. -/
theorem assignColumns_map_key (rest done : List ColumnRecord) :
    (assignColumns done rest).map (fun r => (r.record, r.clippedStart, r.clippedEnd)) =
      (done ++ rest).map (fun r => (r.record, r.clippedStart, r.clippedEnd)) := by
  induction rest generalizing done with
  | nil => simp [assignColumns]
  | cons r rest ih =>
    rw [assignColumns_cons, ih]
    simp

/-- A relation that holds between every element and each element standing before it
holds pairwise. -/
theorem pairwise_of_forall_split {α : Type} (R : α → α → Prop) (l : List α)
    (h : ∀ l₁ x l₂, l = l₁ ++ x :: l₂ → ∀ a ∈ l₁, R a x) : l.Pairwise R := by
  induction l using List.reverseRecOn with
  | nil => exact List.Pairwise.nil
  | append_singleton l x ih =>
    rw [List.pairwise_append]
    refine ⟨ih ?_, List.pairwise_singleton R x, ?_⟩
    · intro l₁ y l₂ hl a ha
      exact h l₁ y (l₂ ++ [x]) (by rw [hl]; simp) a ha
    · intro a ha b hb
      rw [List.mem_singleton] at hb
      rw [hb]
      exact h l x [] rfl a ha

/-- If every element satisfying `p` carries the number of elements satisfying `p` that
stand before it, the numbers carried are `0, 1, 2, ...` in order. -/
theorem filterMap_eq_range {α : Type} (p : α → Bool) (c : α → Option Nat) (l : List α)
    (h : ∀ l₁ y l₂, l = l₁ ++ y :: l₂ → p y = true → c y = some (l₁.countP p)) :
    (l.filter p).filterMap c = List.range (l.countP p) := by
  induction l using List.reverseRecOn with
  | nil => simp
  | append_singleton l y ih =>
    have ih' := ih (fun l₁ z l₂ hl hz => h l₁ z (l₂ ++ [y]) (by rw [hl]; simp) hz)
    rw [List.filter_append, List.filterMap_append, ih', List.countP_append]
    by_cases hy : p y = true
    · have hc := h l y [] rfl hy
      simp [hy, hc, List.range_succ]
    · simp [hy]

theorem renderTimelineColumn_eq (records : List Record) (columnStart columnEnd : Int) :
    renderTimelineColumn records columnStart columnEnd =
      countColumnsInSlot
        (assignColumns [] (sortedColumnRecords records columnStart columnEnd)) := rfl

/-- The clipped records have a non-empty clipped interval and no column yet. -/
theorem mem_sortedColumnRecords (records : List Record) (columnStart columnEnd : Int)
    (r : ColumnRecord) (h : r ∈ sortedColumnRecords records columnStart columnEnd) :
    r.column = none ∧ r.clippedStart < r.clippedEnd := by
  unfold sortedColumnRecords at h
  rw [List.mem_insertionSort, List.mem_filterMap] at h
  obtain ⟨x, _, hx⟩ := h
  unfold clipRecord at hx
  simp only [] at hx
  split_ifs at hx with hc
  simp only [Option.some.injEq] at hx
  rw [← hx]
  exact ⟨rfl, not_le.mp hc⟩

theorem overlapsInColumn_comm (a b : ColumnRecord) :
    overlapsInColumn a b = overlapsInColumn b a := by
  unfold overlapsInColumn
  by_cases h1 : a.clippedEnd ≤ b.clippedStart <;>
    by_cases h2 : a.clippedStart ≥ b.clippedEnd <;> simp [h1, h2]

theorem overlapsInColumn_self (a : ColumnRecord) (h : a.clippedStart < a.clippedEnd) :
    overlapsInColumn a a = true := by
  unfold overlapsInColumn
  have h1 : ¬ a.clippedEnd ≤ a.clippedStart := by omega
  have h2 : ¬ a.clippedStart ≥ a.clippedEnd := by omega
  simp [h1, h2]

/-- After the first pass every record has a column, and no record has the column of a
record that stands before it and overlaps it. -/
theorem assignColumns_distinct (records : List Record) (columnStart columnEnd : Int) :
    (∀ x ∈ assignColumns [] (sortedColumnRecords records columnStart columnEnd),
      ∃ c, x.column = some c) ∧
    (assignColumns [] (sortedColumnRecords records columnStart columnEnd)).Pairwise
      (fun a b => overlapsInColumn a b = true → a.column ≠ b.column) := by
  have hnone : ∀ r ∈ sortedColumnRecords records columnStart columnEnd, r.column = none :=
    fun r hr => (mem_sortedColumnRecords records columnStart columnEnd r hr).1
  constructor
  · intro x hx
    obtain ⟨l₁, l₂, hl⟩ := List.append_of_mem hx
    exact ⟨_, assignColumns_column _ [] hnone l₁ l₂ x hl (Nat.zero_le _)⟩
  · apply pairwise_of_forall_split
    intro l₁ x l₂ hl a ha hov hcol
    have hx := assignColumns_column _ [] hnone l₁ l₂ x hl (Nat.zero_le _)
    have hmem : firstFreeColumn
        ((l₁.filter (fun o => overlapsInColumn o x)).filterMap (fun o => o.column)) ∈
        (l₁.filter (fun o => overlapsInColumn o x)).filterMap (fun o => o.column) := by
      rw [List.mem_filterMap]
      exact ⟨a, List.mem_filter.mpr ⟨ha, hov⟩, by rw [hcol, hx]⟩
    exact (firstFreeColumn_spec _).1 hmem

/-- C16: in the layout of `renderTimelineColumn` every record has a column, and any two
records at different places of the list whose clipped intervals overlap have different
column indices. -/
theorem layout_overlapping_columns_differ (records : List Record)
    (columnStart columnEnd : Int) :
    (∀ x ∈ renderTimelineColumn records columnStart columnEnd, ∃ c, x.column = some c) ∧
    (renderTimelineColumn records columnStart columnEnd).Pairwise
      (fun a b => (overlapsInColumn a b = true ∨ overlapsInColumn b a = true) →
        a.column ≠ b.column) := by
  obtain ⟨hsome, hpw⟩ := assignColumns_distinct records columnStart columnEnd
  rw [renderTimelineColumn_eq]
  unfold countColumnsInSlot
  constructor
  · intro x hx
    rw [List.mem_map] at hx
    obtain ⟨y, hy, hyx⟩ := hx
    obtain ⟨c, hc⟩ := hsome y hy
    exact ⟨c, by rw [← hyx]; exact hc⟩
  · rw [List.pairwise_map]
    refine hpw.imp ?_
    intro a b hab hov
    have hov' : overlapsInColumn a b = true := by
      rcases hov with h | h
      · exact h
      · rw [overlapsInColumn_comm]
        exact h
    exact hab hov'

/-- C17 fails on the code: for `[09:00, 10:00)`, `[09:30, 11:00)` and `[10:30, 11:30)` in the
morning window the first record gets column 0 of 2 and the second column 1 of 3, so their
blocks span `[0, 49)` and `[100/3, 100/3 + 97/3)` percent of the lane: the two records
overlap in time and their blocks overlap horizontally. -/
theorem layout_blocks_overlap_horizontally :
    (renderTimelineColumn
      [⟨"a", "", [], hm 9 0, hm 10 0, 3600⟩, ⟨"b", "", [], hm 9 30, hm 11 0, 5400⟩,
       ⟨"c", "", [], hm 10 30, hm 11 30, 3600⟩]
      (hm 0 0) (hm 12 0)).map
        (fun r => (r.record.id, r.clippedStart, r.clippedEnd, r.column,
          r.totalColumnsInSlot)) =
      [("a", hm 9 0, hm 10 0, some 0, some 2), ("b", hm 9 30, hm 11 0, some 1, some 3),
       ("c", hm 10 30, hm 11 30, some 0, some 2)] ∧
    (renderTimelineColumn
      [⟨"a", "", [], hm 9 0, hm 10 0, 3600⟩, ⟨"b", "", [], hm 9 30, hm 11 0, 5400⟩,
       ⟨"c", "", [], hm 10 30, hm 11 30, 3600⟩]
      (hm 0 0) (hm 12 0)).map blockLeftWidth =
      [some (0, 49), some (100 / 3, 97 / 3), some (0, 49)] ∧
    ((100 / 3 : ℚ) < 0 + 49 ∧ (0 : ℚ) < 100 / 3 + 97 / 3) := by
  refine ⟨by decide, ?_, by norm_num⟩
  have h : renderTimelineColumn
      [⟨"a", "", [], hm 9 0, hm 10 0, 3600⟩, ⟨"b", "", [], hm 9 30, hm 11 0, 5400⟩,
       ⟨"c", "", [], hm 10 30, hm 11 30, 3600⟩]
      (hm 0 0) (hm 12 0) =
      [⟨⟨"a", "", [], hm 9 0, hm 10 0, 3600⟩, hm 9 0, hm 10 0, some 0, some 0, some 2⟩,
       ⟨⟨"b", "", [], hm 9 30, hm 11 0, 5400⟩, hm 9 30, hm 11 0, some 1, some 1, some 3⟩,
       ⟨⟨"c", "", [], hm 10 30, hm 11 30, 3600⟩, hm 10 30, hm 11 30, some 0, some 1,
         some 2⟩] := by
    decide
  rw [h]
  simp only [List.map_cons, List.map_nil, blockLeftWidth]
  norm_num

/-- A decomposition of a mapped list comes from a decomposition of the list. -/
theorem map_eq_append_cons {α β : Type} (f : α → β) (l : List α) (l₁ l₂ : List β) (x : β)
    (h : l.map f = l₁ ++ x :: l₂) :
    ∃ m₁ y m₂, l = m₁ ++ y :: m₂ ∧ m₁.map f = l₁ ∧ f y = x ∧ m₂.map f = l₂ := by
  obtain ⟨m₁, m, hl, h1, h2⟩ := List.map_eq_append_iff.mp h
  obtain ⟨y, m₂, hm, hy, h3⟩ := List.map_eq_cons_iff.mp h2
  exact ⟨m₁, y, m₂, by rw [hl, hm], h1, hy, h3⟩

/-- In the first pass, a record whose overlapping records all overlap exactly the same
records as it does gets as column the number of overlapping records that stand before
it. -/
theorem assignColumns_clique (sorted : List ColumnRecord)
    (hnone : ∀ r ∈ sorted, r.column = none) (n : Nat) :
    ∀ (m₁ m₂ : List ColumnRecord) (y : ColumnRecord), m₁.length = n →
      assignColumns [] sorted = m₁ ++ y :: m₂ →
      (∀ a ∈ assignColumns [] sorted, overlapsInColumn a y = true →
        ∀ b ∈ assignColumns [] sorted, overlapsInColumn b a = overlapsInColumn b y) →
      y.column = some (m₁.countP (fun o => overlapsInColumn o y)) := by
  induction n using Nat.strong_induction_on with
  | _ n ih =>
    intro m₁ m₂ y hn hl hclique
    rw [assignColumns_column sorted [] hnone m₁ m₂ y hl (Nat.zero_le _)]
    have hrange : (m₁.filter (fun o => overlapsInColumn o y)).filterMap (fun o => o.column) =
        List.range (m₁.countP (fun o => overlapsInColumn o y)) := by
      apply filterMap_eq_range
      intro k₁ z k₂ hk hz
      have hl' : assignColumns [] sorted = k₁ ++ z :: (k₂ ++ y :: m₂) := by
        rw [hl, hk]
        simp
      have hzmem : z ∈ assignColumns [] sorted := by
        rw [hl']
        simp
      have hlen : k₁.length < n := by
        rw [← hn, hk]
        simp
      have hz' : ∀ a ∈ assignColumns [] sorted, overlapsInColumn a z = true →
          ∀ b ∈ assignColumns [] sorted, overlapsInColumn b a = overlapsInColumn b z := by
        intro a ha haz b hb
        have hay : overlapsInColumn a y = true := by
          rw [← hclique z hzmem hz a ha]
          exact haz
        rw [hclique a ha hay b hb, hclique z hzmem hz b hb]
      rw [ih k₁.length hlen k₁ (k₂ ++ y :: m₂) z rfl hl' hz']
      congr 1
      apply List.countP_congr
      intro b hb
      have hbmem : b ∈ assignColumns [] sorted := by
        rw [hl']
        exact List.mem_append_left _ hb
      rw [hclique z hzmem hz b hbmem]
    rw [hrange, firstFreeColumn_range]

/-- C18: in the layout of `renderTimelineColumn`, a record whose clipped interval overlaps
no other record gets column 0 and `totalColumnsInSlot = 1`; and a record of a group of `k`
records that overlap one another and nothing else gets as column the number of records of
the group that are processed before it (so the group gets `0, 1, ..., k - 1` in
processing order) and `totalColumnsInSlot = k`. -/
theorem layout_clique_columns (records : List Record) (columnStart columnEnd : Int)
    (l₁ l₂ : List ColumnRecord) (x : ColumnRecord)
    (h : renderTimelineColumn records columnStart columnEnd = l₁ ++ x :: l₂) :
    ((∀ b ∈ l₁ ++ l₂, overlapsInColumn b x = false) →
      x.column = some 0 ∧ x.totalColumnsInSlot = some 1) ∧
    ((∀ a ∈ renderTimelineColumn records columnStart columnEnd,
        overlapsInColumn a x = true →
        ∀ b ∈ renderTimelineColumn records columnStart columnEnd,
          overlapsInColumn b a = overlapsInColumn b x) →
      x.column = some (l₁.countP (fun o => overlapsInColumn o x)) ∧
      x.totalColumnsInSlot = some
        ((renderTimelineColumn records columnStart columnEnd).countP
          (fun o => overlapsInColumn o x))) := by
  have hnone : ∀ r ∈ sortedColumnRecords records columnStart columnEnd, r.column = none :=
    fun r hr => (mem_sortedColumnRecords records columnStart columnEnd r hr).1
  have hgen : (∀ a ∈ renderTimelineColumn records columnStart columnEnd,
        overlapsInColumn a x = true →
        ∀ b ∈ renderTimelineColumn records columnStart columnEnd,
          overlapsInColumn b a = overlapsInColumn b x) →
      x.column = some (l₁.countP (fun o => overlapsInColumn o x)) ∧
      x.totalColumnsInSlot = some
        ((renderTimelineColumn records columnStart columnEnd).countP
          (fun o => overlapsInColumn o x)) := by
    intro hclique
    rw [renderTimelineColumn_eq] at h hclique ⊢
    unfold countColumnsInSlot at h hclique ⊢
    obtain ⟨m₁, y, m₂, hl, h1, hy, _⟩ := map_eq_append_cons _ _ _ _ _ h
    have hcl : ∀ a ∈ assignColumns [] (sortedColumnRecords records columnStart columnEnd),
        overlapsInColumn a y = true →
        ∀ b ∈ assignColumns [] (sortedColumnRecords records columnStart columnEnd),
          overlapsInColumn b a = overlapsInColumn b y := by
      intro a ha hay b hb
      have := hclique _ (List.mem_map_of_mem _ ha) (by rw [← hy]; exact hay) _
        (List.mem_map_of_mem _ hb)
      rw [← hy] at this
      exact this
    have hcol := assignColumns_clique _ hnone m₁.length m₁ m₂ y rfl hl hcl
    constructor
    · rw [← hy, ← h1, List.countP_map]
      exact hcol
    · rw [← hy, List.countP_map, List.countP_eq_length_filter]
      rfl
  refine ⟨?_, hgen⟩
  intro hiso
  have hxx : overlapsInColumn x x = true := by
    rw [renderTimelineColumn_eq] at h
    unfold countColumnsInSlot at h
    obtain ⟨m₁, y, m₂, hl, _, hy, _⟩ := map_eq_append_cons _ _ _ _ _ h
    have hymem : y ∈ assignColumns [] (sortedColumnRecords records columnStart columnEnd) := by
      rw [hl]
      simp
    have hkey := assignColumns_map_key (sortedColumnRecords records columnStart columnEnd) []
    have hmem : (y.record, y.clippedStart, y.clippedEnd) ∈
        (assignColumns [] (sortedColumnRecords records columnStart columnEnd)).map
          (fun r => (r.record, r.clippedStart, r.clippedEnd)) :=
      List.mem_map_of_mem (fun r => (r.record, r.clippedStart, r.clippedEnd)) hymem
    rw [hkey, List.nil_append, List.mem_map] at hmem
    obtain ⟨z, hz, hzy⟩ := hmem
    have hlt := (mem_sortedColumnRecords records columnStart columnEnd z hz).2
    simp only [Prod.mk.injEq] at hzy
    rw [hzy.2.1, hzy.2.2] at hlt
    rw [← hy]
    exact overlapsInColumn_self y hlt
  have hov : ∀ a ∈ renderTimelineColumn records columnStart columnEnd,
      overlapsInColumn a x = true → overlapsInColumn a x = overlapsInColumn x x ∧
        ∀ b, overlapsInColumn b a = overlapsInColumn b x := by
    intro a ha hax
    rw [h, List.mem_append, List.mem_cons] at ha
    have hax' : a = x := by
      rcases ha with ha | ha | ha
      · have := hiso a (List.mem_append_left _ ha)
        rw [this] at hax
        exact absurd hax (by simp)
      · exact ha
      · have := hiso a (List.mem_append_right _ ha)
        rw [this] at hax
        exact absurd hax (by simp)
    subst hax'
    exact ⟨rfl, fun b => rfl⟩
  obtain ⟨hc, ht⟩ := hgen (fun a ha hax b _ => (hov a ha hax).2 b)
  have hc0 : l₁.countP (fun o => overlapsInColumn o x) = 0 := by
    rw [List.countP_eq_zero]
    intro b hb
    rw [hiso b (List.mem_append_left _ hb)]
    simp
  have hc2 : l₂.countP (fun o => overlapsInColumn o x) = 0 := by
    rw [List.countP_eq_zero]
    intro b hb
    rw [hiso b (List.mem_append_right _ hb)]
    simp
  refine ⟨by rw [hc, hc0], ?_⟩
  rw [ht, h, List.countP_append, List.countP_cons, hc0, hc2, hxx]
  rfl

/-- C18 on the example of the specification: `[09:00, 10:00)`, `[09:30, 10:30)` and
`[09:45, 10:15)` get the columns 0, 1, 2 with `totalColumnsInSlot = 3`, and
`[10:30, 11:00)` gets column 0 with `totalColumnsInSlot = 1`. -/
theorem layout_clique_columns_witness :
    (renderTimelineColumn
      [⟨"a", "", [], hm 9 0, hm 10 0, 3600⟩, ⟨"b", "", [], hm 9 30, hm 10 30, 3600⟩,
       ⟨"c", "", [], hm 9 45, hm 10 15, 1800⟩, ⟨"d", "", [], hm 10 30, hm 11 0, 1800⟩]
      (hm 0 0) (hm 12 0)).map (fun r => (r.record.id, r.column, r.totalColumnsInSlot)) =
      [("a", some 0, some 3), ("b", some 1, some 3), ("c", some 2, some 3),
       ("d", some 0, some 1)] ∧
    ((⟨⟨"d", "", [], hm 10 30, hm 11 0, 1800⟩, hm 10 30, hm 11 0, some 0, some 0,
        some 1⟩ : ColumnRecord).column = some 0 ∧
     (⟨⟨"d", "", [], hm 10 30, hm 11 0, 1800⟩, hm 10 30, hm 11 0, some 0, some 0,
        some 1⟩ : ColumnRecord).totalColumnsInSlot = some 1) :=
  ⟨by decide,
   (layout_clique_columns
      [⟨"a", "", [], hm 9 0, hm 10 0, 3600⟩, ⟨"b", "", [], hm 9 30, hm 10 30, 3600⟩,
       ⟨"c", "", [], hm 9 45, hm 10 15, 1800⟩, ⟨"d", "", [], hm 10 30, hm 11 0, 1800⟩]
      (hm 0 0) (hm 12 0)
      [⟨⟨"a", "", [], hm 9 0, hm 10 0, 3600⟩, hm 9 0, hm 10 0, some 0, some 0, some 3⟩,
       ⟨⟨"b", "", [], hm 9 30, hm 10 30, 3600⟩, hm 9 30, hm 10 30, some 1, some 1, some 3⟩,
       ⟨⟨"c", "", [], hm 9 45, hm 10 15, 1800⟩, hm 9 45, hm 10 15, some 2, some 2, some 3⟩]
      []
      ⟨⟨"d", "", [], hm 10 30, hm 11 0, 1800⟩, hm 10 30, hm 11 0, some 0, some 0, some 1⟩
      (by decide)).1 (by decide)⟩

/-- The object built by the name loop holds under a key the last tag with that lower-cased
name. -/
theorem foldl_setKey_name (lower : String → String) (S : List Tag)
    (obj : String → Option Tag) (k : String) :
    (S.foldl (fun obj t => setKey obj (lower t.name) t) obj) k =
      (S.reverse.find? (fun t => lower t.name == k)).or (obj k) := by
  induction S generalizing obj with
  | nil => simp
  | cons t S ih =>
    rw [List.foldl_cons, ih, List.reverse_cons, List.find?_append]
    cases hS : S.reverse.find? (fun t => lower t.name == k) with
    | some x => simp
    | none =>
      by_cases hk : lower t.name = k
      · simp [setKey, hk]
      · have hk' : ¬ k = lower t.name := fun h => hk h.symm
        simp [setKey, hk, hk']

theorem tagsByName_eq (lower : String → String) (S : List Tag) (k : String) :
    tagsByName lower S k = S.reverse.find? (fun t => lower t.name == k) := by
  unfold tagsByName
  rw [foldl_setKey_name]
  simp

theorem mergeTagStep_byName (lower : String → String) (st : MergeTagState) (q : Tag)
    (k : String) :
    (mergeTagStep lower st q).existingTagsByName k =
      (st.existingTagsByName k).or (if lower q.name = k then some q else none) := by
  unfold mergeTagStep
  cases hq : st.existingTagsByName (lower q.name) with
  | some x =>
    simp only []
    by_cases hk : lower q.name = k
    · rw [← hk, hq]
      simp
    · simp [hk]
  | none =>
    simp only []
    by_cases hk : lower q.name = k
    · rw [← hk]
      simp [setKey, hq]
    · have hk' : ¬ k = lower q.name := fun h => hk h.symm
      simp [setKey, hk, hk']

/-- After the tag loop, a name is registered to the tag it had before the loop or else to
the first imported tag with that name. -/
theorem foldl_mergeTagStep_byName (lower : String → String) (I : List Tag)
    (st : MergeTagState) (k : String) :
    (I.foldl (mergeTagStep lower) st).existingTagsByName k =
      (st.existingTagsByName k).or (I.find? (fun q => lower q.name == k)) := by
  induction I generalizing st with
  | nil => simp
  | cons q I ih =>
    rw [List.foldl_cons, ih, mergeTagStep_byName, List.find?_cons]
    cases st.existingTagsByName k with
    | some x => simp
    | none =>
      by_cases hk : lower q.name = k
      · have hb : (lower q.name == k) = true := by simpa using hk
        simp [hk]
      · have hb : (lower q.name == k) = false := by simpa using hk
        rw [hb]
        simp [hk]

theorem mergeTagStep_mapping_of_ne (lower : String → String) (st : MergeTagState) (q : Tag)
    (t : String) (h : t ≠ q.id) :
    (mergeTagStep lower st q).tagIdMapping t = st.tagIdMapping t := by
  unfold mergeTagStep
  cases st.existingTagsByName (lower q.name) <;> simp [setKey, h]

theorem foldl_mergeTagStep_mapping_of_not_mem (lower : String → String) (I : List Tag)
    (st : MergeTagState) (t : String) (h : ∀ p ∈ I, p.id ≠ t) :
    (I.foldl (mergeTagStep lower) st).tagIdMapping t = st.tagIdMapping t := by
  induction I generalizing st with
  | nil => rfl
  | cons q I ih =>
    rw [List.foldl_cons, ih _ (fun p hp => h p (List.mem_cons_of_mem _ hp)),
      mergeTagStep_mapping_of_ne lower st q t (Ne.symm (h q (List.mem_cons_self _ _)))]

theorem mergeTagStep_mapping_self (lower : String → String) (st : MergeTagState) (q : Tag) :
    ∃ x, (mergeTagStep lower st q).existingTagsByName (lower q.name) = some x ∧
      (mergeTagStep lower st q).tagIdMapping q.id = some x.id := by
  unfold mergeTagStep
  cases hq : st.existingTagsByName (lower q.name) with
  | some x => exact ⟨x, by simp [hq], by simp [setKey]⟩
  | none => exact ⟨q, by simp [setKey], by simp [setKey]⟩

/-- After the tag loop, the id of every imported tag is mapped to the id of the tag
registered under its lower-cased name (imported tags having distinct ids). -/
theorem foldl_mergeTagStep_mapping (lower : String → String) (I : List Tag)
    (st : MergeTagState) (hnd : (I.map (fun p => p.id)).Nodup) (p : Tag) (hp : p ∈ I) :
    ∃ x, (I.foldl (mergeTagStep lower) st).existingTagsByName (lower p.name) = some x ∧
      (I.foldl (mergeTagStep lower) st).tagIdMapping p.id = some x.id := by
  induction I generalizing st with
  | nil => simp at hp
  | cons q I ih =>
    rw [List.map_cons, List.nodup_cons] at hnd
    rw [List.foldl_cons]
    rcases List.mem_cons.mp hp with hpq | hpI
    · subst hpq
      obtain ⟨x, hx1, hx2⟩ := mergeTagStep_mapping_self lower st p
      refine ⟨x, ?_, ?_⟩
      · rw [foldl_mergeTagStep_byName, hx1]
        simp
      · rw [foldl_mergeTagStep_mapping_of_not_mem, hx2]
        intro p' hp' hid
        exact hnd.1 (List.mem_map.mpr ⟨p', hp', hid⟩)
    · exact ih _ hnd.2 hpI

/-- When every imported name is already registered, the tag loop adds no tag. -/
theorem foldl_mergeTagStep_of_known (lower : String → String) (I : List Tag)
    (st : MergeTagState)
    (h : ∀ q ∈ I, ∃ x, st.existingTagsByName (lower q.name) = some x) :
    (I.foldl (mergeTagStep lower) st).existingTags = st.existingTags ∧
    (I.foldl (mergeTagStep lower) st).addedTags = st.addedTags := by
  induction I generalizing st with
  | nil => exact ⟨rfl, rfl⟩
  | cons q I ih =>
    rw [List.foldl_cons]
    obtain ⟨x, hx⟩ := h q (List.mem_cons_self _ _)
    have hstep : mergeTagStep lower st q =
        { st with tagIdMapping := setKey st.tagIdMapping q.id x.id } := by
      unfold mergeTagStep
      rw [hx]
    rw [hstep]
    exact ih _ (fun q' hq' => h q' (List.mem_cons_of_mem _ hq'))

/-- The record loop appends the imported records with an unknown id, tags rewritten. -/
theorem foldl_mergeRecordStep (ids : List String) (mapping : String → Option String)
    (recs : List Record) (acc : List Record × Nat) :
    recs.foldl (mergeRecordStep ids mapping) acc =
      (acc.1 ++ (recs.filter (fun r => decide (r.id ∉ ids))).map
          (fun r => { r with tags := r.tags.map (fun t => mappedTagId mapping t) }),
       acc.2 + (recs.filter (fun r => decide (r.id ∉ ids))).length) := by
  induction recs generalizing acc with
  | nil => simp
  | cons r recs ih =>
    rw [List.foldl_cons, ih]
    by_cases h : r.id ∈ ids
    · have hc : ids.contains r.id = true := by simpa using h
      simp [mergeRecordStep, hc, h]
    · have hc : ids.contains r.id = false := by simpa using h
      simp [mergeRecordStep, hc, h]
      omega

/-- C19 (round trip): merge-importing the document that `exportData` builds from a store
into that same store, for any date range, returns `addedRecords = 0` and `addedTags = 0`
and saves the record list and the tag list unchanged. -/
theorem export_import_round_trip (lower : String → String) (records : List Record)
    (tags : List Tag) (dayStart dayEnd : Int → Int) (now startDate endDate : Int) :
    importDataMerge lower records tags
        (exportData records tags dayStart dayEnd now startDate endDate) =
      { addedRecords := 0, addedTags := 0, records := records, tags := tags } := by
  have hfil : (getRecordsByDateRange records dayStart dayEnd startDate endDate).filter
      (fun r => decide (r.id ∉ records.map (fun r => r.id))) = [] := by
    rw [List.filter_eq_nil_iff]
    intro r hr
    unfold getRecordsByDateRange at hr
    have hmem : r ∈ records := (List.mem_filter.mp hr).1
    have : r.id ∈ records.map (fun r => r.id) := List.mem_map_of_mem (fun r => r.id) hmem
    simpa using this
  have hknown : ∀ q ∈ tags, ∃ x, tagsByName lower tags (lower q.name) = some x := by
    intro q hq
    rw [tagsByName_eq, ← Option.isSome_iff_exists, List.find?_isSome]
    exact ⟨q, List.mem_reverse.mpr hq, by simp⟩
  have htags := foldl_mergeTagStep_of_known lower tags
    { existingTags := tags
      existingTagsByName := tagsByName lower tags
      tagIdMapping := fun _ => none
      addedTags := 0 } hknown
  unfold importDataMerge exportData mergeTags
  simp only []
  rw [foldl_mergeRecordStep, hfil, htags.1, htags.2]
  simp

/-- C20, as stated, fails: with an empty store, the imported tags `X "Foo"` and `Y "foo"`
and an imported record tagged `Y`, no stored tag is named `foo`, yet the record is saved
with the tag id `X` (and only `X` is added to the tags). -/
theorem merge_rewrites_to_imported_tag :
    importDataMerge asciiLower [] []
      ⟨0, "1.0", 0, 0, [⟨"X", "Foo", "#111", false⟩, ⟨"Y", "foo", "#222", false⟩],
        [⟨"r", "", ["Y"], 0, 1000, 1⟩]⟩ =
      ⟨1, 1, [⟨"r", "", ["X"], 0, 1000, 1⟩], [⟨"X", "Foo", "#111", false⟩]⟩ := by
  decide

/-- C20, amended: for import tags with distinct ids, on the inputs of `MergeKeysOwn` (no
key names a member of `Object.prototype`, no tag id is empty), the record list after
`importDataMerge` is the previous list followed, in import order, by exactly the imported
records whose id was not in the store, and `addedRecords` is their number. In each of them
the id of an imported tag is replaced by the id of the tag registered under that tag's
lower-cased name: the last stored tag with that name or, when the store has none, the
first imported tag with that name (possibly another imported tag); any other tag id is
left as it was. -/
theorem importDataMerge_records (lower : String → String) (existingRecords : List Record)
    (existingTags : List Tag) (importData : ExportDocument)
    (hnd : (importData.tags.map (fun p => p.id)).Nodup)
    (hkeys : MergeKeysOwn lower existingTags importData) :
    ∃ rewrite : String → String,
      (importDataMerge lower existingRecords existingTags importData).records =
        existingRecords ++
          (importData.records.filter
            (fun r => decide (r.id ∉ existingRecords.map (fun x => x.id)))).map
            (fun r => { r with tags := r.tags.map rewrite }) ∧
      (importDataMerge lower existingRecords existingTags importData).addedRecords =
        (importData.records.filter
          (fun r => decide (r.id ∉ existingRecords.map (fun x => x.id)))).length ∧
      (∀ t, inheritedKey t = false → (∀ p ∈ importData.tags, p.id ≠ t) → rewrite t = t) ∧
      (∀ p ∈ importData.tags, ∀ x,
        existingTags.reverse.find? (fun s => lower s.name == lower p.name) = some x →
        rewrite p.id = x.id) ∧
      (∀ p ∈ importData.tags, (∀ s ∈ existingTags, lower s.name ≠ lower p.name) →
        ∃ q, importData.tags.find? (fun q => lower q.name == lower p.name) = some q ∧
          rewrite p.id = q.id) := by
  obtain ⟨hS, hI, _⟩ := hkeys
  refine ⟨mappedTagId (mergeTags lower existingTags importData.tags).tagIdMapping,
    ?_, ?_, ?_, ?_, ?_⟩
  · unfold importDataMerge
    simp only []
    rw [foldl_mergeRecordStep]
  · unfold importDataMerge
    simp only []
    rw [foldl_mergeRecordStep]
    simp
  · intro t _ ht
    unfold mappedTagId mergeTags
    rw [foldl_mergeTagStep_mapping_of_not_mem lower _ _ t ht]
  · intro p hp x hx
    obtain ⟨y, hy1, hy2⟩ := foldl_mergeTagStep_mapping lower importData.tags
      { existingTags := existingTags
        existingTagsByName := tagsByName lower existingTags
        tagIdMapping := fun _ => none
        addedTags := 0 } hnd p hp
    rw [foldl_mergeTagStep_byName] at hy1
    simp only [] at hy1
    rw [tagsByName_eq, hx] at hy1
    have hxy : x = y := by simpa [Option.or] using hy1
    have hxid : x.id ≠ "" := (hS x (List.mem_reverse.mp (List.mem_of_find?_eq_some hx))).2
    unfold mappedTagId mergeTags
    rw [hy2, ← hxy]
    simp only []
    rw [if_neg hxid]
  · intro p hp hno
    obtain ⟨y, hy1, hy2⟩ := foldl_mergeTagStep_mapping lower importData.tags
      { existingTags := existingTags
        existingTagsByName := tagsByName lower existingTags
        tagIdMapping := fun _ => none
        addedTags := 0 } hnd p hp
    rw [foldl_mergeTagStep_byName] at hy1
    have hnone : existingTags.reverse.find? (fun s => lower s.name == lower p.name) = none := by
      rw [List.find?_eq_none]
      intro s hs
      simpa using hno s (List.mem_reverse.mp hs)
    simp only [] at hy1
    rw [tagsByName_eq, hnone] at hy1
    have hy3 : importData.tags.find? (fun q => lower q.name == lower p.name) = some y := by
      simpa [Option.or] using hy1
    have hyid : y.id ≠ "" := (hI y (List.mem_of_find?_eq_some hy3)).2.2
    refine ⟨y, hy3, ?_⟩
    unfold mappedTagId mergeTags
    rw [hy2]
    simp only []
    rw [if_neg hyid]

/-- C20, amended, on a concrete import: the store holds the record `r0` and the tag
`W "work"`; the imported record `r0` is skipped and `r1` is appended with the imported id
`X` of `"Work"` replaced by `W` and the unknown id `Z` kept. -/
theorem importDataMerge_records_witness :
    (importDataMerge asciiLower [⟨"r0", "", ["W"], 0, 1000, 1⟩]
      [⟨"W", "work", "#111", false⟩]
      ⟨0, "1.0", 0, 0, [⟨"X", "Work", "#222", false⟩],
        [⟨"r0", "changed", [], 0, 2000, 2⟩, ⟨"r1", "", ["X", "Z"], 0, 3000, 3⟩]⟩).records =
      [⟨"r0", "", ["W"], 0, 1000, 1⟩, ⟨"r1", "", ["W", "Z"], 0, 3000, 3⟩] ∧
    MergeKeysOwn asciiLower [⟨"W", "work", "#111", false⟩]
      ⟨0, "1.0", 0, 0, [⟨"X", "Work", "#222", false⟩],
        [⟨"r0", "changed", [], 0, 2000, 2⟩, ⟨"r1", "", ["X", "Z"], 0, 3000, 3⟩]⟩ ∧
    ∃ rewrite : String → String,
      (importDataMerge asciiLower [⟨"r0", "", ["W"], 0, 1000, 1⟩]
        [⟨"W", "work", "#111", false⟩]
        ⟨0, "1.0", 0, 0, [⟨"X", "Work", "#222", false⟩],
          [⟨"r0", "changed", [], 0, 2000, 2⟩, ⟨"r1", "", ["X", "Z"], 0, 3000, 3⟩]⟩).records =
        [⟨"r0", "", ["W"], 0, 1000, 1⟩] ++
          (([⟨"r0", "changed", [], 0, 2000, 2⟩, ⟨"r1", "", ["X", "Z"], 0, 3000, 3⟩] :
              List Record).filter
            (fun r => decide (r.id ∉ ([⟨"r0", "", ["W"], 0, 1000, 1⟩] : List Record).map
              (fun x => x.id)))).map
            (fun r => { r with tags := r.tags.map rewrite }) ∧
      rewrite "X" = "W" ∧ rewrite "Z" = "Z" :=
  ⟨by decide, ⟨by decide, by decide, by decide⟩,
   match importDataMerge_records asciiLower [⟨"r0", "", ["W"], 0, 1000, 1⟩]
      [⟨"W", "work", "#111", false⟩]
      ⟨0, "1.0", 0, 0, [⟨"X", "Work", "#222", false⟩],
        [⟨"r0", "changed", [], 0, 2000, 2⟩, ⟨"r1", "", ["X", "Z"], 0, 3000, 3⟩]⟩
      (by decide) ⟨by decide, by decide, by decide⟩ with
   | ⟨rewrite, h, _, hother, hstored, _⟩ =>
     ⟨rewrite, h,
      hstored ⟨"X", "Work", "#222", false⟩ (by decide) ⟨"W", "work", "#111", false⟩ (by decide),
      hother "Z" (by decide) (by decide)⟩⟩

/-- C27: when both ids are found and the two records, each with start before end, do not
overlap at all (`ce ≤ s` or `cs ≥ e`), none of the three guarded cases of
`splitRecordToRemoveOverlap` holds: it returns the empty list and the store keeps exactly
the records whose id is not `editedId`, so the edited record is removed. -/
theorem split_disjoint_removes (records : List Record) (uuid1 uuid2 : String)
    (editedId conflictId : String) (record conflictRecord : Record)
    (h1 : records.find? (fun r => r.id == editedId) = some record)
    (h2 : records.find? (fun r => r.id == conflictId) = some conflictRecord)
    (hcse : conflictRecord.startTime < conflictRecord.endTime)
    (hdis : conflictRecord.endTime ≤ record.startTime ∨
            conflictRecord.startTime ≥ record.endTime) :
    ¬ (conflictRecord.startTime > record.startTime ∧
        conflictRecord.endTime < record.endTime) ∧
    ¬ (conflictRecord.startTime ≤ record.startTime ∧
        conflictRecord.endTime > record.startTime ∧
        conflictRecord.endTime < record.endTime) ∧
    ¬ (conflictRecord.startTime > record.startTime ∧
        conflictRecord.startTime < record.endTime ∧
        conflictRecord.endTime ≥ record.endTime) ∧
    (splitRecordToRemoveOverlap records uuid1 uuid2 editedId conflictId).1 = some [] ∧
    (splitRecordToRemoveOverlap records uuid1 uuid2 editedId conflictId).2 =
      records.filter (fun r => decide (r.id ≠ editedId)) ∧
    record ∉ (splitRecordToRemoveOverlap records uuid1 uuid2 editedId conflictId).2 := by
  have c1 : ¬ (conflictRecord.startTime > record.startTime ∧
      conflictRecord.endTime < record.endTime) := by omega
  have c2 : ¬ (conflictRecord.startTime ≤ record.startTime ∧
      conflictRecord.endTime > record.startTime ∧
      conflictRecord.endTime < record.endTime) := by omega
  have c3 : ¬ (conflictRecord.startTime > record.startTime ∧
      conflictRecord.startTime < record.endTime ∧
      conflictRecord.endTime ≥ record.endTime) := by omega
  refine ⟨c1, c2, c3, ?_⟩
  rw [splitRecordToRemoveOverlap_found records uuid1 uuid2 editedId conflictId record
    conflictRecord h1 h2]
  have hnew : splitNewRecords record conflictRecord.startTime conflictRecord.endTime
      uuid1 uuid2 = [] := by
    unfold splitNewRecords
    simp only []
    rw [if_neg c1, if_neg c2, if_neg c3]
  rw [hnew]
  have hfun : (fun r : Record => r.id != editedId) = (fun r => decide (r.id ≠ editedId)) := by
    funext r
    by_cases h : r.id = editedId <;> simp [h]
  refine ⟨rfl, ?_, ?_⟩
  · simp only [List.filter_nil, List.append_nil, hfun]
  · intro hmem
    simp only [List.filter_nil, List.append_nil, List.mem_filter, bne_iff_ne] at hmem
    have hrid : record.id = editedId := by
      have := List.find?_some h1
      simpa using this
    exact hmem.2 hrid

/-- C27 on a concrete store: `[09:00, 10:00)` edited against the disjoint
`[11:00, 12:00)` is deleted. -/
theorem split_disjoint_removes_witness :
    (splitRecordToRemoveOverlap
        [⟨"a", "x", ["t"], hm 9 0, hm 10 0, 3600⟩, ⟨"b", "", [], hm 11 0, hm 12 0, 3600⟩]
        "u1" "u2" "a" "b").1 = some [] ∧
    (splitRecordToRemoveOverlap
        [⟨"a", "x", ["t"], hm 9 0, hm 10 0, 3600⟩, ⟨"b", "", [], hm 11 0, hm 12 0, 3600⟩]
        "u1" "u2" "a" "b").2 =
      ([⟨"a", "x", ["t"], hm 9 0, hm 10 0, 3600⟩, ⟨"b", "", [], hm 11 0, hm 12 0, 3600⟩] :
        List Record).filter (fun r => decide (r.id ≠ "a")) :=
  match split_disjoint_removes
    [⟨"a", "x", ["t"], hm 9 0, hm 10 0, 3600⟩, ⟨"b", "", [], hm 11 0, hm 12 0, 3600⟩]
    "u1" "u2" "a" "b" ⟨"a", "x", ["t"], hm 9 0, hm 10 0, 3600⟩
    ⟨"b", "", [], hm 11 0, hm 12 0, 3600⟩ (by decide) (by decide) (by decide)
    (Or.inr (by decide)) with
  | ⟨_, _, _, hres, hstore, _⟩ => ⟨hres, hstore⟩

/-- C28 (time conservation): for an edited record `[s, e)` and a conflicting record
`[cs, ce)` that overlap, with the four instants whole seconds (`s < e` and `cs < ce` are
not even needed), the durations of the records returned by `splitRecordToRemoveOverlap` sum to `(e - s) / 1000`
minus the overlap duration `round ((min e ce - max s cs) / 1000)`, which is the
`overlapDuration` of any conflict that `detectConflicts` reports about the conflicting
record for the edited interval; and every returned interval lies inside `[s, e)`. -/
theorem split_time_conservation (records : List Record) (uuid1 uuid2 : String)
    (editedId conflictId : String) (record conflictRecord : Record)
    (h1 : records.find? (fun r => r.id == editedId) = some record)
    (h2 : records.find? (fun r => r.id == conflictId) = some conflictRecord)
    (hov : record.startTime < conflictRecord.endTime ∧
           record.endTime > conflictRecord.startTime)
    (hw : 1000 ∣ record.startTime ∧ 1000 ∣ record.endTime ∧
          1000 ∣ conflictRecord.startTime ∧ 1000 ∣ conflictRecord.endTime) :
    ∃ fs, (splitRecordToRemoveOverlap records uuid1 uuid2 editedId conflictId).1 = some fs ∧
      (fs.map (fun f => f.duration)).sum =
        (record.endTime - record.startTime) / 1000 -
          roundDiv1000 (min record.endTime conflictRecord.endTime -
            max record.startTime conflictRecord.startTime) ∧
      (∀ f ∈ fs, record.startTime ≤ f.startTime ∧ f.endTime ≤ record.endTime) ∧
      (∀ c ∈ detectConflicts records (some editedId) record.startTime record.endTime,
        c.record = conflictRecord →
        c.overlapDuration =
          roundDiv1000 (min record.endTime conflictRecord.endTime -
            max record.startTime conflictRecord.startTime)) := by
  obtain ⟨ws, we, wcs, wce⟩ := hw
  rw [splitRecordToRemoveOverlap_found records uuid1 uuid2 editedId conflictId record
    conflictRecord h1 h2]
  refine ⟨_, rfl, ?_, ?_, ?_⟩
  · unfold splitNewRecords roundDiv1000
    simp only []
    by_cases c1 : conflictRecord.startTime > record.startTime ∧
        conflictRecord.endTime < record.endTime
    · rw [if_pos c1]
      have p1 : (conflictRecord.startTime - record.startTime + 500) / 1000 > 0 := by omega
      have p2 : (record.endTime - conflictRecord.endTime + 500) / 1000 > 0 := by omega
      simp only [List.filter, p1, p2, decide_True, List.map_cons, List.map_nil,
        List.sum_cons, List.sum_nil]
      omega
    · rw [if_neg c1]
      by_cases c2 : conflictRecord.startTime ≤ record.startTime ∧
          conflictRecord.endTime > record.startTime ∧
          conflictRecord.endTime < record.endTime
      · rw [if_pos c2]
        have p2 : (record.endTime - conflictRecord.endTime + 500) / 1000 > 0 := by omega
        simp only [List.filter, p2, decide_True, List.map_cons, List.map_nil,
          List.sum_cons, List.sum_nil]
        omega
      · rw [if_neg c2]
        by_cases c3 : conflictRecord.startTime > record.startTime ∧
            conflictRecord.startTime < record.endTime ∧
            conflictRecord.endTime ≥ record.endTime
        · rw [if_pos c3]
          have p1 : (conflictRecord.startTime - record.startTime + 500) / 1000 > 0 := by
            omega
          simp only [List.filter, p1, decide_True, List.map_cons, List.map_nil,
            List.sum_cons, List.sum_nil]
          omega
        · rw [if_neg c3]
          simp only [List.filter, List.map_nil, List.sum_nil]
          omega
  · intro f hf
    rcases splitNewRecords_mem _ _ _ _ _ f (List.mem_of_mem_filter hf) with
      ⟨u, _, hfe⟩ | ⟨u, _, hfe⟩
    · have hpos : f.duration > 0 := by simpa using (List.mem_filter.mp hf).2
      subst hfe
      simp only [gt_iff_lt] at hpos ⊢
      rw [roundDiv1000_pos_iff] at hpos
      omega
    · have hpos : f.duration > 0 := by simpa using (List.mem_filter.mp hf).2
      subst hfe
      simp only [gt_iff_lt] at hpos ⊢
      rw [roundDiv1000_pos_iff] at hpos
      omega
  · intro c hc hrec
    rw [detectConflicts_eq, List.mem_map] at hc
    obtain ⟨r, _, hcr⟩ := hc
    rw [← hcr] at hrec ⊢
    have hr : r = conflictRecord := hrec
    rw [hr]
    rfl

/-- C28 on the containment example: the fragments of `[09:00, 12:00)` around
`[10:00, 11:00)` hold 3600 s + 3600 s = 10800 s - 3600 s. -/
theorem split_time_conservation_witness :
    ∃ fs, (splitRecordToRemoveOverlap
        [⟨"a", "x", ["t"], hm 9 0, hm 12 0, 10800⟩, ⟨"b", "", [], hm 10 0, hm 11 0, 3600⟩]
        "u1" "u2" "a" "b").1 = some fs ∧
      (fs.map (fun f => f.duration)).sum =
        (hm 12 0 - hm 9 0) / 1000 -
          roundDiv1000 (min (hm 12 0) (hm 11 0) - max (hm 9 0) (hm 10 0)) :=
  match split_time_conservation
    [⟨"a", "x", ["t"], hm 9 0, hm 12 0, 10800⟩, ⟨"b", "", [], hm 10 0, hm 11 0, 3600⟩]
    "u1" "u2" "a" "b" ⟨"a", "x", ["t"], hm 9 0, hm 12 0, 10800⟩
    ⟨"b", "", [], hm 10 0, hm 11 0, 3600⟩ (by decide) (by decide) (by decide)
    (by decide) with
  | ⟨fs, hfs, hsum, _⟩ => ⟨fs, hfs, hsum⟩

/-- The records of the first pass keep a non-empty clipped interval. -/
theorem mem_assignColumns_lt (records : List Record) (columnStart columnEnd : Int)
    (y : ColumnRecord)
    (hy : y ∈ assignColumns [] (sortedColumnRecords records columnStart columnEnd)) :
    y.clippedStart < y.clippedEnd := by
  have hkey := assignColumns_map_key (sortedColumnRecords records columnStart columnEnd) []
  have hmem : (y.record, y.clippedStart, y.clippedEnd) ∈
      (assignColumns [] (sortedColumnRecords records columnStart columnEnd)).map
        (fun r => (r.record, r.clippedStart, r.clippedEnd)) :=
    List.mem_map_of_mem (fun r => (r.record, r.clippedStart, r.clippedEnd)) hy
  rw [hkey, List.nil_append, List.mem_map] at hmem
  obtain ⟨z, hz, hzy⟩ := hmem
  have hlt := (mem_sortedColumnRecords records columnStart columnEnd z hz).2
  simp only [Prod.mk.injEq] at hzy
  rw [hzy.2.1, hzy.2.2] at hlt
  exact hlt

/-- A record of the layout is a record of the first pass, at some place of the list, with
its count of overlapping records written by the second pass. -/
theorem mem_renderTimelineColumn (records : List Record) (columnStart columnEnd : Int)
    (x : ColumnRecord) (hx : x ∈ renderTimelineColumn records columnStart columnEnd) :
    ∃ m₁ y m₂,
      assignColumns [] (sortedColumnRecords records columnStart columnEnd) = m₁ ++ y :: m₂ ∧
      x = { y with
              totalColumnsInSlot := some (List.countP (fun o => overlapsInColumn o y)
                (assignColumns [] (sortedColumnRecords records columnStart columnEnd))) } ∧
      y.clippedStart < y.clippedEnd := by
  rw [renderTimelineColumn_eq] at hx
  unfold countColumnsInSlot at hx
  rw [List.mem_map] at hx
  obtain ⟨y, hy, hyx⟩ := hx
  obtain ⟨m₁, m₂, hl⟩ := List.append_of_mem hy
  refine ⟨m₁, y, m₂, hl, ?_, mem_assignColumns_lt records columnStart columnEnd y hy⟩
  rw [← hyx, List.countP_eq_length_filter]

theorem overlapsInColumn_eq (o x : ColumnRecord) :
    overlapsInColumn o x =
      decide (o.clippedEnd > x.clippedStart ∧ o.clippedStart < x.clippedEnd) := by
  unfold overlapsInColumn
  apply Bool.eq_iff_iff.mpr
  simp only [Bool.not_eq_true', Bool.or_eq_false_iff, decide_eq_false_iff_not,
    decide_eq_true_eq]
  constructor
  · rintro ⟨h1, h2⟩
    exact ⟨by omega, by omega⟩
  · rintro ⟨h1, h2⟩
    exact ⟨by omega, by omega⟩

/-- C24: in the layout of `renderTimelineColumn` the `totalColumnsInSlot` of a record is the
number of records of the whole list, itself included, whose clipped interval overlaps its
clipped interval (`other.clippedEnd > record.clippedStart` and
`other.clippedStart < record.clippedEnd`); it is at least 1. -/
theorem layout_totalColumnsInSlot (records : List Record) (columnStart columnEnd : Int)
    (x : ColumnRecord) (hx : x ∈ renderTimelineColumn records columnStart columnEnd) :
    x.totalColumnsInSlot = some
      ((renderTimelineColumn records columnStart columnEnd).countP
        (fun other => decide (other.clippedEnd > x.clippedStart ∧
          other.clippedStart < x.clippedEnd))) ∧
    1 ≤ (renderTimelineColumn records columnStart columnEnd).countP
        (fun other => decide (other.clippedEnd > x.clippedStart ∧
          other.clippedStart < x.clippedEnd)) := by
  have hlt : x.clippedStart < x.clippedEnd := by
    obtain ⟨m₁, y, m₂, _, hxy, hy⟩ := mem_renderTimelineColumn records columnStart columnEnd x hx
    rw [hxy]
    exact hy
  constructor
  · obtain ⟨m₁, y, m₂, _, hxy, _⟩ := mem_renderTimelineColumn records columnStart columnEnd x hx
    rw [renderTimelineColumn_eq]
    unfold countColumnsInSlot
    rw [List.countP_map, hxy]
    simp only []
    congr 1
    apply List.countP_congr
    intro o _
    rw [overlapsInColumn_eq]
    rfl
  · rw [Nat.succ_le_iff, List.countP_pos_iff]
    exact ⟨x, hx, decide_eq_true ⟨hlt, hlt⟩⟩

/-- C24 on the example of the specification: `[09:30, 10:30)` overlaps three records of the
list, itself included. -/
theorem layout_totalColumnsInSlot_witness :
    (⟨⟨"b", "", [], hm 9 30, hm 10 30, 3600⟩, hm 9 30, hm 10 30, some 1, some 1,
        some 3⟩ : ColumnRecord).totalColumnsInSlot = some
      ((renderTimelineColumn
        [⟨"a", "", [], hm 9 0, hm 10 0, 3600⟩, ⟨"b", "", [], hm 9 30, hm 10 30, 3600⟩,
         ⟨"c", "", [], hm 9 45, hm 10 15, 1800⟩, ⟨"d", "", [], hm 10 30, hm 11 0, 1800⟩]
        (hm 0 0) (hm 12 0)).countP
        (fun other => decide (other.clippedEnd > hm 9 30 ∧ other.clippedStart < hm 10 30))) :=
  (layout_totalColumnsInSlot
    [⟨"a", "", [], hm 9 0, hm 10 0, 3600⟩, ⟨"b", "", [], hm 9 30, hm 10 30, 3600⟩,
     ⟨"c", "", [], hm 9 45, hm 10 15, 1800⟩, ⟨"d", "", [], hm 10 30, hm 11 0, 1800⟩]
    (hm 0 0) (hm 12 0)
    ⟨⟨"b", "", [], hm 9 30, hm 10 30, 3600⟩, hm 9 30, hm 10 30, some 1, some 1, some 3⟩
    (by decide)).1

/-- The column of a record of the first pass is smaller than the number of records
overlapping it, itself included. -/
theorem assignColumns_column_lt (records : List Record) (columnStart columnEnd : Int)
    (m₁ m₂ : List ColumnRecord) (y : ColumnRecord)
    (hl : assignColumns [] (sortedColumnRecords records columnStart columnEnd) =
      m₁ ++ y :: m₂) :
    ∃ c, y.column = some c ∧ c ≤ m₁.countP (fun o => overlapsInColumn o y) ∧
      c < (assignColumns [] (sortedColumnRecords records columnStart columnEnd)).countP
        (fun o => overlapsInColumn o y) := by
  have hnone : ∀ r ∈ sortedColumnRecords records columnStart columnEnd, r.column = none :=
    fun r hr => (mem_sortedColumnRecords records columnStart columnEnd r hr).1
  have hcol := assignColumns_column _ [] hnone m₁ m₂ y hl (Nat.zero_le _)
  have hymem : y ∈ assignColumns [] (sortedColumnRecords records columnStart columnEnd) := by
    rw [hl]
    simp
  have hyy := overlapsInColumn_self y
    (mem_assignColumns_lt records columnStart columnEnd y hymem)
  have h1 := firstFreeColumn_le_length
    ((m₁.filter (fun o => overlapsInColumn o y)).filterMap (fun o => o.column))
  have h2 := List.length_filterMap_le (fun o : ColumnRecord => o.column)
    (m₁.filter (fun o => overlapsInColumn o y))
  have h3 : (m₁.filter (fun o => overlapsInColumn o y)).length =
      m₁.countP (fun o => overlapsInColumn o y) := (List.countP_eq_length_filter _ _).symm
  refine ⟨_, hcol, by omega, ?_⟩
  rw [hl, List.countP_append, List.countP_cons, hyy]
  simp only [if_true]
  omega

/-- The numbers behind the right edge of column 5 of 6. The integers 100, 6 and 5 are held
exactly. Each of the three computed numbers has a significand of 53 bits and lies within
less than half a unit in the last place of the exact result on the operands, so it is the
binary64 number nearest to that result: `100 / 6 = 16.666666666666668`,
`5 * 16.666666666666668 = 83.33333333333334` and
`83.33333333333334 + 16.666666666666668 = 100.00000000000001`. -/
theorem binary64_steps_nearest :
    (Binary64.toRat (Binary64.ofNat 100) = 100 ∧ Binary64.toRat (Binary64.ofNat 6) = 6 ∧
      Binary64.toRat (Binary64.ofNat 5) = 5) ∧
    (Binary64.div (Binary64.ofNat 100) (Binary64.ofNat 6) = ⟨4691249611844267, -48⟩ ∧
      Binary64.mul (Binary64.ofNat 5) ⟨4691249611844267, -48⟩ = ⟨5864062014805334, -46⟩ ∧
      Binary64.add ⟨5864062014805334, -46⟩ ⟨4691249611844267, -48⟩ =
        ⟨7036874417766401, -46⟩) ∧
    (2 ^ 52 ≤ 4691249611844267 ∧ 4691249611844267 < 2 ^ 53 ∧
      2 ^ 52 ≤ 5864062014805334 ∧ 5864062014805334 < 2 ^ 53 ∧
      2 ^ 52 ≤ 7036874417766401 ∧ 7036874417766401 < 2 ^ 53) ∧
    |(100 : ℚ) / 6 - Binary64.toRat ⟨4691249611844267, -48⟩| < (2 : ℚ) ^ (-48 : ℤ) / 2 ∧
    |(5 : ℚ) * Binary64.toRat ⟨4691249611844267, -48⟩ -
      Binary64.toRat ⟨5864062014805334, -46⟩| < (2 : ℚ) ^ (-46 : ℤ) / 2 ∧
    |Binary64.toRat ⟨5864062014805334, -46⟩ + Binary64.toRat ⟨4691249611844267, -48⟩ -
      Binary64.toRat ⟨7036874417766401, -46⟩| < (2 : ℚ) ^ (-46 : ℤ) / 2 := by
  have h100 : Binary64.ofNat 100 = ⟨7036874417766400, -46⟩ := by decide
  have h6 : Binary64.ofNat 6 = ⟨6755399441055744, -50⟩ := by decide
  have h5 : Binary64.ofNat 5 = ⟨5629499534213120, -50⟩ := by decide
  refine ⟨⟨?_, ?_, ?_⟩, ⟨by decide!, by decide!, by decide!⟩, by decide, ?_, ?_, ?_⟩
  · rw [h100]
    norm_num [Binary64.toRat]
  · rw [h6]
    norm_num [Binary64.toRat]
  · rw [h5]
    norm_num [Binary64.toRat]
  · norm_num [Binary64.toRat, abs_lt]
  · norm_num [Binary64.toRat, abs_lt]
  · norm_num [Binary64.toRat, abs_lt]

/-- C29, as stated, fails: six records over `[09:00, 10:00)` overlap one another, the last
one gets column 5 of 6, and for it `column * (100 / totalColumnsInSlot) +
100 / totalColumnsInSlot`, computed on JavaScript numbers, is `100.00000000000001`, which
is greater than 100. -/
theorem block_right_edge_exceeds_100 :
    ∃ x ∈ renderTimelineColumn
      [⟨"a", "", [], hm 9 0, hm 10 0, 3600⟩, ⟨"b", "", [], hm 9 0, hm 10 0, 3600⟩,
       ⟨"c", "", [], hm 9 0, hm 10 0, 3600⟩, ⟨"d", "", [], hm 9 0, hm 10 0, 3600⟩,
       ⟨"e", "", [], hm 9 0, hm 10 0, 3600⟩, ⟨"f", "", [], hm 9 0, hm 10 0, 3600⟩]
      (hm 0 0) (hm 12 0),
      x.column = some 5 ∧ x.totalColumnsInSlot = some 6 ∧
      blockRightEdge x = some ⟨7036874417766401, -46⟩ ∧
      (100 : ℚ) < Binary64.toRat ⟨7036874417766401, -46⟩ := by
  refine ⟨⟨⟨"f", "", [], hm 9 0, hm 10 0, 3600⟩, hm 9 0, hm 10 0, some 5, some 5, some 6⟩,
    by decide, rfl, rfl, by decide!, ?_⟩
  norm_num [Binary64.toRat]

/-- C29, amended: in the layout of `renderTimelineColumn` the column index of a record is
strictly smaller than its `totalColumnsInSlot`, so that in exact arithmetic
`column * (100 / totalColumnsInSlot) + 100 / totalColumnsInSlot` is at most 100. -/
theorem layout_column_lt_total (records : List Record) (columnStart columnEnd : Int)
    (x : ColumnRecord) (hx : x ∈ renderTimelineColumn records columnStart columnEnd) :
    ∃ column totalCols, x.column = some column ∧ x.totalColumnsInSlot = some totalCols ∧
      column < totalCols ∧
      (column : ℚ) * (100 / (totalCols : ℚ)) + 100 / (totalCols : ℚ) ≤ 100 := by
  obtain ⟨m₁, y, m₂, hl, hxy, _⟩ := mem_renderTimelineColumn records columnStart columnEnd x hx
  obtain ⟨c, hc, _, hlt⟩ := assignColumns_column_lt records columnStart columnEnd m₁ m₂ y hl
  refine ⟨c, _, by rw [hxy]; exact hc, by rw [hxy], hlt, ?_⟩
  have hpos : (0 : ℚ) < ((assignColumns []
      (sortedColumnRecords records columnStart columnEnd)).countP
      (fun o => overlapsInColumn o y) : ℚ) := by
    exact_mod_cast Nat.lt_of_le_of_lt (Nat.zero_le c) hlt
  have hle : (c : ℚ) + 1 ≤ ((assignColumns []
      (sortedColumnRecords records columnStart columnEnd)).countP
      (fun o => overlapsInColumn o y) : ℚ) := by
    exact_mod_cast hlt
  have heq : (c : ℚ) * (100 / ((assignColumns []
      (sortedColumnRecords records columnStart columnEnd)).countP
      (fun o => overlapsInColumn o y) : ℚ)) + 100 / ((assignColumns []
      (sortedColumnRecords records columnStart columnEnd)).countP
      (fun o => overlapsInColumn o y) : ℚ) =
      (((c : ℚ) + 1) * 100) / ((assignColumns []
      (sortedColumnRecords records columnStart columnEnd)).countP
      (fun o => overlapsInColumn o y) : ℚ) := by
    ring
  rw [heq, div_le_iff₀ hpos]
  linarith

/-- C29, amended, on the example of the specification: `[09:45, 10:15)` has column 2 of
3. -/
theorem layout_column_lt_total_witness :
    ∃ column totalCols,
      (⟨⟨"c", "", [], hm 9 45, hm 10 15, 1800⟩, hm 9 45, hm 10 15, some 2, some 2,
        some 3⟩ : ColumnRecord).column = some column ∧
      (⟨⟨"c", "", [], hm 9 45, hm 10 15, 1800⟩, hm 9 45, hm 10 15, some 2, some 2,
        some 3⟩ : ColumnRecord).totalColumnsInSlot = some totalCols ∧
      column < totalCols :=
  match layout_column_lt_total
    [⟨"a", "", [], hm 9 0, hm 10 0, 3600⟩, ⟨"b", "", [], hm 9 30, hm 10 30, 3600⟩,
     ⟨"c", "", [], hm 9 45, hm 10 15, 1800⟩, ⟨"d", "", [], hm 10 30, hm 11 0, 1800⟩]
    (hm 0 0) (hm 12 0)
    ⟨⟨"c", "", [], hm 9 45, hm 10 15, 1800⟩, hm 9 45, hm 10 15, some 2, some 2, some 3⟩
    (by decide) with
  | ⟨column, totalCols, h1, h2, h3, _⟩ => ⟨column, totalCols, h1, h2, h3⟩

/-- The element at the index found by `findIndex` is the element found by `find`. -/
theorem getElem?_findIdx? {α : Type} (p : α → Bool) (l : List α) (i : Nat)
    (h : l.findIdx? p = some i) : l[i]? = l.find? p := by
  induction l generalizing i with
  | nil => simp at h
  | cons a l ih =>
    rw [List.findIdx?_cons] at h
    by_cases hp : p a = true
    · simp only [hp, if_true, Option.some.injEq] at h
      subst h
      simp [List.find?_cons, hp]
    · have hp' : p a = false := by simpa using hp
      simp only [hp', Bool.false_eq_true, if_false, Nat.zero_add] at h
      rw [List.findIdx?_start_succ] at h
      cases hl : l.findIdx? p with
      | none => simp [hl] at h
      | some j =>
        simp only [hl, Option.map_some', Option.some.injEq] at h
        subst h
        simp [List.find?_cons, hp', ih j hl]

/-- C23: for an id of a stored record and an `updates` object that carries a `startTime` or
an `endTime`, `updateRecord` returns the merged record with
`duration = round ((endTime - startTime) / 1000)` computed from the merged times, whatever
duration the old record or `updates` carried, and stores it at the place of the old
record; for an id of no stored record it returns `null` and leaves the store as it was. -/
theorem updateRecord_duration (records : List Record) (id : String)
    (updates : RecordUpdates) :
    (∀ old, records.find? (fun r => r.id == id) = some old →
      (updates.startTime.isSome = true ∨ updates.endTime.isSome = true) →
      ∃ index merged, index < records.length ∧ records[index]? = some old ∧
        (updateRecord records id updates).1 = some merged ∧
        (updateRecord records id updates).2 = records.set index merged ∧
        (updateRecord records id updates).2[index]? = some merged ∧
        merged.startTime = updates.startTime.getD old.startTime ∧
        merged.endTime = updates.endTime.getD old.endTime ∧
        merged.duration = roundDiv1000 (merged.endTime - merged.startTime)) ∧
    ((∀ r ∈ records, r.id ≠ id) → updateRecord records id updates = (none, records)) := by
  constructor
  · intro old hold hupd
    cases hidx : records.findIdx? (fun r => r.id == id) with
    | none =>
      rw [List.findIdx?_eq_none_iff] at hidx
      have hm := List.mem_of_find?_eq_some hold
      have hp := List.find?_some hold
      rw [hidx old hm] at hp
      exact absurd hp (by simp)
    | some index =>
      have hget := getElem?_findIdx? _ records index hidx
      rw [hold] at hget
      have hlt : index < records.length := by
        by_contra hge
        rw [List.getElem?_eq_none (by omega)] at hget
        exact absurd hget (by simp)
      have hcond : (updates.startTime.isSome || updates.endTime.isSome) = true := by
        rcases hupd with h | h <;> simp [h]
      unfold updateRecord
      rw [hidx, hold]
      simp only [hcond, if_true]
      exact ⟨index, _, hlt, hget, rfl, rfl, List.getElem?_set_self hlt, rfl, rfl, rfl⟩
  · intro h
    have hnone : records.find? (fun r => r.id == id) = none := by
      rw [List.find?_eq_none]
      intro r hr
      simpa using h r hr
    unfold updateRecord
    rw [hnone]
    cases records.findIdx? (fun r => r.id == id) <;> rfl

/-- C23 on a concrete store: moving the end of `[09:00, 10:00)` to 09:30 while passing a
stale duration stores 1800 s, and an unknown id changes nothing. -/
theorem updateRecord_duration_witness :
    updateRecord [⟨"a", "", [], hm 9 0, hm 10 0, 3600⟩] "a"
        ⟨none, none, none, none, some (hm 9 30), some 7⟩ =
      (some ⟨"a", "", [], hm 9 0, hm 9 30, 1800⟩, [⟨"a", "", [], hm 9 0, hm 9 30, 1800⟩]) ∧
    updateRecord [⟨"a", "", [], hm 9 0, hm 10 0, 3600⟩] "b"
        ⟨none, none, none, none, some (hm 9 30), some 7⟩ =
      (none, [⟨"a", "", [], hm 9 0, hm 10 0, 3600⟩]) :=
  ⟨by decide,
   (updateRecord_duration [⟨"a", "", [], hm 9 0, hm 10 0, 3600⟩] "b"
      ⟨none, none, none, none, some (hm 9 30), some 7⟩).2 (by decide)⟩

/-- The percentage of an entry of `byTag`. -/
theorem mem_byTag_percent (tags : List Tag) (manuallyExcludedTags : List String)
    (records : List Record) (e : TagStat)
    (he : e ∈ (getFilteredStats tags manuallyExcludedTags records).byTag) :
    e.percent =
      if (getFilteredStats tags manuallyExcludedTags records).total > 0 then
        (e.duration : ℚ) /
          ((getFilteredStats tags manuallyExcludedTags records).total : ℚ) * 100
      else 0 := by
  unfold getFilteredStats at he ⊢
  simp only [] at he ⊢
  rw [(List.perm_insertionSort _ _).mem_iff, List.mem_map] at he
  obtain ⟨x, _, hx⟩ := he
  rw [← hx]
  rfl

/-- C30: the percentages of `getFilteredStats` are not bounded by 100. With `game`
excluded, `R1 {work, 3600}` and `R2 {game, work, 1800}` give `total = 3600 > 0` while the
entry of `work` holds 5400 s, that is 150 percent. -/
theorem getFilteredStats_percent_exceeds_100 :
    ∃ (tags : List Tag) (manuallyExcludedTags : List String) (records : List Record),
      (getFilteredStats tags manuallyExcludedTags records).total > 0 ∧
      ∃ e ∈ (getFilteredStats tags manuallyExcludedTags records).byTag,
        e.duration = 5400 ∧ e.percent = 150 ∧ e.percent > 100 := by
  refine ⟨[⟨"work", "work", "#7dd3fc", false⟩, ⟨"game", "game", "#fb923c", true⟩], [],
    [⟨"R1", "", ["work"], hm 9 0, hm 10 0, 3600⟩,
     ⟨"R2", "", ["game", "work"], hm 10 0, hm 10 30, 1800⟩], by decide, ?_⟩
  have hdur : (getFilteredStats
      [⟨"work", "work", "#7dd3fc", false⟩, ⟨"game", "game", "#fb923c", true⟩] []
      [⟨"R1", "", ["work"], hm 9 0, hm 10 0, 3600⟩,
       ⟨"R2", "", ["game", "work"], hm 10 0, hm 10 30, 1800⟩]).byTag.map
        (fun e => e.duration) = [5400] := by
    decide
  have htot : (getFilteredStats
      [⟨"work", "work", "#7dd3fc", false⟩, ⟨"game", "game", "#fb923c", true⟩] []
      [⟨"R1", "", ["work"], hm 9 0, hm 10 0, 3600⟩,
       ⟨"R2", "", ["game", "work"], hm 10 0, hm 10 30, 1800⟩]).total = 3600 := by
    decide
  have hmem : (5400 : Int) ∈ (getFilteredStats
      [⟨"work", "work", "#7dd3fc", false⟩, ⟨"game", "game", "#fb923c", true⟩] []
      [⟨"R1", "", ["work"], hm 9 0, hm 10 0, 3600⟩,
       ⟨"R2", "", ["game", "work"], hm 10 0, hm 10 30, 1800⟩]).byTag.map
        (fun e => e.duration) := by
    rw [hdur]
    exact List.mem_singleton.mpr rfl
  obtain ⟨e, he, hed⟩ := List.mem_map.mp hmem
  have hp := mem_byTag_percent _ _ _ e he
  rw [htot, hed] at hp
  have hp150 : e.percent = 150 := by
    rw [hp]
    norm_num
  exact ⟨e, he, hed, hp150, by rw [hp150]; norm_num⟩

/-- C21 fails on the code: with an empty store and an import document holding two records
with the same id `a`, both records are saved, because `existingRecordIds` is computed once
before the loop and never extended. -/
theorem merge_keeps_duplicate_import_ids :
    (importDataMerge asciiLower [] []
      ⟨0, "1.0", 0, 0, [],
        [⟨"a", "first", [], 0, 1000, 1⟩, ⟨"a", "second", [], 2000, 3000, 1⟩]⟩).records =
      [⟨"a", "first", [], 0, 1000, 1⟩, ⟨"a", "second", [], 2000, 3000, 1⟩] ∧
    ¬ ((importDataMerge asciiLower [] []
      ⟨0, "1.0", 0, 0, [],
        [⟨"a", "first", [], 0, 1000, 1⟩, ⟨"a", "second", [], 2000, 3000, 1⟩]⟩).records.map
        (fun r => r.id)).Nodup := by
  decide

/-- When the imported records themselves have pairwise distinct ids, the record ids stay
pairwise distinct under `importDataMerge`. -/
theorem importDataMerge_ids_nodup_of_nodup (lower : String → String)
    (existingRecords : List Record) (existingTags : List Tag) (importData : ExportDocument)
    (h : (existingRecords.map (fun r => r.id)).Nodup)
    (hi : (importData.records.map (fun r => r.id)).Nodup) :
    ((importDataMerge lower existingRecords existingTags importData).records.map
      (fun r => r.id)).Nodup := by
  unfold importDataMerge
  simp only []
  rw [foldl_mergeRecordStep]
  simp only [List.map_append, List.map_map]
  have hfun : ((fun r : Record => r.id) ∘ fun r : Record =>
      { r with
        tags := List.map
          (fun t => mappedTagId (mergeTags lower existingTags importData.tags).tagIdMapping t)
          r.tags }) =
      fun r => r.id := rfl
  rw [hfun, List.nodup_append]
  refine ⟨h, ?_, ?_⟩
  · exact hi.sublist ((List.filter_sublist _).map _)
  · intro k hk hk'
    rw [List.mem_map] at hk'
    obtain ⟨r, hr, hrk⟩ := hk'
    have := (List.mem_filter.mp hr).2
    rw [decide_eq_true_eq, hrk] at this
    exact this hk

/-- The names registered before the tag loop are those of the stored tags. -/
theorem mergeTagsInv_init (lower : String → String) (S I : List Tag)
    (h : (S.map (fun t => lower t.name)).Nodup) :
    MergeTagsInv lower S I
      { existingTags := S
        existingTagsByName := tagsByName lower S
        tagIdMapping := fun _ => none
        addedTags := 0 } := by
  refine ⟨h, ?_, [], by simp, rfl, fun t ht => absurd ht (List.not_mem_nil t)⟩
  intro k
  simp only []
  rw [tagsByName_eq, ← Option.isSome_iff_exists, List.find?_isSome, List.mem_map]
  constructor
  · rintro ⟨x, hx, hxk⟩
    exact ⟨x, List.mem_reverse.mp hx, by simpa using hxk⟩
  · rintro ⟨x, hx, hxk⟩
    exact ⟨x, List.mem_reverse.mpr hx, by simpa using hxk⟩

/-- One step of the tag loop keeps the invariant. -/
theorem mergeTagStep_inv (lower : String → String) (S I : List Tag) (st : MergeTagState)
    (q : Tag) (hqI : q ∈ I) (h : MergeTagsInv lower S I st) :
    MergeTagsInv lower S I (mergeTagStep lower st q) := by
  obtain ⟨hnd, hreg, added, htags, hcount, hsub⟩ := h
  unfold mergeTagStep
  cases hq : st.existingTagsByName (lower q.name) with
  | some x => exact ⟨hnd, hreg, added, htags, hcount, hsub⟩
  | none =>
    have hnot : lower q.name ∉ st.existingTags.map (fun t => lower t.name) := by
      intro hc
      obtain ⟨x, hx⟩ := (hreg (lower q.name)).mpr hc
      rw [hq] at hx
      exact absurd hx (by simp)
    refine ⟨?_, ?_, added ++ [q], ?_, ?_, ?_⟩
    · simp only [List.map_append, List.map_cons, List.map_nil]
      rw [List.nodup_append]
      refine ⟨hnd, List.nodup_singleton _, ?_⟩
      intro k hk hk'
      rw [List.mem_singleton] at hk'
      exact hnot (hk' ▸ hk)
    · intro k
      simp only [List.map_append, List.map_cons, List.map_nil, List.mem_append,
        List.mem_singleton]
      by_cases hk : k = lower q.name
      · simp [setKey, hk]
      · simp only [setKey, hk, if_false, or_false]
        exact hreg k
    · simp only [htags, List.append_assoc]
    · simp only [hcount, List.length_append, List.length_singleton]
    · intro t ht
      rcases List.mem_append.mp ht with ht | ht
      · exact hsub t ht
      · rw [List.mem_singleton] at ht
        rw [ht]
        exact hqI

theorem foldl_mergeTagStep_inv (lower : String → String) (S I J : List Tag)
    (hJ : ∀ q ∈ J, q ∈ I) (st : MergeTagState) (h : MergeTagsInv lower S I st) :
    MergeTagsInv lower S I (J.foldl (mergeTagStep lower) st) := by
  induction J generalizing st with
  | nil => exact h
  | cons q J ih =>
    exact ih (fun x hx => hJ x (List.mem_cons_of_mem _ hx)) _
      (mergeTagStep_inv lower S I st q (hJ q (List.mem_cons_self _ _)) h)

/-- C22: for a store whose tag names are pairwise distinct after lower-casing and any document
to import, also one with several tags whose names differ only in case, the tag list
after `importDataMerge` is the stored list followed by the added tags, its names are
pairwise distinct after lower-casing, and `addedTags` is the number of tags appended. -/
theorem importDataMerge_tag_names_nodup (lower : String → String)
    (existingRecords : List Record) (existingTags : List Tag) (importData : ExportDocument)
    (h : (existingTags.map (fun t => lower t.name)).Nodup) :
    ((importDataMerge lower existingRecords existingTags importData).tags.map
      (fun t => lower t.name)).Nodup ∧
    ∃ added, (importDataMerge lower existingRecords existingTags importData).tags =
        existingTags ++ added ∧
      (importDataMerge lower existingRecords existingTags importData).addedTags =
        added.length ∧
      ∀ t ∈ added, t ∈ importData.tags := by
  have hinv := foldl_mergeTagStep_inv lower existingTags importData.tags importData.tags
    (fun _ hq => hq) _ (mergeTagsInv_init lower existingTags importData.tags h)
  obtain ⟨hnd, _, added, htags, hcount, hsub⟩ := hinv
  exact ⟨hnd, added, htags, hcount, hsub⟩

/-- C22 on a concrete import: the store holds `work`; of the imported `Work`, `Rest` and
`REST` only `Rest` is added. -/
theorem importDataMerge_tag_names_nodup_witness :
    (importDataMerge asciiLower [] [⟨"W", "work", "#111", false⟩]
      ⟨0, "1.0", 0, 0,
        [⟨"X", "Work", "#222", false⟩, ⟨"Y", "Rest", "#333", false⟩,
         ⟨"Z", "REST", "#444", false⟩], []⟩).tags =
      [⟨"W", "work", "#111", false⟩, ⟨"Y", "Rest", "#333", false⟩] ∧
    ((importDataMerge asciiLower [] [⟨"W", "work", "#111", false⟩]
      ⟨0, "1.0", 0, 0,
        [⟨"X", "Work", "#222", false⟩, ⟨"Y", "Rest", "#333", false⟩,
         ⟨"Z", "REST", "#444", false⟩], []⟩).tags.map (fun t => asciiLower t.name)).Nodup :=
  ⟨by decide,
   (importDataMerge_tag_names_nodup asciiLower [] [⟨"W", "work", "#111", false⟩]
      ⟨0, "1.0", 0, 0,
        [⟨"X", "Work", "#222", false⟩, ⟨"Y", "Rest", "#333", false⟩,
         ⟨"Z", "REST", "#444", false⟩], []⟩ (by decide)).1⟩

/-- Inserting into the order of clipped starts keeps the records of one clipped start in
order, the inserted record first. -/
theorem filter_orderedInsert_byClippedStart (t : Int) (a : ColumnRecord)
    (s : List ColumnRecord) :
    (List.orderedInsert byClippedStart a s).filter (fun r => decide (r.clippedStart = t)) =
      if a.clippedStart = t then a :: s.filter (fun r => decide (r.clippedStart = t))
      else s.filter (fun r => decide (r.clippedStart = t)) := by
  induction s with
  | nil =>
    by_cases ha : a.clippedStart = t <;> simp [List.orderedInsert, ha]
  | cons b s ih =>
    by_cases hab : byClippedStart a b
    · rw [List.orderedInsert, if_pos hab]
      by_cases ha : a.clippedStart = t <;> simp [ha]
    · rw [List.orderedInsert, if_neg hab, List.filter_cons, ih]
      by_cases ha : a.clippedStart = t
      · have hb : ¬ b.clippedStart = t := by
          unfold byClippedStart at hab
          omega
        simp [ha, hb]
      · simp [ha, List.filter_cons]

/-- The sort of the layout is stable: the records of one clipped start stay in the order
in which they were given. -/
theorem filter_insertionSort_byClippedStart (t : Int) (l : List ColumnRecord) :
    (l.insertionSort byClippedStart).filter (fun r => decide (r.clippedStart = t)) =
      l.filter (fun r => decide (r.clippedStart = t)) := by
  induction l with
  | nil => rfl
  | cons a l ih =>
    rw [List.insertionSort, filter_orderedInsert_byClippedStart, ih, List.filter_cons]
    by_cases ha : a.clippedStart = t <;> simp [ha]

/-- The two passes of the layout change neither the records, nor their clipped intervals,
nor their order. -/
theorem renderTimelineColumn_map_key (records : List Record) (columnStart columnEnd : Int) :
    (renderTimelineColumn records columnStart columnEnd).map
        (fun r => (r.record, r.clippedStart, r.clippedEnd)) =
      (sortedColumnRecords records columnStart columnEnd).map
        (fun r => (r.record, r.clippedStart, r.clippedEnd)) := by
  rw [renderTimelineColumn_eq]
  unfold countColumnsInSlot
  rw [List.map_map]
  have h := assignColumns_map_key (sortedColumnRecords records columnStart columnEnd) []
  rw [List.nil_append] at h
  rw [← h]
  rfl

/-- C25, as stated, fails: two records with the same clipped start are processed in the
order in which they were passed in, not in the order of their ids, and the columns follow
that order. -/
theorem layout_ties_follow_input_order :
    (renderTimelineColumn
      [⟨"b", "", [], hm 9 0, hm 10 0, 3600⟩, ⟨"a", "", [], hm 9 0, hm 9 30, 1800⟩]
      (hm 0 0) (hm 12 0)).map (fun r => (r.record.id, r.column)) =
      [("b", some 0), ("a", some 1)] ∧
    (renderTimelineColumn
      [⟨"a", "", [], hm 9 0, hm 9 30, 1800⟩, ⟨"b", "", [], hm 9 0, hm 10 0, 3600⟩]
      (hm 0 0) (hm 12 0)).map (fun r => (r.record.id, r.column)) =
      [("a", some 0), ("b", some 1)] := by
  decide

/-- C25, amended: the layout processes the clipped records in ascending order of clipped
start time, and the records with one and the same clipped start time are processed in
the order in which they were passed in. -/
theorem layout_processing_order (records : List Record) (columnStart columnEnd : Int) :
    (renderTimelineColumn records columnStart columnEnd).Pairwise
      (fun a b => a.clippedStart ≤ b.clippedStart) ∧
    ∀ t : Int,
      ((renderTimelineColumn records columnStart columnEnd).filter
        (fun r => decide (r.clippedStart = t))).map (fun r => r.record) =
      ((records.filterMap (clipRecord columnStart columnEnd)).filter
        (fun r => decide (r.clippedStart = t))).map (fun r => r.record) := by
  have hkey := renderTimelineColumn_map_key records columnStart columnEnd
  constructor
  · have hs : (sortedColumnRecords records columnStart columnEnd).Pairwise
        (fun a b => a.clippedStart ≤ b.clippedStart) :=
      List.sorted_insertionSort byClippedStart _
    have h1 : ((sortedColumnRecords records columnStart columnEnd).map
        (fun r => (r.record, r.clippedStart, r.clippedEnd))).Pairwise
        (fun a b => a.2.1 ≤ b.2.1) := List.pairwise_map.mpr hs
    rw [← hkey] at h1
    exact (List.pairwise_map (f := fun r : ColumnRecord =>
      (r.record, r.clippedStart, r.clippedEnd))
      (R := fun a b => a.2.1 ≤ b.2.1)).mp h1
  · intro t
    have hfil : ∀ l : List ColumnRecord,
        (l.filter (fun r => decide (r.clippedStart = t))).map (fun r => r.record) =
          ((l.map (fun r => (r.record, r.clippedStart, r.clippedEnd))).filter
            (fun k => decide (k.2.1 = t))).map (fun k => k.1) := by
      intro l
      rw [List.filter_map, List.map_map]
      rfl
    rw [hfil, hkey, ← hfil]
    unfold sortedColumnRecords
    rw [filter_insertionSort_byClippedStart]

theorem exists_max_of_ne_nil (l : List Nat) (h : l ≠ []) : ∃ m ∈ l, ∀ c ∈ l, c ≤ m := by
  induction l with
  | nil => exact absurd rfl h
  | cons a l ih =>
    by_cases hl : l = []
    · subst hl
      exact ⟨a, List.mem_cons_self _ _, fun c hc => by simp at hc; omega⟩
    · obtain ⟨m, hm, hmax⟩ := ih hl
      by_cases ham : a ≤ m
      · refine ⟨m, List.mem_cons_of_mem _ hm, ?_⟩
        intro c hc
        rcases List.mem_cons.mp hc with hc | hc
        · omega
        · exact hmax c hc
      · refine ⟨a, List.mem_cons_self _ _, ?_⟩
        intro c hc
        rcases List.mem_cons.mp hc with hc | hc
        · omega
        · have := hmax c hc
          omega

/-- The first pass keeps the order of clipped starts. -/
theorem assignColumns_sorted (records : List Record) (columnStart columnEnd : Int) :
    (assignColumns [] (sortedColumnRecords records columnStart columnEnd)).Pairwise
      (fun a b => a.clippedStart ≤ b.clippedStart) := by
  have hs : (sortedColumnRecords records columnStart columnEnd).Pairwise
      (fun a b => a.clippedStart ≤ b.clippedStart) :=
    List.sorted_insertionSort byClippedStart _
  have h1 : ((sortedColumnRecords records columnStart columnEnd).map
      (fun r => (r.record, r.clippedStart, r.clippedEnd))).Pairwise
      (fun a b => a.2.1 ≤ b.2.1) := List.pairwise_map.mpr hs
  have hkey := assignColumns_map_key (sortedColumnRecords records columnStart columnEnd) []
  rw [List.nil_append] at hkey
  rw [← hkey] at h1
  exact (List.pairwise_map (f := fun r : ColumnRecord =>
    (r.record, r.clippedStart, r.clippedEnd)) (R := fun a b => a.2.1 ≤ b.2.1)).mp h1

/-- In the first pass the column of a record is smaller than the number of records holding
the instant at which the record starts. -/
theorem assignColumns_column_lt_sharing (records : List Record)
    (columnStart columnEnd : Int) (y : ColumnRecord) (c : Nat)
    (hy : y ∈ assignColumns [] (sortedColumnRecords records columnStart columnEnd))
    (hc : y.column = some c) :
    c + 1 ≤ sharingInstant
      (assignColumns [] (sortedColumnRecords records columnStart columnEnd))
      y.clippedStart := by
  obtain ⟨m₁, m₂, hl⟩ := List.append_of_mem hy
  obtain ⟨c', hc', hle, _⟩ :=
    assignColumns_column_lt records columnStart columnEnd m₁ m₂ y hl
  have hcc : c' = c := by
    rw [hc] at hc'
    exact (Option.some.inj hc').symm
  subst hcc
  have hsorted := assignColumns_sorted records columnStart columnEnd
  rw [hl, List.pairwise_append] at hsorted
  have hbefore : ∀ o ∈ m₁, o.clippedStart ≤ y.clippedStart :=
    fun o ho => hsorted.2.2 o ho y (List.mem_cons_self _ _)
  have hmono : m₁.countP (fun o => overlapsInColumn o y) ≤
      m₁.countP (fun o => decide (o.clippedStart ≤ y.clippedStart ∧
        y.clippedStart < o.clippedEnd)) := by
    apply List.countP_mono_left
    intro o ho hov
    rw [overlapsInColumn_eq, decide_eq_true_eq] at hov
    exact decide_eq_true ⟨hbefore o ho, hov.1⟩
  have hlt := mem_assignColumns_lt records columnStart columnEnd y hy
  have hself : decide (y.clippedStart ≤ y.clippedStart ∧ y.clippedStart < y.clippedEnd) =
      true := decide_eq_true ⟨le_refl _, hlt⟩
  unfold sharingInstant
  rw [hl, List.countP_append, List.countP_cons, hself]
  simp only [if_true]
  omega

/-- The first pass uses at most as many columns as there are records holding some common
instant. -/
theorem assignColumns_distinct_le_sharing (records : List Record)
    (columnStart columnEnd : Int) :
    ∃ t, distinctColumns
        (assignColumns [] (sortedColumnRecords records columnStart columnEnd)) ≤
      sharingInstant
        (assignColumns [] (sortedColumnRecords records columnStart columnEnd)) t := by
  obtain ⟨hsome, _⟩ := assignColumns_distinct records columnStart columnEnd
  by_cases hnil : (assignColumns []
      (sortedColumnRecords records columnStart columnEnd)).filterMap (fun r => r.column) = []
  · refine ⟨0, ?_⟩
    have hempty : assignColumns [] (sortedColumnRecords records columnStart columnEnd) = [] := by
      cases hL : assignColumns [] (sortedColumnRecords records columnStart columnEnd) with
      | nil => rfl
      | cons x xs =>
        obtain ⟨c, hc⟩ := hsome x (by rw [hL]; exact List.mem_cons_self _ _)
        rw [hL] at hnil
        simp [List.filterMap_cons, hc] at hnil
    rw [hempty]
    simp [distinctColumns]
  · obtain ⟨m, hm, hmax⟩ := exists_max_of_ne_nil _ hnil
    rw [List.mem_filterMap] at hm
    obtain ⟨y, hy, hym⟩ := hm
    refine ⟨y.clippedStart, ?_⟩
    have hbound := assignColumns_column_lt_sharing records columnStart columnEnd y m hy hym
    have hsub : ((assignColumns []
        (sortedColumnRecords records columnStart columnEnd)).map
          (fun r => r.column)).dedup ⊆ (List.range (m + 1)).map some := by
      intro v hv
      rw [List.mem_dedup, List.mem_map] at hv
      obtain ⟨x, hx, hxv⟩ := hv
      obtain ⟨c, hc⟩ := hsome x hx
      have hcm : c ≤ m := hmax c (List.mem_filterMap.mpr ⟨x, hx, hc⟩)
      rw [List.mem_map]
      exact ⟨c, List.mem_range.mpr (by omega), by rw [← hxv, hc]⟩
    have hlen := ((List.nodup_dedup _).subperm hsub).length_le
    simp only [List.length_map, List.length_range] at hlen
    unfold distinctColumns
    omega

/-- The records holding a common instant have pairwise distinct columns after the first
pass, so they are at most as many as the columns used. -/
theorem assignColumns_sharing_le_distinct (records : List Record)
    (columnStart columnEnd : Int) (t : Int) :
    sharingInstant
        (assignColumns [] (sortedColumnRecords records columnStart columnEnd)) t ≤
      distinctColumns
        (assignColumns [] (sortedColumnRecords records columnStart columnEnd)) := by
  obtain ⟨_, hpw⟩ := assignColumns_distinct records columnStart columnEnd
  have hsubpw := hpw.filter
    (fun o => decide (o.clippedStart ≤ t ∧ t < o.clippedEnd))
  have hne : ((assignColumns [] (sortedColumnRecords records columnStart columnEnd)).filter
      (fun o => decide (o.clippedStart ≤ t ∧ t < o.clippedEnd))).Pairwise
      (fun a b => a.column ≠ b.column) := by
    refine hsubpw.imp_of_mem ?_
    intro a b ha hb hab
    have ha' := (List.mem_filter.mp ha).2
    have hb' := (List.mem_filter.mp hb).2
    rw [decide_eq_true_eq] at ha' hb'
    apply hab
    rw [overlapsInColumn_eq]
    exact decide_eq_true ⟨by omega, by omega⟩
  have hnd : (((assignColumns [] (sortedColumnRecords records columnStart columnEnd)).filter
      (fun o => decide (o.clippedStart ≤ t ∧ t < o.clippedEnd))).map
      (fun r => r.column)).Nodup := List.pairwise_map.mpr hne
  have hsub : ((assignColumns [] (sortedColumnRecords records columnStart columnEnd)).filter
      (fun o => decide (o.clippedStart ≤ t ∧ t < o.clippedEnd))).map (fun r => r.column) ⊆
      ((assignColumns [] (sortedColumnRecords records columnStart columnEnd)).map
        (fun r => r.column)).dedup := by
    intro v hv
    rw [List.mem_map] at hv
    obtain ⟨x, hx, hxv⟩ := hv
    rw [List.mem_dedup, List.mem_map]
    exact ⟨x, List.mem_of_mem_filter hx, hxv⟩
  have hlen := (hnd.subperm hsub).length_le
  rw [List.length_map, ← List.countP_eq_length_filter] at hlen
  exact hlen

/-- The second pass changes neither the columns nor the clipped intervals. -/
theorem renderTimelineColumn_counts (records : List Record) (columnStart columnEnd : Int) :
    distinctColumns (renderTimelineColumn records columnStart columnEnd) =
      distinctColumns
        (assignColumns [] (sortedColumnRecords records columnStart columnEnd)) ∧
    ∀ t, sharingInstant (renderTimelineColumn records columnStart columnEnd) t =
      sharingInstant
        (assignColumns [] (sortedColumnRecords records columnStart columnEnd)) t := by
  rw [renderTimelineColumn_eq]
  unfold countColumnsInSlot distinctColumns sharingInstant
  constructor
  · rw [List.map_map]
    rfl
  · intro t
    rw [List.countP_map]
    rfl

/-- Any assignment of columns to the records of a list that keeps overlapping records
apart uses at least as many columns as there are records holding a common instant. -/
theorem sharing_le_of_separating (layout : List ColumnRecord) (cols : List Nat)
    (hlen : cols.length = layout.length)
    (hsep : (layout.zip cols).Pairwise
      (fun a b => overlapsInColumn a.1 b.1 = true → a.2 ≠ b.2)) (t : Int) :
    sharingInstant layout t ≤ cols.dedup.length := by
  have hsubpw := hsep.filter
    (fun z => decide (z.1.clippedStart ≤ t ∧ t < z.1.clippedEnd))
  have hne : ((layout.zip cols).filter
      (fun z => decide (z.1.clippedStart ≤ t ∧ t < z.1.clippedEnd))).Pairwise
      (fun a b => a.2 ≠ b.2) := by
    refine hsubpw.imp_of_mem ?_
    intro a b ha hb hab
    have ha' := (List.mem_filter.mp ha).2
    have hb' := (List.mem_filter.mp hb).2
    rw [decide_eq_true_eq] at ha' hb'
    apply hab
    rw [overlapsInColumn_eq]
    exact decide_eq_true ⟨by omega, by omega⟩
  have hnd : (((layout.zip cols).filter
      (fun z => decide (z.1.clippedStart ≤ t ∧ t < z.1.clippedEnd))).map
      (fun z => z.2)).Nodup := List.pairwise_map.mpr hne
  have hsub : ((layout.zip cols).filter
      (fun z => decide (z.1.clippedStart ≤ t ∧ t < z.1.clippedEnd))).map (fun z => z.2) ⊆
      cols.dedup := by
    intro v hv
    rw [List.mem_map] at hv
    obtain ⟨z, hz, hzv⟩ := hv
    rw [List.mem_dedup, ← hzv]
    exact (List.of_mem_zip (List.mem_of_mem_filter hz)).2
  have hl := (hnd.subperm hsub).length_le
  rw [List.length_map, ← List.countP_eq_length_filter] at hl
  have hcount : (layout.zip cols).countP
      (fun z => decide (z.1.clippedStart ≤ t ∧ t < z.1.clippedEnd)) =
      sharingInstant layout t := by
    unfold sharingInstant
    have hfst : (layout.zip cols).map Prod.fst = layout :=
      List.map_fst_zip layout cols (by omega)
    conv_rhs => rw [← hfst]
    rw [List.countP_map]
    rfl
  rw [hcount] at hl
  exact hl

/-- The negation of C26: there is no record list and window for which the layout of
`renderTimelineColumn` uses more distinct columns than the largest number of laid-out
records sharing a common instant. -/
theorem first_fit_never_exceeds_sharing :
    ¬ ∃ (records : List Record) (columnStart columnEnd : Int),
      ∀ t, sharingInstant (renderTimelineColumn records columnStart columnEnd) t <
        distinctColumns (renderTimelineColumn records columnStart columnEnd) := by
  rintro ⟨records, columnStart, columnEnd, h⟩
  obtain ⟨hd, hs⟩ := renderTimelineColumn_counts records columnStart columnEnd
  obtain ⟨t, ht⟩ := assignColumns_distinct_le_sharing records columnStart columnEnd
  have := h t
  rw [hd, hs t] at this
  omega

/-- C26, amended: the first-fit assignment of `renderTimelineColumn`, run in ascending
order of clipped start, uses the minimum number of columns. For every record list and
window the number of distinct columns assigned is reached by the number of laid-out
records sharing some common instant, never falls below the number sharing any instant,
and no assignment that keeps overlapping records apart uses fewer columns. -/
theorem layout_first_fit_minimal (records : List Record) (columnStart columnEnd : Int) :
    (∃ t, distinctColumns (renderTimelineColumn records columnStart columnEnd) ≤
      sharingInstant (renderTimelineColumn records columnStart columnEnd) t) ∧
    (∀ t, sharingInstant (renderTimelineColumn records columnStart columnEnd) t ≤
      distinctColumns (renderTimelineColumn records columnStart columnEnd)) ∧
    (∀ cols : List Nat,
      cols.length = (renderTimelineColumn records columnStart columnEnd).length →
      ((renderTimelineColumn records columnStart columnEnd).zip cols).Pairwise
        (fun a b => overlapsInColumn a.1 b.1 = true → a.2 ≠ b.2) →
      distinctColumns (renderTimelineColumn records columnStart columnEnd) ≤
        cols.dedup.length) := by
  obtain ⟨hd, hs⟩ := renderTimelineColumn_counts records columnStart columnEnd
  obtain ⟨t, ht⟩ := assignColumns_distinct_le_sharing records columnStart columnEnd
  refine ⟨⟨t, by rw [hd, hs t]; exact ht⟩, ?_, ?_⟩
  · intro u
    rw [hd, hs u]
    exact assignColumns_sharing_le_distinct records columnStart columnEnd u
  · intro cols hlen hsep
    have h1 : distinctColumns (renderTimelineColumn records columnStart columnEnd) ≤
        sharingInstant (renderTimelineColumn records columnStart columnEnd) t := by
      rw [hd, hs t]
      exact ht
    exact Nat.le_trans h1 (sharing_le_of_separating _ cols hlen hsep t)

/-- An example for C26: on the records of the collision example the layout uses two
columns, and two records share the instant 09:30. -/
theorem layout_first_fit_example :
    distinctColumns (renderTimelineColumn
      [⟨"a", "", [], hm 9 0, hm 10 0, 3600⟩, ⟨"b", "", [], hm 9 30, hm 11 0, 5400⟩,
       ⟨"c", "", [], hm 10 30, hm 11 30, 3600⟩] (hm 0 0) (hm 12 0)) = 2 ∧
    sharingInstant (renderTimelineColumn
      [⟨"a", "", [], hm 9 0, hm 10 0, 3600⟩, ⟨"b", "", [], hm 9 30, hm 11 0, 5400⟩,
       ⟨"c", "", [], hm 10 30, hm 11 30, 3600⟩] (hm 0 0) (hm 12 0)) (hm 9 30) = 2 := by
  decide

end TimeTracker
